import Mathlib

/-! ImageProcessor: upload saga, delete operation and processing worker.

A shallow embedding of the Go packages `models`, `image_service`, `handlers`,
`worker_service`, `messagebroker` and `modifer`, with the parts of `encoding/json`,
`unicode/utf8`, `time` and `image` that they use.

* Go interface values (`Repo`, `FileStorage`, `Produce`, `Consume`, `Modifier`) become
  records of state-passing functions over an arbitrary world type `σ`; a Go `error`
  result is an `Option Error` (`none` is `nil`).
* `uuid.New()` and `time.Now()` are inputs of `UploadImage`.
* Logging has no effect on any value the code computes and is left out.
* `json.Unmarshal` is a field of the worker and `json.Marshal` a field of the
  producer, functions of the payload and of the command.
* Go strings are byte strings; the path functions only test for the ASCII bytes `.`
  and `/`, which never occur inside a multi-byte UTF-8 sequence, so they are embedded
  over characters. `path/filepath` is taken on Unix, where the separator is `/`.
-/

namespace ImageProcessor

/-! ## Errors -/

/-- Go `error` values: an error made elsewhere (`text`), or `fmt.Errorf("msg: %w", err)`,
which keeps the wrapped error reachable through `Unwrap`. -/
inductive Error where
  | text (msg : String)
  | wrap (msg : String) (err : Error)
  deriving DecidableEq, Repr

/-- The error built by `fmt.Errorf(msg + ": %w", err)`. -/
def Errorf (msg : String) (err : Error) : Error := Error.wrap msg err

/-- The message of an error, what its method `Error()` returns. -/
def Error.Message : Error → String
  | .text msg => msg
  | .wrap msg err => msg ++ ": " ++ err.Message

/-- The function `errors.Unwrap`. -/
def Error.Unwrap : Error → Option Error
  | .text _ => none
  | .wrap _ err => some err

/-- A byte string: a `[]byte`, or what an `io.Reader` yields. -/
abbrev Bytes := List (Fin 256)

/-! ## package models -/

namespace models

/-- A `time.Time`, as an instant in nanoseconds. -/
structure Time where
  nanos : Int
  deriving DecidableEq, Repr

def ResizeToWidth : Nat := 1024
def ResizeToHeight : Nat := 768
def ThumbnailToWidth : Nat := 128
def ThumbnailToHeight : Nat := 128

/-- The format `ProcessPath = "processed/%s/%s"` applied by `fmt.Sprintf`. -/
def ProcessPath (operation baseFilename : String) : String :=
  "processed/" ++ operation ++ "/" ++ baseFilename

/-- The format `OriginalPath = "original/%s%s"` applied by `fmt.Sprintf`. -/
def OriginalPath (id extension : String) : String :=
  "original/" ++ id ++ extension

/-- The entries of the map `AllowedExtensions`. -/
def AllowedExtensionsEntries : List (String × Bool) :=
  [(".jpg", true), (".png", true), (".gif", true)]

/-- Indexing the Go map `AllowedExtensions`: a missing key reads as `false`. -/
def AllowedExtensions (extension : String) : Bool :=
  (AllowedExtensionsEntries.lookup extension).getD false

def RequestedOperations : List String := ["resize", "thumbnail", "watermark"]

/-- The string type `TaskStatus`. -/
abbrev TaskStatus := String

def StatusFailed : TaskStatus := "FAILED"
def StatusProcessing : TaskStatus := "PROCESSING"
def StatusComplete : TaskStatus := "COMPLETE"

structure Task where
  ID : String
  Status : TaskStatus
  OriginalPath : String
  RequestedOperations : List String
  CreatedAt : Time
  deriving DecidableEq, Repr

structure ProcessingCommand where
  ID : String
  OriginalPath : String
  RequestedOperations : List String
  CreatedAt : Time
  deriving DecidableEq, Repr

end models

/-! ## Library functions used by the services -/

/-- A `uuid.UUID`: sixteen bytes. -/
structure UUID where
  bytes : Fin 16 → Fin 256

def hextable : List Char := "0123456789abcdef".toList

/-- Two hexadecimal digits of one byte, `hextable[b>>4]` and `hextable[b&0x0f]`. -/
def encodeByte (b : Fin 256) : List Char :=
  [hextable.getD (b.val / 16) '0', hextable.getD (b.val % 16) '0']

/-- The method `UUID.String`: `xxxxxxxx-xxxx-xxxx-xxxx-xxxxxxxxxxxx`. -/
def UUID.String (u : UUID) : String :=
  String.mk
    (encodeByte (u.bytes 0) ++ encodeByte (u.bytes 1) ++ encodeByte (u.bytes 2)
      ++ encodeByte (u.bytes 3) ++ ['-']
      ++ encodeByte (u.bytes 4) ++ encodeByte (u.bytes 5) ++ ['-']
      ++ encodeByte (u.bytes 6) ++ encodeByte (u.bytes 7) ++ ['-']
      ++ encodeByte (u.bytes 8) ++ encodeByte (u.bytes 9) ++ ['-']
      ++ encodeByte (u.bytes 10) ++ encodeByte (u.bytes 11) ++ encodeByte (u.bytes 12)
      ++ encodeByte (u.bytes 13) ++ encodeByte (u.bytes 14) ++ encodeByte (u.bytes 15))

/-- The test `os.IsPathSeparator` on Unix. -/
def IsPathSeparator (c : Char) : Bool := c == '/'

/-- The loop of `filepath.Ext`, scanning from the last character towards the first:
`rev` holds the characters still to scan, last first, and `suffix` those already
scanned. -/
def extLoop : List Char → List Char → List Char
  | [], _ => []
  | c :: rev, suffix =>
    if IsPathSeparator c then []
    else if c == '.' then c :: suffix
    else extLoop rev (c :: suffix)

/-- The function `filepath.Ext`: the suffix beginning at the final dot in the final
element of path, empty if there is no dot. -/
def Ext (path : String) : String :=
  String.mk (extLoop path.toList.reverse [])

/-- The function `filepath.Base` on Unix: the last element of path, after removing
trailing slashes; `.` for the empty path and `/` for a path of slashes only. -/
def Base (path : String) : String :=
  if path = "" then "."
  else
    let stripped := (path.toList.reverse.dropWhile IsPathSeparator).reverse
    let last := (stripped.reverse.takeWhile (fun c => !IsPathSeparator c)).reverse
    if last = [] then "/" else String.mk last

/-- A `kafka.Message`. -/
structure Message where
  Topic : String
  Partition : Int
  Offset : Int
  Key : Bytes
  Value : Bytes
  deriving DecidableEq, Repr

/-! ## package image_service

The services reach the Blob Store, the Task Store, the Message Channel and the
Transform Library through Go interfaces. An interface value is embedded as a record of
functions that take the current world and return the result with the next world. -/

namespace image_service
open models

/-- The interface `image_service.Repo`. -/
structure Repo (σ : Type) where
  CreateTask : Task → σ → Option Error × σ
  UpdateStatus : String → TaskStatus → σ → Option Error × σ
  GetTask : String → σ → Except Error Task × σ
  DeleteTask : String → σ → Option Error × σ

/-- The interface `image_service.FileStorage`. -/
structure FileStorage (σ : Type) where
  Save : String → Bytes → σ → Option Error × σ
  Delete : String → σ → Option Error × σ

/-- The interface `image_service.Produce`. -/
structure Produce (σ : Type) where
  Publish : ProcessingCommand → σ → Option Error × σ

structure ImageService (σ : Type) where
  repo : Repo σ
  storage : FileStorage σ
  produce : Produce σ

/-- The method `ImageService.UploadImage`; `u` is the value of `uuid.New()` and `now`
that of `time.Now()`. Returns the pair `(string, error)`. -/
def ImageService.UploadImage {σ : Type} (s : ImageService σ) (u : UUID) (now : Time)
    (image : Bytes) (extension : String) : StateM σ (String × Option Error) := do
  let id := u.String
  let imagePath := OriginalPath id extension
  match ← s.storage.Save imagePath image with
  | some err => return ("", some (Errorf "failed to save image" err))
  | none =>
    let task : Task :=
      { ID := id, Status := StatusProcessing, OriginalPath := imagePath,
        RequestedOperations := RequestedOperations, CreatedAt := now }
    match ← s.repo.CreateTask task with
    | some err =>
      let _cleanupErr ← s.storage.Delete imagePath
      return ("", some (Errorf "failed to create task" err))
    | none =>
      let processingMessage : ProcessingCommand :=
        { ID := task.ID, OriginalPath := task.OriginalPath,
          RequestedOperations := task.RequestedOperations, CreatedAt := task.CreatedAt }
      match ← s.produce.Publish processingMessage with
      | some err =>
        let _cleanupErr ← s.storage.Delete imagePath
        let _cleanupErr ← s.repo.DeleteTask id
        return ("", some (Errorf "failed to publish task" err))
      | none => return (id, none)

/-- The method `ImageService.GetImage`. -/
def ImageService.GetImage {σ : Type} (s : ImageService σ) (id : String) :
    StateM σ (Except Error Task) := do
  match ← s.repo.GetTask id with
  | .error err => return .error (Errorf "failed to get task" err)
  | .ok task => return .ok task

/-- The loop `for _, operation := range models.RequestedOperations` of `DeleteImage`. -/
def ImageService.deleteProcessed {σ : Type} (s : ImageService σ) (baseFilename : String) :
    List String → StateM σ Unit
  | [] => return ()
  | operation :: rest => do
    let processedPath := ProcessPath operation baseFilename
    let _err ← s.storage.Delete processedPath
    s.deleteProcessed baseFilename rest

/-- The method `ImageService.DeleteImage`. -/
def ImageService.DeleteImage {σ : Type} (s : ImageService σ) (id : String) :
    StateM σ (Option Error) := do
  match ← s.repo.GetTask id with
  | .error _ => return none
  | .ok task =>
    let _err ← s.storage.Delete task.OriginalPath
    let baseFilename := Base task.OriginalPath
    s.deleteProcessed baseFilename RequestedOperations
    match ← s.repo.DeleteTask id with
    | some err => return some (Errorf "failed to delete task record" err)
    | none => return none

end image_service

/-! ## package handlers -/

namespace handlers
open models

/-- A `multipart.FileHeader`: the submitted file name, and what `Open` followed by
reading the file yields. -/
structure FileHeader where
  Filename : String
  Open : Except Error Bytes

/-- What the upload handler reads of its `gin.Context`: the result of
`c.FormFile("image")`. -/
structure Context where
  FormFile : Except Error FileHeader

/-- The response written by `c.JSON(status, gin.H{...})`. -/
structure Response where
  status : Nat
  body : List (String × String)
  deriving DecidableEq, Repr

def StatusOK : Nat := 200
def StatusBadRequest : Nat := 400
def StatusInternalServerError : Nat := 500

structure ImageHandler (σ : Type) where
  imageService : image_service.ImageService σ

/-- The method `ImageHandler.UploadImage`; `u` and `now` are handed on to the
service. -/
def ImageHandler.UploadImage {σ : Type} (h : ImageHandler σ) (u : UUID) (now : Time)
    (c : Context) : StateM σ Response := do
  match c.FormFile with
  | .error _ => return ⟨StatusBadRequest, [("error", "Failed to get file")]⟩
  | .ok fileHeader =>
    let extension := Ext fileHeader.Filename
    if extension = "" then
      return ⟨StatusBadRequest, [("error", "file must have an extension")]⟩
    else if !AllowedExtensions extension then
      return ⟨StatusBadRequest, [("error", "file extension is not allowed")]⟩
    else
      match fileHeader.Open with
      | .error _ => return ⟨StatusBadRequest, [("error", "Failed to open file")]⟩
      | .ok file =>
        match ← h.imageService.UploadImage u now file extension with
        | (_, some _) =>
          return ⟨StatusInternalServerError, [("error", "failed to start image processing")]⟩
        | (taskID, none) => return ⟨StatusOK, [("taskID", taskID)]⟩

end handlers

/-! ## package worker_service -/

namespace worker_service
open models

/-- The interface `worker_service.Consume` (`Close` is not called by the loop). -/
structure Consume (σ : Type) where
  FetchMessage : σ → Except Error Message × σ
  CommitMessage : Message → σ → Option Error × σ

/-- The interface `worker_service.Modifier`. -/
structure Modifier (σ : Type) where
  Resize : String → String → Nat → Nat → σ → Option Error × σ
  Thumbnail : String → String → Nat → Nat → σ → Option Error × σ
  Watermark : String → String → σ → Option Error × σ

/-- The interface `worker_service.Repo`. -/
structure Repo (σ : Type) where
  UpdateStatus : String → TaskStatus → σ → Option Error × σ

/-- The struct `Worker`. The field `Unmarshal` stands for `json.Unmarshal` into a
`models.Task`, a function of the payload alone. -/
structure Worker (σ : Type) where
  consume : Consume σ
  modifier : Modifier σ
  repo : Repo σ
  Unmarshal : Bytes → Except Error Task

/-- The method `Worker.GetTask`. -/
def Worker.GetTask {σ : Type} (w : Worker σ) (msg : Message) : Except Error Task :=
  match w.Unmarshal msg.Value with
  | .error err => .error (Errorf "failed to unmarshal task" err)
  | .ok task => .ok task

/-- The method `Worker.failed`: the error of `UpdateStatus` is dropped. -/
def Worker.failed {σ : Type} (w : Worker σ) (id : String) : StateM σ Unit := do
  let _ ← w.repo.UpdateStatus id StatusFailed

/-- The body of the loop `for _, operation := range task.RequestedOperations` of
`Starting`: the `switch operation`. -/
def Worker.runOperation {σ : Type} (w : Worker σ) (task : Task) (operation : String) :
    StateM σ Unit := do
  let baseFilename := Base task.OriginalPath
  let processedPath := ProcessPath operation baseFilename
  if operation = "resize" then
    match ← w.modifier.Resize task.OriginalPath processedPath ResizeToWidth ResizeToHeight with
    | some _ => w.failed task.ID
    | none => return ()
  else if operation = "thumbnail" then
    match ← w.modifier.Thumbnail task.OriginalPath processedPath ThumbnailToWidth
        ThumbnailToHeight with
    | some _ => w.failed task.ID
    | none => return ()
  else if operation = "watermark" then
    match ← w.modifier.Watermark task.OriginalPath processedPath with
    | some _ => w.failed task.ID
    | none => return ()
  else return ()

/-- The loop `for _, operation := range task.RequestedOperations` of `Starting`. -/
def Worker.runOperations {σ : Type} (w : Worker σ) (task : Task) :
    List String → StateM σ Unit
  | [] => return ()
  | operation :: rest => do
    w.runOperation task operation
    w.runOperations task rest

/-- The part of the loop body of `Starting` that follows a successful `GetTask`: the
operations, then `CommitMessage`, then `UpdateStatus(task.ID, StatusComplete)`. -/
def Worker.processTask {σ : Type} (w : Worker σ) (msg : Message) (task : Task) :
    StateM σ Unit := do
  w.runOperations task task.RequestedOperations
  let _ ← w.consume.CommitMessage msg
  let _ ← w.repo.UpdateStatus task.ID StatusComplete

/-- The `default` branch of the `select` in `Starting`: one pass of the loop body. -/
def Worker.iteration {σ : Type} (w : Worker σ) : StateM σ Unit := do
  match ← w.consume.FetchMessage with
  | .error _ => return ()
  | .ok msg =>
    match w.GetTask msg with
    | .error _ =>
      let _ ← w.consume.CommitMessage msg
      return ()
    | .ok task => w.processTask msg task

/-- A `context.Context` as the loop uses it. `Err` is the test `case <-ctx.Done()` at
the top of the loop: `some err` when the context is cancelled, with `err` the value of
`ctx.Err()`, and `none` when the `default` branch is taken. Cancellation comes from
outside the loop, so the test is a step of the world. -/
structure Context (σ : Type) where
  Err : σ → Option Error × σ

/-- The method `Worker.Starting`, run for at most `fuel` passes of its loop. The result
is `some err` when the loop returned `err`, and `none` when the fuel ran out with the
loop still running. -/
def Worker.Starting {σ : Type} (w : Worker σ) (ctx : Context σ) :
    Nat → StateM σ (Option Error)
  | 0 => return none
  | fuel + 1 => do
    match ← ctx.Err with
    | some err => return some err
    | none =>
      w.iteration
      w.Starting ctx fuel

end worker_service

/-! ## The wire format: packages unicode/utf8, time and encoding/json

`Producer.Publish` marshals a `models.ProcessingCommand` and `Worker.GetTask`
unmarshals the payload into a `models.Task`. The three packages of the standard library
that do this work are embedded as far as these two structs reach them, on texts as
lists of bytes, each byte a natural number below 256:

* the encoder of package json on a struct with strings, a slice of strings and a
  `time.Time`, with `escapeHTML` set as `json.Marshal` sets it;
* the scanner of package json, which accepts the texts that are valid JSON, and the
  decoder into a struct: each key matched to a field by its tag, exactly or else
  ignoring case, a member with no matching field skipped, an error of type saved
  while decoding goes on, an error of `UnmarshalJSON` ending the decoding;
* `Time.MarshalJSON` and `Time.UnmarshalJSON` of package time, which write and read
  the layout of RFC 3339.

Two parts of the libraries are left as parameters of `json.Unmarshal`: the general
layout parser of package time, which `Time.UnmarshalJSON` falls back to for a text that
is not in the plain form of RFC 3339, and the capacity that the runtime grows a slice
to. A Go value carries two things that the embedded `models.Time` and `List String`
leave out, and `json.Marshal` takes them beside the command: the offset of the zone of
`CreatedAt`, and whether `RequestedOperations` is a nil slice. A Go string is embedded
as a sequence of characters, so the strings of the embedding are the Go strings that
are valid UTF-8; for bytes that are not, the encoder writes U+FFFD. -/

/-! ## package unicode/utf8

Texts are lists of bytes, each byte a natural number below 256. -/

namespace utf8

/-- The rune `utf8.RuneError`, U+FFFD. -/
def RuneError : Char := Char.ofNat 0xFFFD

/-- The bytes that `utf8.AppendRune` writes for a rune. -/
def EncodeRune (r : Char) : List Nat :=
  if r.toNat < 0x80 then [r.toNat]
  else if r.toNat < 0x800 then [0xC0 + r.toNat / 64, 0x80 + r.toNat % 64]
  else if r.toNat < 0x10000 then
    [0xE0 + r.toNat / 4096, 0x80 + r.toNat / 64 % 64, 0x80 + r.toNat % 64]
  else
    [0xF0 + r.toNat / 262144, 0x80 + r.toNat / 4096 % 64, 0x80 + r.toNat / 64 % 64,
      0x80 + r.toNat % 64]

/-- Whether a byte is a continuation byte, `0x80` to `0xBF`. -/
def isCont (b : Nat) : Bool := 0x80 ≤ b && b ≤ 0xBF

/-- The function `utf8.DecodeRune`: the first rune of the bytes and its width; for an
invalid or short encoding `(RuneError, 1)`, for no bytes `(RuneError, 0)`. -/
def DecodeRune : List Nat → Char × Nat
  | [] => (RuneError, 0)
  | b0 :: rest =>
    if b0 < 0x80 then (Char.ofNat b0, 1)
    else if b0 < 0xC2 then (RuneError, 1)
    else if b0 < 0xE0 then
      match rest with
      | b1 :: _ =>
        if isCont b1 then (Char.ofNat ((b0 - 0xC0) * 64 + (b1 - 0x80)), 2) else (RuneError, 1)
      | [] => (RuneError, 1)
    else if b0 < 0xF0 then
      match rest with
      | b1 :: b2 :: _ =>
        if (if b0 = 0xE0 then 0xA0 else 0x80) ≤ b1 ∧ b1 ≤ (if b0 = 0xED then 0x9F else 0xBF) ∧
            isCont b2 = true then
          (Char.ofNat (((b0 - 0xE0) * 64 + (b1 - 0x80)) * 64 + (b2 - 0x80)), 3)
        else (RuneError, 1)
      | _ => (RuneError, 1)
    else if b0 < 0xF5 then
      match rest with
      | b1 :: b2 :: b3 :: _ =>
        if (if b0 = 0xF0 then 0x90 else 0x80) ≤ b1 ∧ b1 ≤ (if b0 = 0xF4 then 0x8F else 0xBF) ∧
            isCont b2 = true ∧ isCont b3 = true then
          (Char.ofNat ((((b0 - 0xF0) * 64 + (b1 - 0x80)) * 64 + (b2 - 0x80)) * 64 +
            (b3 - 0x80)), 4)
        else (RuneError, 1)
      | _ => (RuneError, 1)
    else (RuneError, 1)

end utf8

/-! ## package time: the RFC 3339 text of a `time.Time`

A `models.Time` is an instant, in nanoseconds since the Unix epoch. The zone that a Go
`time.Time` carries enters where it is read, as its offset at that instant in seconds
east of UTC. Days are counted from January 1 of year 1 in the proleptic Gregorian
calendar, which is day 0. -/

namespace time
open models

/-- The function `isLeap`: whether a year is a leap year of the Gregorian calendar. -/
def isLeap (year : Int) : Bool := year % 4 == 0 && (year % 100 != 0 || year % 400 == 0)

/-- The table `daysBefore`: the days of a year that is not a leap year before the
month after month `m`, so `daysBefore 1 = 31`. -/
def daysBefore (m : Nat) : Nat :=
  [0, 31, 59, 90, 120, 151, 181, 212, 243, 273, 304, 334, 365].getD m 365

/-- The function `daysIn`: the days of month `m` in a year. -/
def daysIn (m : Nat) (year : Int) : Nat :=
  if m = 2 ∧ isLeap year = true then 29 else daysBefore m - daysBefore (m - 1)

/-- The days before January 1 of a year. -/
def daysBeforeYear (year : Int) : Int :=
  365 * (year - 1) + (year - 1) / 4 - (year - 1) / 100 + (year - 1) / 400

/-- The day of `year`-`month`-`day`, for a month from 1 to 12. -/
def dateToDays (year : Int) (month day : Nat) : Int :=
  daysBeforeYear year + daysBefore (month - 1) +
    (if isLeap year = true ∧ month ≥ 3 then 1 else 0) + (day - 1 : Int)

/-- The year of a day and the day within that year, from 0: whole cycles of 400 years,
then of 100 years, at most three, then of 4 years, then of one year, at most three. -/
def yearOfDays (days : Int) : Int × Int :=
  let n400 := days / 146097
  let d₁ := days - 146097 * n400
  let n100 := min (d₁ / 36524) 3
  let d₂ := d₁ - 36524 * n100
  let n4 := d₂ / 1461
  let d₃ := d₂ - 1461 * n4
  let n1 := min (d₃ / 365) 3
  (1 + 400 * n400 + 100 * n100 + 4 * n4 + n1, d₃ - 365 * n1)

/-- The month and the day of the month of a day of a year that is not a leap year, from
0: the month is first taken as if every month had 31 days, and is the next one when the
day is past its end. -/
def monthOf (day : Nat) : Nat × Nat :=
  if day ≥ daysBefore (day / 31 + 1) then (day / 31 + 2, day - daysBefore (day / 31 + 1) + 1)
  else (day / 31 + 1, day - daysBefore (day / 31) + 1)

/-- The month and the day of the month of the day `yday` of a year, from 0. In a leap
year day 59 is February 29, and a later day is taken one day back. -/
def monthDay (leap : Bool) (yday : Nat) : Nat × Nat :=
  if leap = true ∧ yday = 31 + 29 - 1 then (2, 29)
  else monthOf (if leap = true ∧ yday > 31 + 29 - 1 then yday - 1 else yday)

/-- The day of the Unix epoch, January 1 of 1970. -/
def unixEpochDay : Int := 719162

/-- The decimal digits of `n`, at least `width` of them: `appendInt` on a number that
is not negative. -/
def appendInt : Nat → Nat → List Nat
  | 0, n => if n = 0 then [] else (Nat.toDigits 10 n).map Char.toNat
  | width + 1, n => appendInt width (n / 10) ++ ['0'.toNat + n % 10]

/-- The function `appendNano` with the layout `.999999999`: nothing for no nanoseconds,
else a point and nine digits without the zeros at the end. -/
def appendNano (nanosec : Nat) : List Nat :=
  if nanosec = 0 then []
  else '.'.toNat :: ((appendInt 9 nanosec).reverse.dropWhile (· == '0'.toNat)).reverse

/-- The quotient of Go's `/` on `int`, which rounds towards zero. -/
def quo (a b : Int) : Int := Int.tdiv a b

/-- The method `Time.appendStrictRFC3339` from an empty buffer, on a time whose zone is
`offset` seconds east of UTC: the text in the layout `RFC3339Nano`, or the error for a
year outside 0 to 9999 or for a zone of 24 hours or more. The seconds of the offset are
not written. -/
def appendStrictRFC3339 (t : Time) (offset : Int) : Except Error (List Nat) :=
  let sec := t.nanos / 1000000000 + offset
  let nanosec := (t.nanos % 1000000000).toNat
  let days := sec / 86400 + unixEpochDay
  let clock := (sec % 86400).toNat
  let year := (yearOfDays days).1
  let yday := (yearOfDays days).2.toNat
  let zone := quo offset 60
  if year < 0 ∨ 9999 < year then .error (.text "year outside of range [0,9999]")
  else if offset ≠ 0 ∧ zone.natAbs / 60 ≥ 24 then
    .error (.text "timezone hour outside of range [0,23]")
  else
    .ok (appendInt 4 year.toNat ++ '-'.toNat :: appendInt 2 (monthDay (isLeap year) yday).1 ++
      '-'.toNat :: appendInt 2 (monthDay (isLeap year) yday).2 ++
      'T'.toNat :: appendInt 2 (clock / 3600) ++ ':'.toNat :: appendInt 2 (clock / 60 % 60) ++
      ':'.toNat :: appendInt 2 (clock % 60) ++ appendNano nanosec ++
      (if offset = 0 then ['Z'.toNat]
       else
        (if zone < 0 then '-'.toNat else '+'.toNat) :: appendInt 2 (zone.natAbs / 60) ++
          ':'.toNat :: appendInt 2 (zone.natAbs % 60)))

/-- The method `Time.MarshalJSON`. -/
def MarshalJSON (t : Time) (offset : Int) : Except Error (List Nat) :=
  match appendStrictRFC3339 t offset with
  | .ok b => .ok ('"'.toNat :: b ++ ['"'.toNat])
  | .error err => .error (Errorf "Time.MarshalJSON" err)

/-- Whether a byte is a decimal digit. -/
def isDigit (b : Nat) : Bool := '0'.toNat ≤ b && b ≤ '9'.toNat

/-- The closure `parseUint` of `parseRFC3339`: the number written by the digits `s`, if
they are digits and the number is from `min` to `max`. -/
def parseUint (s : List Nat) (min max : Nat) : Option Nat :=
  if s.all isDigit then
    if s.foldl (fun x c => x * 10 + (c - '0'.toNat)) 0 < min ∨
        max < s.foldl (fun x c => x * 10 + (c - '0'.toNat)) 0 then none
    else some (s.foldl (fun x c => x * 10 + (c - '0'.toNat)) 0)
  else none

/-- The function `parseNanoseconds` on the digits after the point: the first nine
count, scaled to nanoseconds. -/
def parseNanoseconds (digits : List Nat) : Nat :=
  (digits.take 9).foldl (fun x c => x * 10 + (c - '0'.toNat)) 0 *
    10 ^ (9 - (digits.take 9).length)

/-- The fraction of a second in `parseRFC3339`: for a point and at least one digit, the
nanoseconds of the digits and the text after them; else no nanoseconds and the text as
it is. -/
def parseFraction (s : List Nat) : Nat × List Nat :=
  match s with
  | point :: d :: rest =>
    if point = '.'.toNat ∧ isDigit d = true then
      (parseNanoseconds (d :: rest.takeWhile isDigit), rest.dropWhile isDigit)
    else (0, s)
  | _ => (0, s)

/-- The zone at the end of an RFC 3339 text, in seconds east of UTC: `Z`, or a sign,
two digits of hours up to 23, a colon and two digits of minutes up to 59. -/
def parseZone (s : List Nat) : Option Int :=
  match s with
  | [z] => if z = 'Z'.toNat then some 0 else none
  | [sign, h₁, h₂, colon, m₁, m₂] =>
    match parseUint [h₁, h₂] 0 23, parseUint [m₁, m₂] 0 59 with
    | some hr, some mm =>
      if (sign = '-'.toNat ∨ sign = '+'.toNat) ∧ colon = ':'.toNat then
        some (if sign = '-'.toNat then -(((hr * 60 + mm) * 60 : Nat) : Int)
          else (((hr * 60 + mm) * 60 : Nat) : Int))
      else none
    | _, _ => none
  | _ => none

/-- The function `parseRFC3339`, the fast path of parsing: the instant of a text in the
form `2006-01-02T15:04:05`, a fraction of a second if there is one, and a zone; `none`
for any other text. -/
def parseRFC3339 (s : List Nat) : Option Time :=
  match s with
  | y₁ :: y₂ :: y₃ :: y₄ :: dash₁ :: mo₁ :: mo₂ :: dash₂ :: d₁ :: d₂ :: tee :: h₁ :: h₂ ::
      colon₁ :: mi₁ :: mi₂ :: colon₂ :: s₁ :: s₂ :: rest =>
    match parseUint [y₁, y₂, y₃, y₄] 0 9999, parseUint [mo₁, mo₂] 1 12 with
    | some year, some month =>
      match parseUint [d₁, d₂] 1 (daysIn month year), parseUint [h₁, h₂] 0 23,
        parseUint [mi₁, mi₂] 0 59, parseUint [s₁, s₂] 0 59 with
      | some day, some hour, some min, some sec =>
        if dash₁ = '-'.toNat ∧ dash₂ = '-'.toNat ∧ tee = 'T'.toNat ∧ colon₁ = ':'.toNat ∧
            colon₂ = ':'.toNat then
          match parseZone (parseFraction rest).2 with
          | some zoneOffset =>
            some ⟨(((dateToDays year month day - unixEpochDay) * 86400 + hour * 3600 +
              min * 60 + sec) - zoneOffset) * 1000000000 + (parseFraction rest).1⟩
          | none => none
        else none
      | _, _, _, _ => none
    | _, _ => none
  | _ => none

/-- The function `parseStrictRFC3339`. A text that `parseRFC3339` refuses goes to the
general parser `Parse(RFC3339, s)`, which is the parameter `parseLayout`. -/
def parseStrictRFC3339 (parseLayout : List Nat → Except Error Time) (b : List Nat) :
    Except Error Time :=
  match parseRFC3339 b with
  | some t => .ok t
  | none => parseLayout b

end time

/-! ## package encoding/json -/

namespace json
open models

/-- The digits `hex` of package json. -/
def hex : List Nat := "0123456789abcdef".toList.map Char.toNat

/-- The table `htmlSafeSet`: the ASCII bytes written as they are, which are the
printable ones and DEL apart from `"`, `\`, `<`, `>` and `&`. -/
def htmlSafe (b : Nat) : Bool :=
  0x20 ≤ b && b < 0x80 && b != '"'.toNat && b != '\\'.toNat && b != '<'.toNat &&
    b != '>'.toNat && b != '&'.toNat

/-- What `appendString` writes for one rune of a valid string, with `escapeHTML` set as
`json.Marshal` sets it. -/
def appendRune (r : Char) : List Nat :=
  if r.toNat < 0x80 then
    if htmlSafe r.toNat then [r.toNat]
    else if r = '\\' ∨ r = '"' then ['\\'.toNat, r.toNat]
    else if r.toNat = 0x08 then ['\\'.toNat, 'b'.toNat]
    else if r.toNat = 0x0C then ['\\'.toNat, 'f'.toNat]
    else if r = '\n' then ['\\'.toNat, 'n'.toNat]
    else if r = '\r' then ['\\'.toNat, 'r'.toNat]
    else if r = '\t' then ['\\'.toNat, 't'.toNat]
    else
      ['\\'.toNat, 'u'.toNat, '0'.toNat, '0'.toNat, hex.getD (r.toNat / 16) 0,
        hex.getD (r.toNat % 16) 0]
  else if r.toNat = 0x2028 ∨ r.toNat = 0x2029 then
    ['\\'.toNat, 'u'.toNat, '2'.toNat, '0'.toNat, '2'.toNat, hex.getD (r.toNat % 16) 0]
  else utf8.EncodeRune r

/-- What `appendString` writes between the quotes. -/
def appendRunes (s : String) : List Nat := s.toList.flatMap appendRune

/-- The function `appendString`: the JSON string literal of a string. -/
def appendString (s : String) : List Nat := '"'.toNat :: appendRunes s ++ ['"'.toNat]

/-- The literals of a slice of strings, with commas between. -/
def appendStrings : List String → List Nat
  | [] => []
  | [s] => appendString s
  | s :: rest => appendString s ++ ','.toNat :: appendStrings rest

/-- A JSON value as the decoder meets it: a number and a string keep their literal (a
string without its quotes), and an object keeps the literals of its keys. -/
inductive Value where
  | null
  | bool (b : Bool)
  | number (literal : List Nat)
  | string (raw : List Nat)
  | array (elems : List Value)
  | object (members : List (List Nat × Value))

/-- White space of the scanner: space, tab, carriage return, line feed. -/
def isSpace (b : Nat) : Bool :=
  b == ' '.toNat || b == '\t'.toNat || b == '\r'.toNat || b == '\n'.toNat

/-- A text without the white space at its head. -/
def skipSpace : List Nat → List Nat
  | [] => []
  | b :: rest => if isSpace b then skipSpace rest else b :: rest

/-- Whether a byte is a decimal digit. -/
def isDigit (b : Nat) : Bool := '0'.toNat ≤ b && b ≤ '9'.toNat

/-- Whether a byte is a hexadecimal digit, in either case. -/
def isHex (b : Nat) : Bool :=
  isDigit b || ('a'.toNat ≤ b && b ≤ 'f'.toNat) || ('A'.toNat ≤ b && b ≤ 'F'.toNat)

/-- The scanner inside a string: from after the opening quote to the closing quote.
Gives the literal between the quotes and the text after the closing quote. A byte below
`0x20` is refused, and after a backslash only the escapes of JSON are allowed. -/
def scanString : List Nat → Option (List Nat × List Nat)
  | [] => none
  | b :: rest =>
    if b = '"'.toNat then some ([], rest)
    else if b = '\\'.toNat then
      match rest with
      | [] => none
      | e :: rest₁ =>
        if e = 'u'.toNat then
          match rest₁ with
          | h₁ :: h₂ :: h₃ :: h₄ :: rest₂ =>
            if isHex h₁ && isHex h₂ && isHex h₃ && isHex h₄ then
              match scanString rest₂ with
              | some (raw, after) => some (b :: e :: h₁ :: h₂ :: h₃ :: h₄ :: raw, after)
              | none => none
            else none
          | _ => none
        else if e = '"'.toNat ∨ e = '\\'.toNat ∨ e = '/'.toNat ∨ e = 'b'.toNat ∨ e = 'f'.toNat ∨
            e = 'n'.toNat ∨ e = 'r'.toNat ∨ e = 't'.toNat then
          match scanString rest₁ with
          | some (raw, after) => some (b :: e :: raw, after)
          | none => none
        else none
    else if b < 0x20 then none
    else
      match scanString rest with
      | some (raw, after) => some (b :: raw, after)
      | none => none

/-- The digits at the head of a text, and the text after them. -/
def scanDigits (bs : List Nat) : List Nat × List Nat :=
  (bs.takeWhile isDigit, bs.dropWhile isDigit)

/-- The scanner on a number: an optional minus, `0` or a digit from 1 to 9 followed by
digits, an optional fraction of a point and at least one digit, an optional exponent of
`e` or `E`, an optional sign and at least one digit. Gives the literal and the text
after it. -/
def scanNumber (bs : List Nat) : Option (List Nat × List Nat) :=
  let (sign, bs₁) :=
    match bs with
    | b :: rest => if b = '-'.toNat then ([b], rest) else ([], bs)
    | [] => ([], bs)
  match bs₁ with
  | [] => none
  | d :: rest₁ =>
    if isDigit d then
      let (int, bs₂) := if d = '0'.toNat then ([d], rest₁)
        else (d :: (scanDigits rest₁).1, (scanDigits rest₁).2)
      let frac : Option (List Nat × List Nat) :=
        match bs₂ with
        | p :: rest₂ =>
          if p = '.'.toNat then
            if (scanDigits rest₂).1 = [] then none
            else some (p :: (scanDigits rest₂).1, (scanDigits rest₂).2)
          else some ([], bs₂)
        | [] => some ([], bs₂)
      match frac with
      | none => none
      | some (fraction, bs₃) =>
        let exp : Option (List Nat × List Nat) :=
          match bs₃ with
          | e :: rest₃ =>
            if e = 'e'.toNat ∨ e = 'E'.toNat then
              let (esign, bs₄) :=
                match rest₃ with
                | s :: rest₄ => if s = '+'.toNat ∨ s = '-'.toNat then ([s], rest₄) else ([], rest₃)
                | [] => ([], rest₃)
              if (scanDigits bs₄).1 = [] then none
              else some (e :: esign ++ (scanDigits bs₄).1, (scanDigits bs₄).2)
            else some ([], bs₃)
          | [] => some ([], bs₃)
        match exp with
        | none => none
        | some (exponent, bs₅) => some (sign ++ int ++ fraction ++ exponent, bs₅)
    else none

/-- The constant `maxNestingDepth`. -/
def maxNestingDepth : Nat := 10000

mutual
/-- The scanner on a value, white space before it skipped: the value and the text after
it. `depth` counts the arrays and objects that are open. The fuel bounds the number of
steps, and twice the length of the text is enough. -/
def scanValue : Nat → Nat → List Nat → Option (Value × List Nat)
  | 0, _, _ => none
  | fuel + 1, depth, bs =>
    match skipSpace bs with
    | [] => none
    | b :: rest =>
      if b = '"'.toNat then
        match scanString rest with
        | some (raw, after) => some (.string raw, after)
        | none => none
      else if b = '['.toNat then
        if depth + 1 > maxNestingDepth then none
        else
          match skipSpace rest with
          | [] => none
          | c :: rest₁ =>
            if c = ']'.toNat then some (.array [], rest₁)
            else
              match scanElems fuel (depth + 1) (c :: rest₁) with
              | some (elems, after) => some (.array elems, after)
              | none => none
      else if b = '{'.toNat then
        if depth + 1 > maxNestingDepth then none
        else
          match skipSpace rest with
          | [] => none
          | c :: rest₁ =>
            if c = '}'.toNat then some (.object [], rest₁)
            else
              match scanMembers fuel (depth + 1) (c :: rest₁) with
              | some (members, after) => some (.object members, after)
              | none => none
      else if b = 't'.toNat then
        match rest with
        | r :: u :: e :: after =>
          if r = 'r'.toNat ∧ u = 'u'.toNat ∧ e = 'e'.toNat then some (.bool true, after) else none
        | _ => none
      else if b = 'f'.toNat then
        match rest with
        | a :: l :: s :: e :: after =>
          if a = 'a'.toNat ∧ l = 'l'.toNat ∧ s = 's'.toNat ∧ e = 'e'.toNat then
            some (.bool false, after)
          else none
        | _ => none
      else if b = 'n'.toNat then
        match rest with
        | u :: l₁ :: l₂ :: after =>
          if u = 'u'.toNat ∧ l₁ = 'l'.toNat ∧ l₂ = 'l'.toNat then some (.null, after) else none
        | _ => none
      else
        match scanNumber (b :: rest) with
        | some (literal, after) => some (.number literal, after)
        | none => none
/-- The elements of an array from its first element to its closing bracket. -/
def scanElems : Nat → Nat → List Nat → Option (List Value × List Nat)
  | 0, _, _ => none
  | fuel + 1, depth, bs =>
    match scanValue fuel depth bs with
    | none => none
    | some (v, after) =>
      match skipSpace after with
      | [] => none
      | c :: rest =>
        if c = ','.toNat then
          match scanElems fuel depth rest with
          | some (vs, after₁) => some (v :: vs, after₁)
          | none => none
        else if c = ']'.toNat then some ([v], rest)
        else none
/-- The members of an object from its first key to its closing brace. -/
def scanMembers : Nat → Nat → List Nat → Option (List (List Nat × Value) × List Nat)
  | 0, _, _ => none
  | fuel + 1, depth, bs =>
    match skipSpace bs with
    | [] => none
    | q :: rest =>
      if q = '"'.toNat then
        match scanString rest with
        | none => none
        | some (key, after) =>
          match skipSpace after with
          | [] => none
          | c :: rest₁ =>
            if c = ':'.toNat then
              match scanValue fuel depth rest₁ with
              | none => none
              | some (v, after₁) =>
                match skipSpace after₁ with
                | [] => none
                | d :: rest₂ =>
                  if d = ','.toNat then
                    match scanMembers fuel depth rest₂ with
                    | some (ms, after₂) => some ((key, v) :: ms, after₂)
                    | none => none
                  else if d = '}'.toNat then some ([(key, v)], rest₂)
                  else none
            else none
      else none
end

/-- The value of a JSON text, `none` for a text that `checkValid` refuses: one value,
with white space at most before and after it. -/
def parse (data : List Nat) : Option Value :=
  match scanValue (2 * data.length + 2) 0 data with
  | some (v, after) => if skipSpace after = [] then some v else none
  | none => none

/-- The value of a hexadecimal digit. -/
def hexValue (b : Nat) : Nat :=
  if isDigit b then b - '0'.toNat
  else if 'a'.toNat ≤ b ∧ b ≤ 'f'.toNat then b - 'a'.toNat + 10
  else b - 'A'.toNat + 10

/-- The function `getu4`: the number of an escape `\uXXXX` at the head of a text. -/
def getu4 : List Nat → Option Nat
  | b :: u :: h₁ :: h₂ :: h₃ :: h₄ :: _ =>
    if b = '\\'.toNat ∧ u = 'u'.toNat ∧ isHex h₁ = true ∧ isHex h₂ = true ∧ isHex h₃ = true ∧
        isHex h₄ = true then
      some (((hexValue h₁ * 16 + hexValue h₂) * 16 + hexValue h₃) * 16 + hexValue h₄)
    else none
  | _ => none

/-- One turn of the loop of `unquoteBytes` on the literal of a string, at a byte of
it: the rune that is written and the text that is left. An escape is replaced, two
escapes of a surrogate pair become one rune, a surrogate alone and bytes that are not
UTF-8 become U+FFFD. `none` stands for `ok = false`. -/
def unquoteStep (c : Nat) (rest : List Nat) : Option (Char × List Nat) :=
  if c = '\\'.toNat then
    match rest with
    | [] => none
    | e :: rest₁ =>
      if e = '"'.toNat ∨ e = '\\'.toNat ∨ e = '/'.toNat ∨ e = '\''.toNat then
        some (Char.ofNat e, rest₁)
      else if e = 'b'.toNat then some (Char.ofNat 0x08, rest₁)
      else if e = 'f'.toNat then some (Char.ofNat 0x0C, rest₁)
      else if e = 'n'.toNat then some ('\n', rest₁)
      else if e = 'r'.toNat then some ('\r', rest₁)
      else if e = 't'.toNat then some ('\t', rest₁)
      else if e = 'u'.toNat then
        match getu4 (c :: rest) with
        | none => none
        | some rr =>
          if 0xD800 ≤ rr ∧ rr < 0xE000 then
            match getu4 (rest₁.drop 4) with
            | some rr₁ =>
              if rr < 0xDC00 ∧ 0xDC00 ≤ rr₁ ∧ rr₁ < 0xE000 then
                some (Char.ofNat ((rr - 0xD800) * 1024 + (rr₁ - 0xDC00) + 0x10000),
                  rest₁.drop 10)
              else some (utf8.RuneError, rest₁.drop 4)
            | none => some (utf8.RuneError, rest₁.drop 4)
          else some (Char.ofNat rr, rest₁.drop 4)
      else none
  else if c = '"'.toNat ∨ c < ' '.toNat then none
  else if c < 0x80 then some (Char.ofNat c, rest)
  else
    some ((utf8.DecodeRune (c :: rest)).1, (c :: rest).drop (utf8.DecodeRune (c :: rest)).2)

/-- The loop of `unquoteBytes` on the literal of a string, without its quotes. Each
turn reads at least one byte, so fuel of the length of the literal is enough. -/
def unquoteLoop : Nat → List Nat → Option (List Char)
  | _, [] => some []
  | 0, _ :: _ => none
  | fuel + 1, c :: rest =>
    match unquoteStep c rest with
    | none => none
    | some (r, rest₁) => (unquoteLoop fuel rest₁).map (r :: ·)

/-- The function `unquote` on the literal of a string, without its quotes. -/
def unquote (raw : List Nat) : Option String :=
  (unquoteLoop raw.length raw).map String.mk

/-- The object that the encoder writes for a `models.ProcessingCommand`: one member for
each field, named by its `json` tag, in the order of the fields, with no white space.
`createdAt` is what `MarshalJSON` gave for `CreatedAt`; a nil slice is written `null`. -/
def appendCommand (createdAt : List Nat) (nilOperations : Bool) (c : ProcessingCommand) :
    List Nat :=
  '\x7b'.toNat :: appendString "id" ++ ':'.toNat :: appendString c.ID ++
    ','.toNat :: appendString "original_path" ++ ':'.toNat :: appendString c.OriginalPath ++
    ','.toNat :: appendString "requested_operations" ++ ':'.toNat ::
      (if c.RequestedOperations = [] ∧ nilOperations = true then "null".toList.map Char.toNat
       else '['.toNat :: appendStrings c.RequestedOperations ++ [']'.toNat]) ++
    ','.toNat :: appendString "created_at" ++ ':'.toNat :: createdAt ++ ['\x7d'.toNat]

/-- The function `json.Marshal` on a `*models.ProcessingCommand`, as a text. Two things
that the Go value has and the embedded value leaves out are given beside it: `offset`,
the offset of the zone of `CreatedAt` in seconds east of UTC, and `nilOperations`,
whether `RequestedOperations` is a nil slice. -/
def marshalText (offset : Int) (nilOperations : Bool) (c : ProcessingCommand) :
    Except Error (List Nat) :=
  match time.MarshalJSON c.CreatedAt offset with
  | .error err => .error (Errorf "json: error calling MarshalJSON for type time.Time" err)
  | .ok createdAt => .ok (appendCommand createdAt nilOperations c)

/-- The members of the object that `json.Marshal` writes for a command, as the scanner
reads them: the literal of each key with the value after it; `createdAt` is the text of
`CreatedAt`. -/
def commandMembers (createdAt : List Nat) (nilOperations : Bool) (c : ProcessingCommand) :
    List (List Nat × Value) :=
  [(appendRunes "id", .string (appendRunes c.ID)),
   (appendRunes "original_path", .string (appendRunes c.OriginalPath)),
   (appendRunes "requested_operations",
     if c.RequestedOperations = [] ∧ nilOperations = true then .null
     else .array (c.RequestedOperations.map (fun s => .string (appendRunes s)))),
   (appendRunes "created_at", .string createdAt)]

/-- A text as a `[]byte`. -/
def toBytes (text : List Nat) : Bytes := text.map (Fin.ofNat ·)

/-- A `[]byte` as a text. -/
def ofBytes (data : Bytes) : List Nat := data.map Fin.val

/-- The function `json.Marshal` on a `*models.ProcessingCommand`. -/
def Marshal (offset : Int) (nilOperations : Bool) (c : ProcessingCommand) :
    Except Error Bytes :=
  match marshalText offset nilOperations c with
  | .ok text => .ok (toBytes text)
  | .error err => .error err

/-- The fields of `models.Task`. -/
inductive Field where
  | ID
  | Status
  | OriginalPath
  | RequestedOperations
  | CreatedAt
  deriving DecidableEq, Repr

/-- The `json` tag of a field of `models.Task`. -/
def Field.tag : Field → String
  | .ID => "id"
  | .Status => "status"
  | .OriginalPath => "original_path"
  | .RequestedOperations => "requested_operations"
  | .CreatedAt => "created_at"

def taskFields : List Field :=
  [.ID, .Status, .OriginalPath, .RequestedOperations, .CreatedAt]

/-- Simple case folding of a character towards the characters of the tags: an ASCII
capital to its small letter, the Kelvin sign to `k` and the long s to `s`. -/
def foldChar (c : Char) : Char :=
  if 'A' ≤ c ∧ c ≤ 'Z' then Char.ofNat (c.toNat + 32)
  else if c = Char.ofNat 0x212A then 'k'
  else if c = Char.ofNat 0x17F then 's'
  else c

/-- Whether a key equals a tag ignoring case; the tags are in small ASCII letters. -/
def equalFold (key tag : String) : Bool := key.toList.map foldChar == tag.toList

/-- The field an object key is decoded into: the field with exactly that tag, or else
the first field whose tag equals the key ignoring case. -/
def fieldOf (key : String) : Option Field :=
  match taskFields.find? (fun f => f.tag == key) with
  | some f => some f
  | none => taskFields.find? (fun f => equalFold key f.tag)

/-- The field that the literal of a key is decoded into. -/
def fieldOfLiteral (key : List Nat) : Option Field :=
  match unquote key with
  | some name => fieldOf name
  | none => none

/-- The name of the kind of a JSON value in an `UnmarshalTypeError`. -/
def Value.kind : Value → String
  | .null => "null"
  | .bool _ => "bool"
  | .number _ => "number"
  | .string _ => "string"
  | .array _ => "array"
  | .object _ => "object"

/-- The `UnmarshalTypeError` kept for a JSON value of the wrong kind for the Go type of
the field of the task with the tag `field`. -/
def typeError (v : Value) (field goType : String) : Error :=
  .text ("json: cannot unmarshal " ++ v.kind ++ " into Go struct field Task." ++ field ++
    " of type " ++ goType)

/-- Decoding into a Go string of the type `goType`, in the field with the tag `field`: a
JSON string sets it, null leaves it, anything else leaves it and is a type error. -/
def decodeString (field goType : String) (v : Value) (old : String) : String × Option Error :=
  match v with
  | .string raw =>
    match unquote raw with
    | some s => (s, none)
    | none => (old, some (.text "JSON decoder out of sync - data changing underfoot?"))
  | .null => (old, none)
  | _ => (old, some (typeError v field goType))

/-- The first of two errors: `saveError` keeps the first error it is given. -/
def saveError (saved new : Option Error) : Option Error :=
  match saved with
  | some err => some err
  | none => new

/-- A `[]string` under decoding: the strings of its array, as many as its capacity,
and its length. -/
structure Slice where
  array : List String
  len : Nat
  deriving DecidableEq, Repr

/-- The strings of a slice. -/
def Slice.elems (s : Slice) : List String := s.array.take s.len

/-- The loop of `decodeState.array` on a `[]string`, from element `i`. An element is
decoded into the string that the slice holds at its index. When the index reaches the
capacity the slice is grown: the strings below its length are copied into a new array
of empty strings, whose capacity `growslice` gives from the old one. After the last
element the slice is cut to the number of elements, and for no elements it is a new
empty slice. -/
def decodeElems (growslice : Nat → Nat) : List Value → Nat → Slice × Option Error →
    Slice × Option Error
  | [], i, st =>
    if i = 0 then (⟨[], 0⟩, st.2)
    else (⟨st.1.array, if i < st.1.len then i else st.1.len⟩, st.2)
  | v :: rest, i, st =>
    let array :=
      if i ≥ st.1.array.length then
        st.1.array.take st.1.len ++
          List.replicate (max (growslice st.1.array.length) (st.1.len + 1) - st.1.len) ""
      else st.1.array
    let len := if i ≥ st.1.len then i + 1 else st.1.len
    decodeElems growslice rest (i + 1)
      (⟨array.set i (decodeString "requested_operations" "string" v (array.getD i "")).1, len⟩,
        saveError st.2 (decodeString "requested_operations" "string" v (array.getD i "")).2)

/-- The zero value of `time.Time`: January 1, year 1, 00:00:00 UTC. -/
def zeroTime : Time := ⟨-62135596800000000000⟩

/-- The zero value of `models.Task`. -/
def zeroTask : Task := ⟨"", "", "", [], zeroTime⟩

/-- The state of decoding into a task: the task, the array behind its
`RequestedOperations`, and the error saved so far. -/
structure decodeState where
  task : Task
  operations : Slice
  savedError : Option Error

/-- The method `Time.UnmarshalJSON` on the text of a JSON value: null changes nothing,
the literal of a string is parsed between its quotes, with its escapes left as they
are, and any other value is an error. -/
def UnmarshalJSON (parseLayout : List Nat → Except Error Time) (v : Value) (t : Time) :
    Except Error Time :=
  match v with
  | .null => .ok t
  | .string raw => time.parseStrictRFC3339 parseLayout raw
  | _ => .error (.text "Time.UnmarshalJSON: input is not a JSON string")

/-- Decoding one JSON value into one field of the task. An error of `UnmarshalJSON`
ends the decoding; an error of type is saved and the decoding goes on. -/
def setField (parseLayout : List Nat → Except Error Time) (growslice : Nat → Nat)
    (f : Field) (v : Value) (st : decodeState) : Except Error decodeState :=
  match f with
  | .ID =>
    .ok { st with
      task := { st.task with ID := (decodeString "id" "string" v st.task.ID).1 }
      savedError := saveError st.savedError (decodeString "id" "string" v st.task.ID).2 }
  | .Status =>
    .ok { st with
      task := { st.task with
        Status := (decodeString "status" "models.TaskStatus" v st.task.Status).1 }
      savedError := saveError st.savedError
        (decodeString "status" "models.TaskStatus" v st.task.Status).2 }
  | .OriginalPath =>
    .ok { st with
      task := { st.task with
        OriginalPath := (decodeString "original_path" "string" v st.task.OriginalPath).1 }
      savedError := saveError st.savedError
        (decodeString "original_path" "string" v st.task.OriginalPath).2 }
  | .RequestedOperations =>
    match v with
    | .array elems =>
      .ok { st with
        task := { st.task with
          RequestedOperations :=
            (decodeElems growslice elems 0 (st.operations, st.savedError)).1.elems }
        operations := (decodeElems growslice elems 0 (st.operations, st.savedError)).1
        savedError := (decodeElems growslice elems 0 (st.operations, st.savedError)).2 }
    | .null =>
      .ok { st with
        task := { st.task with RequestedOperations := [] }
        operations := ⟨[], 0⟩ }
    | _ =>
      .ok { st with
        savedError := saveError st.savedError (typeError v "requested_operations" "[]string") }
  | .CreatedAt =>
    match UnmarshalJSON parseLayout v st.task.CreatedAt with
    | .ok t => .ok { st with task := { st.task with CreatedAt := t } }
    | .error err => .error err

/-- Decoding the members of an object into the task, in order; a member whose key has
no field is skipped. -/
def decodeMembers (parseLayout : List Nat → Except Error Time) (growslice : Nat → Nat) :
    List (List Nat × Value) → decodeState → Except Error decodeState
  | [], st => .ok st
  | (key, v) :: rest, st =>
    match fieldOfLiteral key with
    | none => decodeMembers parseLayout growslice rest st
    | some f =>
      match setField parseLayout growslice f v st with
      | .ok st₁ => decodeMembers parseLayout growslice rest st₁
      | .error err => .error err

/-- The function `json.Unmarshal` into a `*models.Task` that points to a zero task, on
a text. The text of a `SyntaxError` is not embedded. -/
def unmarshalText (parseLayout : List Nat → Except Error Time) (growslice : Nat → Nat)
    (text : List Nat) : Except Error Task :=
  match parse text with
  | none => .error (.text "json: syntax error")
  | some (.object members) =>
    match decodeMembers parseLayout growslice members ⟨zeroTask, ⟨[], 0⟩, none⟩ with
    | .error err => .error err
    | .ok st =>
      match st.savedError with
      | some err => .error err
      | none => .ok st.task
  | some .null => .ok zeroTask
  | some v =>
    .error (.text ("json: cannot unmarshal " ++ v.kind ++ " into Go value of type models.Task"))

/-- The function `json.Unmarshal` into a `*models.Task` that points to a zero task.
Two parts of the libraries are parameters: `parseLayout`, the general parser of package
time for a text that is not in the plain form of RFC 3339, and `growslice`, the
capacity that a slice is grown to from the capacity it has. -/
def Unmarshal (parseLayout : List Nat → Except Error Time) (growslice : Nat → Nat)
    (data : Bytes) : Except Error Task :=
  unmarshalText parseLayout growslice (ofBytes data)

end json

/-! ## package messagebroker -/

namespace messagebroker
open models

/-- The producer `kafka.Producer` of the library, as `Publish` uses it:
`SendWithRetry(ctx, strategy, key, value)`. -/
structure KafkaProducer (σ : Type) where
  SendWithRetry : Bytes → Bytes → σ → Option Error × σ

/-- The struct `Producer`. The field `Marshal` stands for `json.Marshal` on a
`*models.ProcessingCommand`. -/
structure Producer (σ : Type) where
  produce : KafkaProducer σ
  Marshal : ProcessingCommand → Except Error Bytes

/-- The conversion `[]byte(s)` of a string: its UTF-8 bytes. -/
def bytesOfString (s : String) : Bytes := s.toUTF8.toList.map UInt8.val

/-- The method `Producer.Publish`. -/
def Producer.Publish {σ : Type} (p : Producer σ) (task : ProcessingCommand) :
    StateM σ (Option Error) := do
  match p.Marshal task with
  | .error err => return some (Errorf "failed to marshal task" err)
  | .ok msgBytes =>
    match ← p.produce.SendWithRetry (bytesOfString task.ID) msgBytes with
    | some err => return some (Errorf "failed to send task" err)
    | none => return none

end messagebroker

/-! ## package image, as package modifer uses it

Pixel values are not modelled: a decoded image is its bounds, and an `*image.RGBA` is
its bounds with the `draw.Draw` calls made on it, each with the rectangle that the call
painted. Go's `int` is embedded in `Int`; the coordinates of an image are far from the
range where `int` wraps. -/

namespace image

structure Point where
  X : Int
  Y : Int
  deriving DecidableEq, Repr

structure Rectangle where
  Min : Point
  Max : Point
  deriving DecidableEq, Repr

/-- The function `image.Pt`. -/
def Pt (X Y : Int) : Point := ⟨X, Y⟩

/-- The method `Point.Sub`. -/
def Point.Sub (p q : Point) : Point := ⟨p.X - q.X, p.Y - q.Y⟩

/-- The method `Rectangle.Dx`: the width. -/
def Rectangle.Dx (r : Rectangle) : Int := r.Max.X - r.Min.X

/-- The method `Rectangle.Dy`: the height. -/
def Rectangle.Dy (r : Rectangle) : Int := r.Max.Y - r.Min.Y

/-- The method `Rectangle.Add`: the rectangle moved by `p`. -/
def Rectangle.Add (r : Rectangle) (p : Point) : Rectangle :=
  ⟨⟨r.Min.X + p.X, r.Min.Y + p.Y⟩, ⟨r.Max.X + p.X, r.Max.Y + p.Y⟩⟩

/-- The method `Rectangle.Empty`: whether the rectangle holds no point. -/
def Rectangle.Empty (r : Rectangle) : Bool :=
  decide (r.Min.X ≥ r.Max.X ∨ r.Min.Y ≥ r.Max.Y)

/-- The rectangle `image.ZR`. -/
def ZR : Rectangle := ⟨⟨0, 0⟩, ⟨0, 0⟩⟩

/-- The method `Rectangle.Intersect`: the largest rectangle inside both, or `ZR` when
they do not overlap. -/
def Rectangle.Intersect (r s : Rectangle) : Rectangle :=
  if (Rectangle.mk
      ⟨if r.Min.X < s.Min.X then s.Min.X else r.Min.X,
        if r.Min.Y < s.Min.Y then s.Min.Y else r.Min.Y⟩
      ⟨if r.Max.X > s.Max.X then s.Max.X else r.Max.X,
        if r.Max.Y > s.Max.Y then s.Max.Y else r.Max.Y⟩).Empty = true then ZR
  else
    ⟨⟨if r.Min.X < s.Min.X then s.Min.X else r.Min.X,
        if r.Min.Y < s.Min.Y then s.Min.Y else r.Min.Y⟩,
      ⟨if r.Max.X > s.Max.X then s.Max.X else r.Max.X,
        if r.Max.Y > s.Max.Y then s.Max.Y else r.Max.Y⟩⟩

/-- An `image.Image` that was decoded from a file: what `Bounds()` returns. -/
structure Image where
  Bounds : Rectangle
  deriving DecidableEq, Repr

/-- The compositing operator `draw.Op`. -/
inductive Op where
  | Over
  | Src
  deriving DecidableEq, Repr

/-- One call `draw.Draw(dst, r, src, sp, op)`: its arguments, `dst` apart, then the
rectangle of `dst` that the call painted and the point of `src` that was painted at the
corner `Min` of that rectangle. A rectangle that is `Empty` stands for a call that
painted nothing. -/
structure DrawCall where
  r : Rectangle
  src : Image
  sp : Point
  op : Op
  painted : Rectangle
  paintedFrom : Point
  deriving DecidableEq, Repr

/-- An `*image.RGBA`: its bounds `Rect` and the draw calls made on it, in order. -/
structure RGBA where
  Rect : Rectangle
  drawn : List DrawCall
  deriving DecidableEq, Repr

/-- The function `image.NewRGBA`. -/
def NewRGBA (r : Rectangle) : RGBA := ⟨r, []⟩

/-- The method `RGBA.Bounds`. -/
def RGBA.Bounds (m : RGBA) : Rectangle := m.Rect

/-- The function `clip` of package draw, without a mask: the rectangle is cut to the
bounds of `dst` and to the bounds of `src` moved so that `sp` lies on the corner `Min`
of the rectangle, and `sp` moves as far as that corner did. -/
def clip (dst : RGBA) (r : Rectangle) (src : Image) (sp : Point) : Rectangle × Point :=
  ((r.Intersect dst.Bounds).Intersect (src.Bounds.Add (r.Min.Sub sp)),
    ⟨sp.X + (((r.Intersect dst.Bounds).Intersect (src.Bounds.Add (r.Min.Sub sp))).Min.X -
        r.Min.X),
      sp.Y + (((r.Intersect dst.Bounds).Intersect (src.Bounds.Add (r.Min.Sub sp))).Min.Y -
        r.Min.Y)⟩)

/-- The function `draw.Draw`: it changes pixels of `dst`, not its bounds, and only
pixels of the rectangle that `clip` leaves. -/
def Draw (dst : RGBA) (r : Rectangle) (src : Image) (sp : Point) (op : Op) : RGBA :=
  { dst with drawn := dst.drawn ++ [⟨r, src, sp, op, (clip dst r src sp).1,
      (clip dst r src sp).2⟩] }

end image

/-! ## package modifer -/

namespace modifer

/-- The interface `modifer.Storage`. `SaveImage` takes an `image.Image`; `Watermark`
hands it the `*image.RGBA` it has built, the one case embedded here. -/
structure Storage (σ : Type) where
  SaveImage : String → image.RGBA → String → σ → Option Error × σ
  LoadImage : String → σ → Except Error (image.Image × String) × σ

/-- The struct `Modifier`, with the fields that `Watermark` reads. -/
structure Modifier (σ : Type) where
  watermarkImage : image.Image
  storage : Storage σ

/-- The image that `Modifier.Watermark` builds from the loaded image `img`: from
`bounds := img.Bounds()` to the second `draw.Draw`. -/
def Modifier.watermarked {σ : Type} (m : Modifier σ) (img : image.Image) : image.RGBA :=
  let bounds := img.Bounds
  let newImg := image.NewRGBA bounds
  let newImg := image.Draw newImg bounds img ⟨0, 0⟩ .Src
  let offset := image.Pt (bounds.Dx - m.watermarkImage.Bounds.Dx - 10)
    (bounds.Dy - m.watermarkImage.Bounds.Dy - 10)
  image.Draw newImg (m.watermarkImage.Bounds.Add offset) m.watermarkImage ⟨0, 0⟩ .Over

/-- The method `Modifier.Watermark`. -/
def Modifier.Watermark {σ : Type} (m : Modifier σ) (sourcePath targetPath : String) :
    StateM σ (Option Error) := do
  match ← m.storage.LoadImage sourcePath with
  | .error err => return some err
  | .ok (img, format) => m.storage.SaveImage targetPath (m.watermarked img) format

end modifer

/-! ## Recording the calls made on the collaborators

To state which calls a service issues, each collaborator is wrapped so that every call
is appended to a log, with the error it returned, before its result is handed back. The
wrapped collaborator acts on the world as the one it wraps. -/

open models

/-- A call on a collaborator, with its arguments. -/
inductive Call where
  | Save (path : String) (image : Bytes)
  | Delete (path : String)
  | CreateTask (task : Task)
  | UpdateStatus (id : String) (status : TaskStatus)
  | GetTask (id : String)
  | DeleteTask (id : String)
  | Publish (task : ProcessingCommand)
  | FetchMessage
  | CommitMessage (msg : Message)
  | Resize (sourcePath targetPath : String) (width height : Nat)
  | Thumbnail (sourcePath targetPath : String) (maxWidth maxHeight : Nat)
  | Watermark (sourcePath targetPath : String)
  deriving DecidableEq, Repr

/-- A call together with the error it returned (`none` for `nil`). -/
structure Event where
  call : Call
  err : Option Error
  deriving DecidableEq, Repr

/-- The error of a result `(value, error)`. -/
def errOf {α : Type} : Except Error α → Option Error
  | .error err => some err
  | .ok _ => none

/-- Run a call returning `error` and log it. -/
def logged {σ : Type} (c : Call) (f : σ → Option Error × σ) :
    σ × List Event → Option Error × (σ × List Event) :=
  fun w => ((f w.1).1, ((f w.1).2, w.2 ++ [⟨c, (f w.1).1⟩]))

/-- Run a call returning `(value, error)` and log it. -/
def loggedValue {σ α : Type} (c : Call) (f : σ → Except Error α × σ) :
    σ × List Event → Except Error α × (σ × List Event) :=
  fun w => ((f w.1).1, ((f w.1).2, w.2 ++ [⟨c, errOf (f w.1).1⟩]))

def image_service.Repo.recorded {σ : Type} (r : image_service.Repo σ) :
    image_service.Repo (σ × List Event) where
  CreateTask task := logged (.CreateTask task) (r.CreateTask task)
  UpdateStatus id status := logged (.UpdateStatus id status) (r.UpdateStatus id status)
  GetTask id := loggedValue (.GetTask id) (r.GetTask id)
  DeleteTask id := logged (.DeleteTask id) (r.DeleteTask id)

def image_service.FileStorage.recorded {σ : Type} (fs : image_service.FileStorage σ) :
    image_service.FileStorage (σ × List Event) where
  Save path image := logged (.Save path image) (fs.Save path image)
  Delete path := logged (.Delete path) (fs.Delete path)

def image_service.Produce.recorded {σ : Type} (p : image_service.Produce σ) :
    image_service.Produce (σ × List Event) where
  Publish task := logged (.Publish task) (p.Publish task)

def image_service.ImageService.recorded {σ : Type} (s : image_service.ImageService σ) :
    image_service.ImageService (σ × List Event) where
  repo := s.repo.recorded
  storage := s.storage.recorded
  produce := s.produce.recorded

def handlers.ImageHandler.recorded {σ : Type} (h : handlers.ImageHandler σ) :
    handlers.ImageHandler (σ × List Event) where
  imageService := h.imageService.recorded

def worker_service.Consume.recorded {σ : Type} (c : worker_service.Consume σ) :
    worker_service.Consume (σ × List Event) where
  FetchMessage := loggedValue .FetchMessage c.FetchMessage
  CommitMessage msg := logged (.CommitMessage msg) (c.CommitMessage msg)

def worker_service.Modifier.recorded {σ : Type} (m : worker_service.Modifier σ) :
    worker_service.Modifier (σ × List Event) where
  Resize sourcePath targetPath width height :=
    logged (.Resize sourcePath targetPath width height)
      (m.Resize sourcePath targetPath width height)
  Thumbnail sourcePath targetPath maxWidth maxHeight :=
    logged (.Thumbnail sourcePath targetPath maxWidth maxHeight)
      (m.Thumbnail sourcePath targetPath maxWidth maxHeight)
  Watermark sourcePath targetPath :=
    logged (.Watermark sourcePath targetPath) (m.Watermark sourcePath targetPath)

def worker_service.Repo.recorded {σ : Type} (r : worker_service.Repo σ) :
    worker_service.Repo (σ × List Event) where
  UpdateStatus id status := logged (.UpdateStatus id status) (r.UpdateStatus id status)

def worker_service.Worker.recorded {σ : Type} (w : worker_service.Worker σ) :
    worker_service.Worker (σ × List Event) where
  consume := w.consume.recorded
  modifier := w.modifier.recorded
  repo := w.repo.recorded
  Unmarshal := w.Unmarshal

/-- The test at the top of the loop is no call on a collaborator: it leaves the log as
it is. -/
def worker_service.Context.recorded {σ : Type} (ctx : worker_service.Context σ) :
    worker_service.Context (σ × List Event) where
  Err := fun w => ((ctx.Err w.1).1, ((ctx.Err w.1).2, w.2))

/-- The world at the top of the loop of `Starting` after `k` passes, when none of the
`k` tests before them saw the context cancelled; `none` when one of them did. -/
def worker_service.Worker.top {σ : Type} (w : worker_service.Worker σ)
    (ctx : worker_service.Context σ) : Nat → σ → Option σ
  | 0, s => some s
  | k + 1, s =>
    match ctx.Err s with
    | (some _, _) => none
    | (none, s') => w.top ctx k (w.iteration s').2

/-- The calls of a log, in order. -/
def calls (log : List Event) : List Call := log.map Event.call

/-- The service with its two compensating calls, `storage.Delete` and
`repo.DeleteTask`, replaced. -/
def image_service.ImageService.withCompensation {σ : Type}
    (s : image_service.ImageService σ) (Delete : String → σ → Option Error × σ)
    (DeleteTask : String → σ → Option Error × σ) : image_service.ImageService σ :=
  { s with
    storage := { s.storage with Delete := Delete }
    repo := { s.repo with DeleteTask := DeleteTask } }

/-- Whether a call is one on the Modifier. -/
def isTransform : Call → Bool
  | .Resize .. => true
  | .Thumbnail .. => true
  | .Watermark .. => true
  | _ => false

/-- Whether a call is a status write on the Task Store. -/
def isStatusWrite : Call → Bool
  | .UpdateStatus .. => true
  | _ => false

/-- The Modifier events of a log, in order. -/
def transforms (log : List Event) : List Event := log.filter (fun ev => isTransform ev.call)

/-- The Modifier call the specification gives for one element of
`requested_operations` of a command with original path `p`: source `p`, target
`processed/<op>/<base of p>`, 1024x768 for resize and 128x128 for thumbnail; nothing
for any other name. -/
def expectedTransformCall (p : String) (op : String) : Option Call :=
  if op = "resize" then some (.Resize p ("processed/" ++ op ++ "/" ++ Base p) 1024 768)
  else if op = "thumbnail" then some (.Thumbnail p ("processed/" ++ op ++ "/" ++ Base p) 128 128)
  else if op = "watermark" then some (.Watermark p ("processed/" ++ op ++ "/" ++ Base p))
  else none

/-- A Modifier event with the status write the specification puts right after it: an
`UpdateStatus(id, FAILED)` when the transform returned an error, nothing otherwise. -/
def withFailureWrite (id : String) (ev : Event) : List Call :=
  ev.call :: (if ev.err.isSome then [Call.UpdateStatus id "FAILED"] else [])

/-- The target path of a Modifier call. -/
def targetOf : Call → Option String
  | .Resize _ targetPath _ _ => some targetPath
  | .Thumbnail _ targetPath _ _ => some targetPath
  | .Watermark _ targetPath => some targetPath
  | _ => none

/-! ## An in-memory world

A Blob Store, Task Store, Message Channel and Transform Library kept in memory, each
call of which can be made to fail. A failing call leaves the world as it was: so does
`FileStorage.Delete` when `os.Remove` fails (the file stays), and a statement of the
repository when the database refuses it (the row stays). A Delete of a missing path
returns nil, as in `FileStorage.Delete`. This world serves to instantiate the results
below, which hold for every world. -/

namespace mem

structure World where
  blobs : List (String × Bytes)
  tasks : List Task
  topic : List ProcessingCommand
  inbox : List Message
  deriving DecidableEq, Repr

/-- The error each kind of call fails with, `none` for a call that works. -/
structure Faults where
  Save : Option Error
  Delete : Option Error
  CreateTask : Option Error
  UpdateStatus : Option Error
  DeleteTask : Option Error
  Publish : Option Error
  CommitMessage : Option Error
  Resize : Option Error
  Thumbnail : Option Error
  Watermark : Option Error

def noFaults : Faults :=
  ⟨none, none, none, none, none, none, none, none, none, none⟩

/-- Fail with the given error, or else apply the change to the world. -/
def attempt (fault : Option Error) (change : World → World) (w : World) :
    Option Error × World :=
  match fault with
  | some err => (some err, w)
  | none => (none, change w)

def removeBlob (path : String) (w : World) : World :=
  { w with blobs := w.blobs.filter (fun b => b.1 != path) }

def writeBlob (path : String) (image : Bytes) (w : World) : World :=
  { w with blobs := (path, image) :: (removeBlob path w).blobs }

/-- Whether the Blob Store holds a blob at the path. -/
def hasBlob (w : World) (path : String) : Bool := w.blobs.any (fun b => b.1 == path)

/-- Whether the Task Store holds a record with the id. -/
def hasTask (w : World) (id : String) : Bool := w.tasks.any (fun t => t.ID == id)

def storage (f : Faults) : image_service.FileStorage World where
  Save path image := attempt f.Save (writeBlob path image)
  Delete path := attempt f.Delete (removeBlob path)

def repo (f : Faults) : image_service.Repo World where
  CreateTask task := attempt f.CreateTask (fun w => { w with tasks := task :: w.tasks })
  UpdateStatus id status := attempt f.UpdateStatus (fun w =>
    { w with tasks := w.tasks.map (fun t => if t.ID = id then { t with Status := status } else t) })
  GetTask id w :=
    match w.tasks.find? (fun t => t.ID == id) with
    | some task => (.ok task, w)
    | none => (.error (.text "sql: no rows in result set"), w)
  DeleteTask id := attempt f.DeleteTask (fun w =>
    { w with tasks := w.tasks.filter (fun t => t.ID != id) })

def produce (f : Faults) : image_service.Produce World where
  Publish task := attempt f.Publish (fun w => { w with topic := w.topic ++ [task] })

def service (f : Faults) : image_service.ImageService World :=
  ⟨repo f, storage f, produce f⟩

def consume (f : Faults) : worker_service.Consume World where
  FetchMessage w :=
    match w.inbox with
    | [] => (.error (.text "EOF"), w)
    | msg :: rest => (.ok msg, { w with inbox := rest })
  CommitMessage _ := attempt f.CommitMessage id

/-- A transform: fails when injected so or when the source blob is missing, and else
writes the target blob. -/
def transform (fault : Option Error) (sourcePath targetPath : String) (w : World) :
    Option Error × World :=
  match w.blobs.lookup sourcePath with
  | none => (some (.text "failed to open file"), w)
  | some image => attempt fault (writeBlob targetPath image) w

def modifier (f : Faults) : worker_service.Modifier World where
  Resize sourcePath targetPath _ _ := transform f.Resize sourcePath targetPath
  Thumbnail sourcePath targetPath _ _ := transform f.Thumbnail sourcePath targetPath
  Watermark sourcePath targetPath := transform f.Watermark sourcePath targetPath

/-- A worker whose every message decodes to the given task. -/
def worker (f : Faults) (task : Task) : worker_service.Worker World :=
  ⟨consume f, modifier f, ⟨(repo f).UpdateStatus⟩, fun _ => .ok task⟩

/-- A storage of images for the modifier: every path loads as the given image, and a
saved image is put in front of the list of saved images. -/
def imageStorage (img : image.Image) (format : String) :
    modifer.Storage (List (String × image.RGBA × String)) where
  SaveImage path m fmt saved := (none, (path, m, fmt) :: saved)
  LoadImage _ saved := (.ok (img, format), saved)

/-- A context that is cancelled once the inbox is empty. -/
def ctx : worker_service.Context World where
  Err w := (if w.inbox = [] then some (.text "context canceled") else none, w)

def empty : World := ⟨[], [], [], []⟩

/-- The UUID `00112233-4455-6677-8899-aabbccddeeff`. -/
def uuid0 : UUID := ⟨fun i => ⟨i.val * 17, by omega⟩⟩

def now0 : Time := ⟨1700000000000000000⟩

def image0 : Bytes := [255, 216, 255]

def boom : Error := .text "boom"

/-- The command of the task `T1`. -/
def command0 : ProcessingCommand :=
  ⟨"T1", "original/T1.jpg", ["resize", "thumbnail", "watermark"], now0⟩

/-- A command whose strings hold characters that the encoder escapes and characters
outside ASCII, created 123456 microseconds after `now0`. -/
def command1 : ProcessingCommand :=
  ⟨"T1 <é&猫>", "original/T1 \"é\".jpg", ["resize", "水印\n"], ⟨1700000000123456000⟩⟩

/-- A value for the parameter `parseLayout` in this world. It refuses every text, and
is never asked: the payloads of this world are read by the fast path. -/
def parseLayout : List Nat → Except Error Time :=
  fun _ => .error (.text "parsing time: cannot parse")

/-- A value for the parameter `growslice` in this world: to capacity 1, then to twice
the capacity. -/
def growslice (capacity : Nat) : Nat := if capacity = 0 then 1 else 2 * capacity

/-- A worker that decodes with `json.Unmarshal`. -/
def jsonWorker : worker_service.Worker World :=
  ⟨consume noFaults, modifier noFaults, ⟨(repo noFaults).UpdateStatus⟩,
    json.Unmarshal parseLayout growslice⟩

/-- The UTF-8 bytes of a text. -/
def utf8Bytes (s : String) : Bytes := json.toBytes (s.toList.flatMap utf8.EncodeRune)

end mem

/-! ## Words for the proofs about texts -/

/-- A byte that the scanner passes inside a string as it is. -/
def plainByte (b : Nat) : Prop := b ≠ '"'.toNat ∧ b ≠ '\\'.toNat ∧ ¬ b < 0x20

/-- The number that digits write. -/
def digitsValue (l : List Nat) : Nat := l.foldl (fun x c => x * 10 + (c - '0'.toNat)) 0

/-- A byte of an RFC 3339 text: a digit or one of `-`, `T`, `:`, `.`, `Z`, `+`. -/
def timeByte (b : Nat) : Prop :=
  time.isDigit b = true ∨ b = '-'.toNat ∨ b = 'T'.toNat ∨ b = ':'.toNat ∨ b = '.'.toNat ∨
    b = 'Z'.toNat ∨ b = '+'.toNat


/-! ## Lemmas on the embedding -/

theorem uuid_length (u : UUID) : u.String.length = 36 := by
  simp [UUID.String, encodeByte, String.length]

theorem uuid_ne_empty (u : UUID) : u.String ≠ "" := by
  intro h
  have hlen := uuid_length u
  rw [h] at hlen
  simp at hlen

/-! ## The upload saga -/

open image_service in
/-- C1: when Save, CreateTask and Publish all succeed, UploadImage returns the generated
id, which is not empty, with a nil error, and the calls it made are exactly: Save at
`original/<id><ext>` with the submitted bytes, CreateTask of the PROCESSING task with
that id and path and the default operations, and Publish of the command with the
task's id, path, operations and creation time. No Delete or DeleteTask is among them.
This holds for every extension, so for every allowed one. -/
theorem C1_upload_success {σ : Type} (s : ImageService σ) (u : UUID) (now : Time)
    (image : Bytes) (extension : String) (w w₁ w₂ w₃ : σ)
    (hSave : s.storage.Save ("original/" ++ u.String ++ extension) image w = (none, w₁))
    (hCreate : s.repo.CreateTask
      ⟨u.String, "PROCESSING", "original/" ++ u.String ++ extension,
        ["resize", "thumbnail", "watermark"], now⟩ w₁ = (none, w₂))
    (hPublish : s.produce.Publish
      ⟨u.String, "original/" ++ u.String ++ extension,
        ["resize", "thumbnail", "watermark"], now⟩ w₂ = (none, w₃)) :
    u.String ≠ "" ∧
    s.recorded.UploadImage u now image extension (w, []) =
      ((u.String, none), (w₃,
        [⟨.Save ("original/" ++ u.String ++ extension) image, none⟩,
         ⟨.CreateTask ⟨u.String, "PROCESSING", "original/" ++ u.String ++ extension,
            ["resize", "thumbnail", "watermark"], now⟩, none⟩,
         ⟨.Publish ⟨u.String, "original/" ++ u.String ++ extension,
            ["resize", "thumbnail", "watermark"], now⟩, none⟩])) := by
  refine ⟨uuid_ne_empty u, ?_⟩
  have hSave' : s.storage.Save (OriginalPath u.String extension) image w = (none, w₁) := hSave
  have hCreate' : s.repo.CreateTask
      ⟨u.String, StatusProcessing, OriginalPath u.String extension, RequestedOperations, now⟩
      w₁ = (none, w₂) := hCreate
  have hPublish' : s.produce.Publish
      ⟨u.String, OriginalPath u.String extension, RequestedOperations, now⟩ w₂ = (none, w₃) :=
    hPublish
  simp [ImageService.UploadImage, ImageService.recorded, FileStorage.recorded, Repo.recorded,
    Produce.recorded, logged, bind, StateT.bind, pure, StateT.pure, hSave', hCreate', hPublish']
  simp [OriginalPath, StatusProcessing, RequestedOperations]

/-- C1 at the in-memory world with no fault, a `.jpg` upload. -/
theorem C1_upload_success_witness :
    mem.uuid0.String ≠ "" ∧
    (mem.service mem.noFaults).recorded.UploadImage mem.uuid0 mem.now0 mem.image0 ".jpg"
        (mem.empty, []) =
      ((mem.uuid0.String, none),
        (⟨[("original/" ++ mem.uuid0.String ++ ".jpg", mem.image0)],
          [⟨mem.uuid0.String, "PROCESSING", "original/" ++ mem.uuid0.String ++ ".jpg",
            ["resize", "thumbnail", "watermark"], mem.now0⟩],
          [⟨mem.uuid0.String, "original/" ++ mem.uuid0.String ++ ".jpg",
            ["resize", "thumbnail", "watermark"], mem.now0⟩], []⟩,
        [⟨.Save ("original/" ++ mem.uuid0.String ++ ".jpg") mem.image0, none⟩,
         ⟨.CreateTask ⟨mem.uuid0.String, "PROCESSING",
            "original/" ++ mem.uuid0.String ++ ".jpg",
            ["resize", "thumbnail", "watermark"], mem.now0⟩, none⟩,
         ⟨.Publish ⟨mem.uuid0.String, "original/" ++ mem.uuid0.String ++ ".jpg",
            ["resize", "thumbnail", "watermark"], mem.now0⟩, none⟩])) :=
  C1_upload_success (mem.service mem.noFaults) mem.uuid0 mem.now0 mem.image0 ".jpg"
    mem.empty _ _ _ rfl rfl rfl

open image_service in
/-- C2: when Save succeeds and CreateTask then fails, UploadImage returns an empty id
and an error (wrapping the error of CreateTask); its calls are exactly Save, CreateTask
and one Delete on the path given to Save, so Publish is never called; and the world it
returns is the one that Delete left, so with a blob store whose Delete removes the
path, no blob is held at that path when UploadImage returns. -/
theorem C2_create_failure_deletes_blob {σ : Type} (s : ImageService σ) (u : UUID)
    (now : Time) (image : Bytes) (extension : String) (w w₁ w₂ : σ) (e : Error)
    (hSave : s.storage.Save ("original/" ++ u.String ++ extension) image w = (none, w₁))
    (hCreate : s.repo.CreateTask
      ⟨u.String, "PROCESSING", "original/" ++ u.String ++ extension,
        ["resize", "thumbnail", "watermark"], now⟩ w₁ = (some e, w₂)) :
    s.recorded.UploadImage u now image extension (w, []) =
      (("", some (Errorf "failed to create task" e)),
        ((s.storage.Delete ("original/" ++ u.String ++ extension) w₂).2,
        [⟨.Save ("original/" ++ u.String ++ extension) image, none⟩,
         ⟨.CreateTask ⟨u.String, "PROCESSING", "original/" ++ u.String ++ extension,
            ["resize", "thumbnail", "watermark"], now⟩, some e⟩,
         ⟨.Delete ("original/" ++ u.String ++ extension),
            (s.storage.Delete ("original/" ++ u.String ++ extension) w₂).1⟩])) ∧
    ∀ holds : σ → String → Prop, (∀ path w', ¬ holds (s.storage.Delete path w').2 path) →
      ¬ holds (s.recorded.UploadImage u now image extension (w, [])).2.1
        ("original/" ++ u.String ++ extension) := by
  have hSave' : s.storage.Save (OriginalPath u.String extension) image w = (none, w₁) := hSave
  have hCreate' : s.repo.CreateTask
      ⟨u.String, StatusProcessing, OriginalPath u.String extension, RequestedOperations, now⟩
      w₁ = (some e, w₂) := hCreate
  have hrun : s.recorded.UploadImage u now image extension (w, []) =
      (("", some (Errorf "failed to create task" e)),
        ((s.storage.Delete ("original/" ++ u.String ++ extension) w₂).2,
        [⟨.Save ("original/" ++ u.String ++ extension) image, none⟩,
         ⟨.CreateTask ⟨u.String, "PROCESSING", "original/" ++ u.String ++ extension,
            ["resize", "thumbnail", "watermark"], now⟩, some e⟩,
         ⟨.Delete ("original/" ++ u.String ++ extension),
            (s.storage.Delete ("original/" ++ u.String ++ extension) w₂).1⟩])) := by
    simp [ImageService.UploadImage, ImageService.recorded, FileStorage.recorded,
      Repo.recorded, Produce.recorded, logged, bind, StateT.bind, pure, StateT.pure, hSave',
      hCreate']
    simp [OriginalPath, StatusProcessing, RequestedOperations]
  refine ⟨hrun, ?_⟩
  intro holds hDelete
  rw [hrun]
  exact hDelete _ _

/-- C2 at the in-memory world whose CreateTask fails: the blob written by Save is
gone when UploadImage returns. -/
theorem C2_create_failure_deletes_blob_witness :
    ((mem.service { mem.noFaults with CreateTask := some mem.boom }).recorded.UploadImage
        mem.uuid0 mem.now0 mem.image0 ".jpg" (mem.empty, [])).1 =
      ("", some (Errorf "failed to create task" mem.boom)) ∧
    mem.hasBlob
      ((mem.service { mem.noFaults with CreateTask := some mem.boom }).recorded.UploadImage
        mem.uuid0 mem.now0 mem.image0 ".jpg" (mem.empty, [])).2.1
      ("original/" ++ mem.uuid0.String ++ ".jpg") ≠ true := by
  have h := C2_create_failure_deletes_blob
    (mem.service { mem.noFaults with CreateTask := some mem.boom }) mem.uuid0 mem.now0
    mem.image0 ".jpg" mem.empty _ _ mem.boom rfl rfl
  refine ⟨by rw [h.1], h.2 (fun w path => mem.hasBlob w path = true) ?_⟩
  intro path w'
  simp [mem.service, mem.storage, mem.attempt, mem.noFaults, mem.removeBlob, mem.hasBlob]

open image_service in
/-- C3 fails as stated: in the in-memory world where Publish fails and both
compensating calls fail too, Save and CreateTask succeeded, Publish failed, UploadImage
returned an error, and afterwards the blob is still held at the original path and the
Task record is still in the store. -/
theorem C3_counterexample :
    (mem.service { mem.noFaults with
        Publish := some mem.boom, Delete := some mem.boom,
        DeleteTask := some mem.boom }).recorded.UploadImage
        mem.uuid0 mem.now0 mem.image0 ".jpg" (mem.empty, []) =
      (("", some (Errorf "failed to publish task" mem.boom)),
        (⟨[("original/00112233-4455-6677-8899-aabbccddeeff.jpg", mem.image0)],
          [⟨"00112233-4455-6677-8899-aabbccddeeff", "PROCESSING",
            "original/00112233-4455-6677-8899-aabbccddeeff.jpg",
            ["resize", "thumbnail", "watermark"], mem.now0⟩], [], []⟩,
        [⟨.Save "original/00112233-4455-6677-8899-aabbccddeeff.jpg" mem.image0, none⟩,
         ⟨.CreateTask ⟨"00112233-4455-6677-8899-aabbccddeeff", "PROCESSING",
            "original/00112233-4455-6677-8899-aabbccddeeff.jpg",
            ["resize", "thumbnail", "watermark"], mem.now0⟩, none⟩,
         ⟨.Publish ⟨"00112233-4455-6677-8899-aabbccddeeff",
            "original/00112233-4455-6677-8899-aabbccddeeff.jpg",
            ["resize", "thumbnail", "watermark"], mem.now0⟩, some mem.boom⟩,
         ⟨.Delete "original/00112233-4455-6677-8899-aabbccddeeff.jpg", some mem.boom⟩,
         ⟨.DeleteTask "00112233-4455-6677-8899-aabbccddeeff", some mem.boom⟩])) ∧
    mem.hasBlob
      ((mem.service { mem.noFaults with
        Publish := some mem.boom, Delete := some mem.boom,
        DeleteTask := some mem.boom }).UploadImage
        mem.uuid0 mem.now0 mem.image0 ".jpg" mem.empty).2
      "original/00112233-4455-6677-8899-aabbccddeeff.jpg" = true ∧
    mem.hasTask
      ((mem.service { mem.noFaults with
        Publish := some mem.boom, Delete := some mem.boom,
        DeleteTask := some mem.boom }).UploadImage
        mem.uuid0 mem.now0 mem.image0 ".jpg" mem.empty).2
      "00112233-4455-6677-8899-aabbccddeeff" = true := by
  exact ⟨rfl, rfl, rfl⟩

open image_service in
/-- C3, amended: when Save and CreateTask succeed and Publish then fails, UploadImage
returns an empty id and an error (wrapping the error of Publish), and its calls are
exactly Save, CreateTask, Publish, then Delete on the saved path, then DeleteTask on
the generated id, the last one issued whatever Delete returned. The world it returns
is the one DeleteTask left: the Task record is gone when that DeleteTask succeeded (in
a store whose successful DeleteTask removes the record), and the blob is gone when
that Delete succeeded (in a store whose successful Delete removes the path and where
DeleteTask brings no blob back). -/
theorem C3_publish_failure_compensates {σ : Type} (s : ImageService σ) (u : UUID)
    (now : Time) (image : Bytes) (extension : String) (w w₁ w₂ w₃ : σ) (e : Error)
    (hSave : s.storage.Save ("original/" ++ u.String ++ extension) image w = (none, w₁))
    (hCreate : s.repo.CreateTask
      ⟨u.String, "PROCESSING", "original/" ++ u.String ++ extension,
        ["resize", "thumbnail", "watermark"], now⟩ w₁ = (none, w₂))
    (hPublish : s.produce.Publish
      ⟨u.String, "original/" ++ u.String ++ extension,
        ["resize", "thumbnail", "watermark"], now⟩ w₂ = (some e, w₃)) :
    s.recorded.UploadImage u now image extension (w, []) =
      (("", some (Errorf "failed to publish task" e)),
        ((s.repo.DeleteTask u.String
            (s.storage.Delete ("original/" ++ u.String ++ extension) w₃).2).2,
        [⟨.Save ("original/" ++ u.String ++ extension) image, none⟩,
         ⟨.CreateTask ⟨u.String, "PROCESSING", "original/" ++ u.String ++ extension,
            ["resize", "thumbnail", "watermark"], now⟩, none⟩,
         ⟨.Publish ⟨u.String, "original/" ++ u.String ++ extension,
            ["resize", "thumbnail", "watermark"], now⟩, some e⟩,
         ⟨.Delete ("original/" ++ u.String ++ extension),
            (s.storage.Delete ("original/" ++ u.String ++ extension) w₃).1⟩,
         ⟨.DeleteTask u.String,
            (s.repo.DeleteTask u.String
              (s.storage.Delete ("original/" ++ u.String ++ extension) w₃).2).1⟩])) ∧
    (∀ holdsTask : σ → String → Prop,
      (∀ id w', (s.repo.DeleteTask id w').1 = none → ¬ holdsTask (s.repo.DeleteTask id w').2 id) →
      (s.repo.DeleteTask u.String
        (s.storage.Delete ("original/" ++ u.String ++ extension) w₃).2).1 = none →
      ¬ holdsTask (s.recorded.UploadImage u now image extension (w, [])).2.1 u.String) ∧
    (∀ holdsBlob : σ → String → Prop,
      (∀ path w', (s.storage.Delete path w').1 = none →
        ¬ holdsBlob (s.storage.Delete path w').2 path) →
      (∀ id path w', ¬ holdsBlob w' path → ¬ holdsBlob (s.repo.DeleteTask id w').2 path) →
      (s.storage.Delete ("original/" ++ u.String ++ extension) w₃).1 = none →
      ¬ holdsBlob (s.recorded.UploadImage u now image extension (w, [])).2.1
        ("original/" ++ u.String ++ extension)) := by
  have hSave' : s.storage.Save (OriginalPath u.String extension) image w = (none, w₁) := hSave
  have hCreate' : s.repo.CreateTask
      ⟨u.String, StatusProcessing, OriginalPath u.String extension, RequestedOperations, now⟩
      w₁ = (none, w₂) := hCreate
  have hPublish' : s.produce.Publish
      ⟨u.String, OriginalPath u.String extension, RequestedOperations, now⟩ w₂ = (some e, w₃) :=
    hPublish
  have hrun : s.recorded.UploadImage u now image extension (w, []) =
      (("", some (Errorf "failed to publish task" e)),
        ((s.repo.DeleteTask u.String
            (s.storage.Delete ("original/" ++ u.String ++ extension) w₃).2).2,
        [⟨.Save ("original/" ++ u.String ++ extension) image, none⟩,
         ⟨.CreateTask ⟨u.String, "PROCESSING", "original/" ++ u.String ++ extension,
            ["resize", "thumbnail", "watermark"], now⟩, none⟩,
         ⟨.Publish ⟨u.String, "original/" ++ u.String ++ extension,
            ["resize", "thumbnail", "watermark"], now⟩, some e⟩,
         ⟨.Delete ("original/" ++ u.String ++ extension),
            (s.storage.Delete ("original/" ++ u.String ++ extension) w₃).1⟩,
         ⟨.DeleteTask u.String,
            (s.repo.DeleteTask u.String
              (s.storage.Delete ("original/" ++ u.String ++ extension) w₃).2).1⟩])) := by
    simp [ImageService.UploadImage, ImageService.recorded, FileStorage.recorded,
      Repo.recorded, Produce.recorded, logged, bind, StateT.bind, pure, StateT.pure, hSave',
      hCreate', hPublish']
    simp [OriginalPath, StatusProcessing, RequestedOperations]
  refine ⟨hrun, ?_, ?_⟩
  · intro holdsTask hRemoves hOk
    rw [hrun]
    exact hRemoves _ _ hOk
  · intro holdsBlob hRemoves hFrame hOk
    rw [hrun]
    exact hFrame _ _ _ (hRemoves _ _ hOk)

/-- C3, amended, at the in-memory world whose Publish fails and whose compensating
calls work: neither the blob nor the Task record is left. -/
theorem C3_publish_failure_compensates_witness :
    ((mem.service { mem.noFaults with Publish := some mem.boom }).recorded.UploadImage
        mem.uuid0 mem.now0 mem.image0 ".jpg" (mem.empty, [])).1 =
      ("", some (Errorf "failed to publish task" mem.boom)) ∧
    mem.hasTask
      ((mem.service { mem.noFaults with Publish := some mem.boom }).recorded.UploadImage
        mem.uuid0 mem.now0 mem.image0 ".jpg" (mem.empty, [])).2.1 mem.uuid0.String ≠ true ∧
    mem.hasBlob
      ((mem.service { mem.noFaults with Publish := some mem.boom }).recorded.UploadImage
        mem.uuid0 mem.now0 mem.image0 ".jpg" (mem.empty, [])).2.1
      ("original/" ++ mem.uuid0.String ++ ".jpg") ≠ true := by
  have h := C3_publish_failure_compensates
    (mem.service { mem.noFaults with Publish := some mem.boom }) mem.uuid0 mem.now0
    mem.image0 ".jpg" mem.empty _ _ _ mem.boom rfl rfl rfl
  refine ⟨by rw [h.1], h.2.1 (fun w id => mem.hasTask w id = true) ?_ rfl,
    h.2.2 (fun w path => mem.hasBlob w path = true) ?_ ?_ rfl⟩
  · intro id w' _
    simp [mem.service, mem.repo, mem.attempt, mem.noFaults, mem.hasTask]
  · intro path w' _
    simp [mem.service, mem.storage, mem.attempt, mem.noFaults, mem.removeBlob, mem.hasBlob]
  · intro id path w' hBlob
    simpa [mem.service, mem.repo, mem.attempt, mem.noFaults, mem.hasBlob] using hBlob

open handlers in
/-- C4: for every submitted file whose extension is not one of `.jpg`, `.png`, `.gif`,
the upload handler answers 400 with a validation error and never reaches
`image_service.UploadImage`: no call is made on any collaborator (no blob saved, no
Task record created, no command published) and the world is unchanged. -/
theorem C4_disallowed_extension_no_effect {σ : Type} (h : ImageHandler σ) (u : UUID)
    (now : Time) (c : Context) (fileHeader : FileHeader) (w : σ)
    (hFile : c.FormFile = .ok fileHeader)
    (hExt : Ext fileHeader.Filename ∉ [".jpg", ".png", ".gif"]) :
    h.recorded.UploadImage u now c (w, []) =
      (⟨400, [("error",
          if Ext fileHeader.Filename = "" then "file must have an extension"
          else "file extension is not allowed")]⟩, (w, [])) := by
  have hAllowed : AllowedExtensions (Ext fileHeader.Filename) = false := by
    simp only [List.mem_cons, List.mem_singleton, List.not_mem_nil, or_false, not_or] at hExt
    obtain ⟨h1, h2, h3⟩ := hExt
    have h1' : (Ext fileHeader.Filename == ".jpg") = false := by
      simpa [beq_eq_false_iff_ne] using h1
    have h2' : (Ext fileHeader.Filename == ".png") = false := by
      simpa [beq_eq_false_iff_ne] using h2
    have h3' : (Ext fileHeader.Filename == ".gif") = false := by
      simpa [beq_eq_false_iff_ne] using h3
    simp [AllowedExtensions, AllowedExtensionsEntries, List.lookup, h1', h2', h3']
  by_cases hEmpty : Ext fileHeader.Filename = ""
  · simp [ImageHandler.UploadImage, hFile, hEmpty, pure, StateT.pure, StatusBadRequest]
  · simp [ImageHandler.UploadImage, hFile, hEmpty, hAllowed, pure, StateT.pure,
      StatusBadRequest]

/-- C4 at the file name `cat.bmp`, in the in-memory world. -/
theorem C4_disallowed_extension_no_effect_witness :
    (handlers.ImageHandler.mk (mem.service mem.noFaults)).recorded.UploadImage mem.uuid0
        mem.now0 ⟨.ok ⟨"cat.bmp", .ok mem.image0⟩⟩ (mem.empty, []) =
      (⟨400, [("error", "file extension is not allowed")]⟩, (mem.empty, [])) :=
  C4_disallowed_extension_no_effect ⟨mem.service mem.noFaults⟩ mem.uuid0 mem.now0
    ⟨.ok ⟨"cat.bmp", .ok mem.image0⟩⟩ ⟨"cat.bmp", .ok mem.image0⟩ mem.empty rfl (by decide)

open image_service in
/-- C5: whatever the compensating calls `storage.Delete` and `repo.DeleteTask` do
(any functions, succeeding or failing in any combination), the error UploadImage
returns after a failed CreateTask is the wrapped error of CreateTask, and after a
failed Publish the wrapped error of Publish; `errors.Unwrap` gives that error back. The
returned value does not mention the results of the compensating calls. -/
theorem C5_compensation_never_masks {σ : Type} (s : ImageService σ) (u : UUID)
    (now : Time) (image : Bytes) (extension : String) (w : σ)
    (Delete : String → σ → Option Error × σ) (DeleteTask : String → σ → Option Error × σ) :
    (∀ (w₁ w₂ : σ) (e : Error),
      s.storage.Save ("original/" ++ u.String ++ extension) image w = (none, w₁) →
      s.repo.CreateTask
        ⟨u.String, "PROCESSING", "original/" ++ u.String ++ extension,
          ["resize", "thumbnail", "watermark"], now⟩ w₁ = (some e, w₂) →
      ((s.withCompensation Delete DeleteTask).UploadImage u now image extension w).1 =
          ("", some (Errorf "failed to create task" e)) ∧
        (Errorf "failed to create task" e).Unwrap = some e) ∧
    (∀ (w₁ w₂ w₃ : σ) (e : Error),
      s.storage.Save ("original/" ++ u.String ++ extension) image w = (none, w₁) →
      s.repo.CreateTask
        ⟨u.String, "PROCESSING", "original/" ++ u.String ++ extension,
          ["resize", "thumbnail", "watermark"], now⟩ w₁ = (none, w₂) →
      s.produce.Publish
        ⟨u.String, "original/" ++ u.String ++ extension,
          ["resize", "thumbnail", "watermark"], now⟩ w₂ = (some e, w₃) →
      ((s.withCompensation Delete DeleteTask).UploadImage u now image extension w).1 =
          ("", some (Errorf "failed to publish task" e)) ∧
        (Errorf "failed to publish task" e).Unwrap = some e) := by
  constructor
  · intro w₁ w₂ e hSave hCreate
    have hSave' : s.storage.Save (OriginalPath u.String extension) image w = (none, w₁) :=
      hSave
    have hCreate' : s.repo.CreateTask
        ⟨u.String, StatusProcessing, OriginalPath u.String extension, RequestedOperations,
          now⟩ w₁ = (some e, w₂) := hCreate
    refine ⟨?_, rfl⟩
    simp [ImageService.UploadImage, ImageService.withCompensation, bind, StateT.bind, pure,
      StateT.pure, hSave', hCreate']
  · intro w₁ w₂ w₃ e hSave hCreate hPublish
    have hSave' : s.storage.Save (OriginalPath u.String extension) image w = (none, w₁) :=
      hSave
    have hCreate' : s.repo.CreateTask
        ⟨u.String, StatusProcessing, OriginalPath u.String extension, RequestedOperations,
          now⟩ w₁ = (none, w₂) := hCreate
    have hPublish' : s.produce.Publish
        ⟨u.String, OriginalPath u.String extension, RequestedOperations, now⟩ w₂ =
          (some e, w₃) := hPublish
    refine ⟨?_, rfl⟩
    simp [ImageService.UploadImage, ImageService.withCompensation, bind, StateT.bind, pure,
      StateT.pure, hSave', hCreate', hPublish']

/-- C5 at the in-memory world, with compensating calls that both fail with an error of
their own: the caller sees the error of CreateTask, and that of Publish. -/
theorem C5_compensation_never_masks_witness :
    (((mem.service { mem.noFaults with CreateTask := some mem.boom }).withCompensation
        (fun _ w => (some (.text "delete failed"), w))
        (fun _ w => (some (.text "delete task failed"), w))).UploadImage
        mem.uuid0 mem.now0 mem.image0 ".jpg" mem.empty).1 =
      ("", some (Errorf "failed to create task" mem.boom)) ∧
    (((mem.service { mem.noFaults with Publish := some mem.boom }).withCompensation
        (fun _ w => (some (.text "delete failed"), w))
        (fun _ w => (some (.text "delete task failed"), w))).UploadImage
        mem.uuid0 mem.now0 mem.image0 ".jpg" mem.empty).1 =
      ("", some (Errorf "failed to publish task" mem.boom)) :=
  ⟨((C5_compensation_never_masks
      (mem.service { mem.noFaults with CreateTask := some mem.boom }) mem.uuid0 mem.now0
      mem.image0 ".jpg" mem.empty (fun _ w => (some (.text "delete failed"), w))
      (fun _ w => (some (.text "delete task failed"), w))).1 _ _ mem.boom rfl rfl).1,
   ((C5_compensation_never_masks
      (mem.service { mem.noFaults with Publish := some mem.boom }) mem.uuid0 mem.now0
      mem.image0 ".jpg" mem.empty (fun _ w => (some (.text "delete failed"), w))
      (fun _ w => (some (.text "delete task failed"), w))).2 _ _ _ mem.boom rfl rfl rfl).1⟩

/-! ## The processing worker -/

open worker_service in
/-- One guarded transform, as in each case of the `switch`: the call is logged, and a
failed one is followed by `UpdateStatus(id, FAILED)`. -/
theorem transform_step_recorded {σ : Type} (w : Worker σ) (id : String) (c : Call)
    (hc : isTransform c = true) (f : σ → Option Error × σ) (s : σ) (log : List Event) :
    ∃ (s' : σ) (evs : List Event),
      (do
        match ← (logged c f : StateM (σ × List Event) (Option Error)) with
        | some _ => w.recorded.failed id
        | none => return ()) (s, log) = ((), (s', log ++ evs)) ∧
      (transforms evs).map Event.call = [c] ∧
      calls evs = (transforms evs).flatMap (withFailureWrite id) := by
  cases hr : (f s).1 with
  | none =>
    refine ⟨(f s).2, [⟨c, none⟩], ?_, ?_, ?_⟩
    · simp [logged, bind, StateT.bind, pure, StateT.pure, hr]
    · simp [transforms, hc]
    · simp [transforms, hc, calls, withFailureWrite]
  | some e =>
    refine ⟨(w.repo.UpdateStatus id StatusFailed (f s).2).2,
      [⟨c, some e⟩, ⟨.UpdateStatus id StatusFailed,
        (w.repo.UpdateStatus id StatusFailed (f s).2).1⟩], ?_, ?_, ?_⟩
    · simp [logged, bind, StateT.bind, pure, StateT.pure, hr, Worker.failed, Worker.recorded,
        Repo.recorded]
    · have hu : isTransform (.UpdateStatus id StatusFailed) = false := rfl
      simp [transforms, List.filter_cons, hc, hu]
    · have hu : isTransform (.UpdateStatus id StatusFailed) = false := rfl
      simp [transforms, List.filter_cons, hc, hu, calls, withFailureWrite]
      rfl

open worker_service in
/-- What one element of `requested_operations` adds to the log: the Modifier call the
specification gives for it, if any, followed by the FAILED write if it failed. -/
theorem runOperation_recorded {σ : Type} (w : Worker σ) (task : Task) (operation : String)
    (s : σ) (log : List Event) :
    ∃ (s' : σ) (evs : List Event),
      w.recorded.runOperation task operation (s, log) = ((), (s', log ++ evs)) ∧
      (transforms evs).map Event.call =
        (expectedTransformCall task.OriginalPath operation).toList ∧
      calls evs = (transforms evs).flatMap (withFailureWrite task.ID) := by
  by_cases h1 : operation = "resize"
  · obtain ⟨s', evs, hrun, hT, hC⟩ := transform_step_recorded w task.ID
      (.Resize task.OriginalPath (ProcessPath operation (Base task.OriginalPath))
        ResizeToWidth ResizeToHeight) rfl
      (w.modifier.Resize task.OriginalPath (ProcessPath operation (Base task.OriginalPath))
        ResizeToWidth ResizeToHeight) s log
    refine ⟨s', evs, ?_, ?_, hC⟩
    · simp only [Worker.runOperation, h1, if_true]
      rw [h1] at hrun
      exact hrun
    · rw [hT]
      simp [expectedTransformCall, h1, ProcessPath, ResizeToWidth, ResizeToHeight]
  · by_cases h2 : operation = "thumbnail"
    · obtain ⟨s', evs, hrun, hT, hC⟩ := transform_step_recorded w task.ID
        (.Thumbnail task.OriginalPath (ProcessPath operation (Base task.OriginalPath))
          ThumbnailToWidth ThumbnailToHeight) rfl
        (w.modifier.Thumbnail task.OriginalPath
          (ProcessPath operation (Base task.OriginalPath)) ThumbnailToWidth
          ThumbnailToHeight) s log
      refine ⟨s', evs, ?_, ?_, hC⟩
      · simp only [Worker.runOperation, h1, h2, if_true, if_false]
        rw [h2] at hrun
        exact hrun
      · rw [hT]
        simp [expectedTransformCall, h2, ProcessPath, ThumbnailToWidth, ThumbnailToHeight]
    · by_cases h3 : operation = "watermark"
      · obtain ⟨s', evs, hrun, hT, hC⟩ := transform_step_recorded w task.ID
          (.Watermark task.OriginalPath (ProcessPath operation (Base task.OriginalPath))) rfl
          (w.modifier.Watermark task.OriginalPath
            (ProcessPath operation (Base task.OriginalPath))) s log
        refine ⟨s', evs, ?_, ?_, hC⟩
        · simp only [Worker.runOperation, h1, h2, h3, if_true, if_false]
          rw [h3] at hrun
          exact hrun
        · rw [hT]
          simp [expectedTransformCall, h3, ProcessPath]
      · refine ⟨s, [], ?_, ?_, ?_⟩
        · simp [Worker.runOperation, h1, h2, h3, pure, StateT.pure]
        · simp [transforms, expectedTransformCall, h1, h2, h3]
        · simp [transforms, calls]

open worker_service in
/-- What the loop over `requested_operations` adds to the log. -/
theorem runOperations_recorded {σ : Type} (w : Worker σ) (task : Task)
    (ops : List String) (s : σ) (log : List Event) :
    ∃ (s' : σ) (evs : List Event),
      w.recorded.runOperations task ops (s, log) = ((), (s', log ++ evs)) ∧
      (transforms evs).map Event.call =
        ops.filterMap (expectedTransformCall task.OriginalPath) ∧
      calls evs = (transforms evs).flatMap (withFailureWrite task.ID) := by
  induction ops generalizing s log with
  | nil =>
    exact ⟨s, [], by simp [Worker.runOperations, pure, StateT.pure], by simp [transforms],
      by simp [transforms, calls]⟩
  | cons operation rest ih =>
    obtain ⟨s₁, evs₁, hrun₁, hT₁, hC₁⟩ := runOperation_recorded w task operation s log
    obtain ⟨s₂, evs₂, hrun₂, hT₂, hC₂⟩ := ih s₁ (log ++ evs₁)
    refine ⟨s₂, evs₁ ++ evs₂, ?_, ?_, ?_⟩
    · simp only [Worker.runOperations, bind, StateT.bind]
      rw [hrun₁]
      simp only []
      rw [hrun₂, List.append_assoc]
    · have hsplit : transforms (evs₁ ++ evs₂) = transforms evs₁ ++ transforms evs₂ := by
        simp [transforms]
      rw [hsplit, List.map_append, hT₁, hT₂]
      cases h : expectedTransformCall task.OriginalPath operation <;>
        simp [List.filterMap_cons, h]
    · have hsplit : transforms (evs₁ ++ evs₂) = transforms evs₁ ++ transforms evs₂ := by
        simp [transforms]
      rw [hsplit, List.flatMap_append, ← hC₁, ← hC₂]
      simp [calls]

open worker_service in
/-- The log of one pass of the loop body over a message that was fetched and decoded:
the fetch, what the operations add, the commit, the COMPLETE write. -/
theorem iteration_recorded {σ : Type} (w : Worker σ) (s s₁ : σ) (msg : Message)
    (task : Task) (hFetch : w.consume.FetchMessage s = (.ok msg, s₁))
    (hDecode : w.GetTask msg = .ok task) :
    ∃ (s' : σ) (evs : List Event) (r₁ r₂ : Option Error),
      w.recorded.iteration (s, []) =
        ((), (s', ⟨.FetchMessage, none⟩ :: evs ++
          [⟨.CommitMessage msg, r₁⟩, ⟨.UpdateStatus task.ID "COMPLETE", r₂⟩])) ∧
      (transforms evs).map Event.call =
        task.RequestedOperations.filterMap (expectedTransformCall task.OriginalPath) ∧
      calls evs = (transforms evs).flatMap (withFailureWrite task.ID) := by
  obtain ⟨s₂, evs, hrun, hT, hC⟩ :=
    runOperations_recorded w task task.RequestedOperations s₁ [⟨.FetchMessage, none⟩]
  have hDecode' : w.recorded.GetTask msg = .ok task := hDecode
  refine ⟨(w.repo.UpdateStatus task.ID StatusComplete (w.consume.CommitMessage msg s₂).2).2,
    evs, (w.consume.CommitMessage msg s₂).1,
    (w.repo.UpdateStatus task.ID StatusComplete (w.consume.CommitMessage msg s₂).2).1,
    ?_, hT, hC⟩
  have hFetch' : w.recorded.consume.FetchMessage (s, []) =
      (.ok msg, (s₁, [⟨.FetchMessage, none⟩])) := by
    simp [Worker.recorded, Consume.recorded, loggedValue, hFetch, errOf]
  simp only [Worker.iteration, bind, StateT.bind, hFetch', hDecode', Worker.processTask]
  rw [hrun]
  simp [Worker.recorded, Consume.recorded, Repo.recorded, logged, pure, StateT.pure,
    StatusComplete]

theorem isStatusWrite_of_isTransform (c : Call) (h : isTransform c = true) :
    isStatusWrite c = false := by
  cases c <;> simp_all [isTransform, isStatusWrite]

/-- The status writes among the Modifier events with their FAILED writes: one FAILED
write per failed transform. -/
theorem statusWrites_of_transforms (id : String) (evs : List Event) :
    ((transforms evs).flatMap (withFailureWrite id)).filter isStatusWrite =
      ((transforms evs).filter (fun ev => ev.err.isSome)).map
        (fun _ => Call.UpdateStatus id "FAILED") := by
  induction evs with
  | nil => simp [transforms]
  | cons ev rest ih =>
    have ih' := ih
    simp only [transforms] at ih' ⊢
    by_cases hT : isTransform ev.call = true
    · have hS := isStatusWrite_of_isTransform ev.call hT
      have hW : isStatusWrite (Call.UpdateStatus id "FAILED") = true := rfl
      cases hE : ev.err <;>
        simp [List.filter_cons, hT, hS, hW, List.flatMap_cons, withFailureWrite, hE, ih']
    · simp [List.filter_cons, hT, ih']

theorem filter_calls (evs : List Event) :
    (calls evs).filter isTransform = (transforms evs).map Event.call := by
  simp [calls, transforms, List.filter_map, Function.comp_def]

/-- The Modifier events of the log of a pass are those of its operations. -/
theorem transforms_pass (evs : List Event) (a b c : Event) (ha : isTransform a.call = false)
    (hb : isTransform b.call = false) (hc : isTransform c.call = false) :
    transforms (a :: evs ++ [b, c]) = transforms evs := by
  simp [transforms, List.filter_cons, ha, hb, hc]

open worker_service in
/-- C6: in one pass of the loop body over a fetched message that decodes to a command
with path `p` and operations `ops`, the Modifier calls are, in the order of `ops`, one
call per element that is `resize`, `thumbnail` or `watermark`, each with source `p` and
target `processed/<op>/<base of p>`, Resize with 1024x768 and Thumbnail with 128x128.
The sequence is a function of `p` and `ops` alone: it is the same in every world, so
whichever transform calls return an error. For the three default operations all three
calls are made. -/
theorem C6_transform_calls {σ : Type} (w : Worker σ) (s s₁ : σ) (msg : Message)
    (task : Task) (hFetch : w.consume.FetchMessage s = (.ok msg, s₁))
    (hDecode : w.GetTask msg = .ok task) :
    (calls (w.recorded.iteration (s, [])).2.2).filter isTransform =
      task.RequestedOperations.filterMap (expectedTransformCall task.OriginalPath) ∧
    (task.RequestedOperations = ["resize", "thumbnail", "watermark"] →
      (calls (w.recorded.iteration (s, [])).2.2).filter isTransform =
        [.Resize task.OriginalPath ("processed/resize/" ++ Base task.OriginalPath) 1024 768,
         .Thumbnail task.OriginalPath ("processed/thumbnail/" ++ Base task.OriginalPath)
           128 128,
         .Watermark task.OriginalPath ("processed/watermark/" ++ Base task.OriginalPath)]) := by
  obtain ⟨s', evs, r₁, r₂, hrun, hT, _⟩ := iteration_recorded w s s₁ msg task hFetch hDecode
  have hcalls : (calls (w.recorded.iteration (s, [])).2.2).filter isTransform =
      task.RequestedOperations.filterMap (expectedTransformCall task.OriginalPath) := by
    rw [hrun, filter_calls]
    show (transforms (⟨.FetchMessage, none⟩ :: evs ++
      [⟨.CommitMessage msg, r₁⟩, ⟨.UpdateStatus task.ID "COMPLETE", r₂⟩])).map Event.call = _
    rw [transforms_pass evs ⟨.FetchMessage, none⟩ ⟨.CommitMessage msg, r₁⟩
      ⟨.UpdateStatus task.ID "COMPLETE", r₂⟩ rfl rfl rfl, hT]
  refine ⟨hcalls, ?_⟩
  intro hops
  rw [hcalls, hops]
  rfl

/-- C6 in the in-memory world, for a command with the three default operations whose
resize fails: all three Modifier calls are made. -/
theorem C6_transform_calls_witness :
    (calls ((mem.worker { mem.noFaults with Resize := some mem.boom }
        ⟨"T1", "PROCESSING", "original/T1.jpg", ["resize", "thumbnail", "watermark"],
          mem.now0⟩).recorded.iteration
        (⟨[("original/T1.jpg", mem.image0)], [], [], [⟨"images", 0, 0, [], []⟩]⟩, [])).2.2).filter
      isTransform =
    [.Resize "original/T1.jpg" "processed/resize/T1.jpg" 1024 768,
     .Thumbnail "original/T1.jpg" "processed/thumbnail/T1.jpg" 128 128,
     .Watermark "original/T1.jpg" "processed/watermark/T1.jpg"] :=
  (C6_transform_calls
    (mem.worker { mem.noFaults with Resize := some mem.boom }
      ⟨"T1", "PROCESSING", "original/T1.jpg", ["resize", "thumbnail", "watermark"], mem.now0⟩)
    ⟨[("original/T1.jpg", mem.image0)], [], [], [⟨"images", 0, 0, [], []⟩]⟩ _
    ⟨"images", 0, 0, [], []⟩ _ rfl rfl).2 rfl

open worker_service in
/-- C7: in one pass of the loop body over a fetched and decoded message, the calls
are: the fetch; then, for each Modifier call in turn, that call followed at once by
`UpdateStatus(id, FAILED)` when it returned an error and by nothing when it did not;
then CommitMessage; then `UpdateStatus(id, COMPLETE)`. So the status writes of the pass
are one FAILED per failed transform followed by exactly one COMPLETE, which comes after
the commit, is made in every world (whatever failed, whatever the commit returned),
and is the last call of the pass. -/
theorem C7_status_writes {σ : Type} (w : Worker σ) (s s₁ : σ) (msg : Message)
    (task : Task) (hFetch : w.consume.FetchMessage s = (.ok msg, s₁))
    (hDecode : w.GetTask msg = .ok task) :
    calls (w.recorded.iteration (s, [])).2.2 =
      Call.FetchMessage ::
        (transforms (w.recorded.iteration (s, [])).2.2).flatMap (withFailureWrite task.ID) ++
        [.CommitMessage msg, .UpdateStatus task.ID "COMPLETE"] ∧
    (calls (w.recorded.iteration (s, [])).2.2).filter isStatusWrite =
      ((transforms (w.recorded.iteration (s, [])).2.2).filter (fun ev => ev.err.isSome)).map
        (fun _ => Call.UpdateStatus task.ID "FAILED") ++
        [.UpdateStatus task.ID "COMPLETE"] ∧
    (calls (w.recorded.iteration (s, [])).2.2).getLast? =
      some (.UpdateStatus task.ID "COMPLETE") := by
  obtain ⟨s', evs, r₁, r₂, hrun, _, hC⟩ := iteration_recorded w s s₁ msg task hFetch hDecode
  have hlog : (w.recorded.iteration (s, [])).2.2 = ⟨.FetchMessage, none⟩ :: evs ++
      [⟨.CommitMessage msg, r₁⟩, ⟨.UpdateStatus task.ID "COMPLETE", r₂⟩] := by
    rw [hrun]
  have hT : transforms (w.recorded.iteration (s, [])).2.2 = transforms evs := by
    rw [hlog]
    exact transforms_pass evs ⟨.FetchMessage, none⟩ ⟨.CommitMessage msg, r₁⟩
      ⟨.UpdateStatus task.ID "COMPLETE", r₂⟩ rfl rfl rfl
  have hcalls : calls (w.recorded.iteration (s, [])).2.2 =
      Call.FetchMessage ::
        (transforms (w.recorded.iteration (s, [])).2.2).flatMap (withFailureWrite task.ID) ++
        [.CommitMessage msg, .UpdateStatus task.ID "COMPLETE"] := by
    rw [hT, ← hC, hlog]
    simp [calls]
  refine ⟨hcalls, ?_, ?_⟩
  · rw [hcalls, hT]
    have hF : isStatusWrite Call.FetchMessage = false := rfl
    have hM : isStatusWrite (Call.CommitMessage msg) = false := rfl
    have hW : isStatusWrite (Call.UpdateStatus task.ID "COMPLETE") = true := rfl
    rw [List.cons_append, List.filter_cons, hF]
    simp only [Bool.false_eq_true, if_false]
    rw [List.filter_append, statusWrites_of_transforms]
    simp [List.filter_cons, hM, hW]
  · rw [hcalls]
    have hsplit : ∀ l : List Call,
        Call.FetchMessage :: l ++ [.CommitMessage msg, .UpdateStatus task.ID "COMPLETE"] =
          (Call.FetchMessage :: l ++ [.CommitMessage msg]) ++
            [.UpdateStatus task.ID "COMPLETE"] := by
      intro l
      simp
    rw [hsplit, List.getLast?_concat]

/-- C7 in the in-memory world, for a command with the three default operations whose
resize fails: FAILED is written right after the resize, the other two operations
follow, and COMPLETE is written last, after the commit. -/
theorem C7_status_writes_witness :
    calls ((mem.worker { mem.noFaults with Resize := some mem.boom }
        ⟨"T1", "PROCESSING", "original/T1.jpg", ["resize", "thumbnail", "watermark"],
          mem.now0⟩).recorded.iteration
        (⟨[("original/T1.jpg", mem.image0)], [], [], [⟨"images", 0, 0, [], []⟩]⟩, [])).2.2 =
      [.FetchMessage,
       .Resize "original/T1.jpg" "processed/resize/T1.jpg" 1024 768,
       .UpdateStatus "T1" "FAILED",
       .Thumbnail "original/T1.jpg" "processed/thumbnail/T1.jpg" 128 128,
       .Watermark "original/T1.jpg" "processed/watermark/T1.jpg",
       .CommitMessage ⟨"images", 0, 0, [], []⟩,
       .UpdateStatus "T1" "COMPLETE"] ∧
    (calls ((mem.worker { mem.noFaults with Resize := some mem.boom }
        ⟨"T1", "PROCESSING", "original/T1.jpg", ["resize", "thumbnail", "watermark"],
          mem.now0⟩).recorded.iteration
        (⟨[("original/T1.jpg", mem.image0)], [], [], [⟨"images", 0, 0, [], []⟩]⟩, [])).2.2).filter
      isStatusWrite = [.UpdateStatus "T1" "FAILED", .UpdateStatus "T1" "COMPLETE"] :=
  ⟨(C7_status_writes
      (mem.worker { mem.noFaults with Resize := some mem.boom }
        ⟨"T1", "PROCESSING", "original/T1.jpg", ["resize", "thumbnail", "watermark"],
          mem.now0⟩)
      ⟨[("original/T1.jpg", mem.image0)], [], [], [⟨"images", 0, 0, [], []⟩]⟩ _
      ⟨"images", 0, 0, [], []⟩ _ rfl rfl).1.trans rfl,
   (C7_status_writes
      (mem.worker { mem.noFaults with Resize := some mem.boom }
        ⟨"T1", "PROCESSING", "original/T1.jpg", ["resize", "thumbnail", "watermark"],
          mem.now0⟩)
      ⟨[("original/T1.jpg", mem.image0)], [], [], [⟨"images", 0, 0, [], []⟩]⟩ _
      ⟨"images", 0, 0, [], []⟩ _ rfl rfl).2.1.trans rfl⟩

open worker_service in
/-- An operation name outside the three known ones does nothing. -/
theorem runOperation_unknown {σ : Type} (w : Worker σ) (task : Task) (operation : String)
    (h : operation ∉ ["resize", "thumbnail", "watermark"]) :
    w.runOperation task operation = pure () := by
  simp only [List.mem_cons, List.mem_singleton, List.not_mem_nil, or_false, not_or] at h
  obtain ⟨h1, h2, h3⟩ := h
  simp [Worker.runOperation, h1, h2, h3]

open worker_service in
/-- The loop over the operations reads only the id and the original path of the task,
and skips an unknown name. -/
theorem runOperations_remove {σ : Type} (w : Worker σ) (task task' : Task)
    (hID : task'.ID = task.ID) (hPath : task'.OriginalPath = task.OriginalPath)
    (xs ys : List String) (operation : String)
    (h : operation ∉ ["resize", "thumbnail", "watermark"]) :
    w.runOperations task (xs ++ operation :: ys) = w.runOperations task' (xs ++ ys) := by
  have hop : ∀ op, w.runOperation task op = w.runOperation task' op := by
    intro op
    simp [Worker.runOperation, hID, hPath]
  have hsame : ∀ l, w.runOperations task l = w.runOperations task' l := by
    intro l
    induction l with
    | nil => rfl
    | cons op rest ih => simp [Worker.runOperations, hop, ih]
  induction xs with
  | nil =>
    simp only [List.nil_append, Worker.runOperations, runOperation_unknown w task operation h]
    rw [hsame]
    rfl
  | cons x rest ih =>
    show (do w.runOperation task x; w.runOperations task (rest ++ operation :: ys)) =
      (do w.runOperation task' x; w.runOperations task' (rest ++ ys))
    rw [hop, ih]

open worker_service in
/-- C8: an operation name outside `resize`, `thumbnail`, `watermark` in
`requested_operations` causes no Modifier call and no status write: processing the
command with that element removed is the same computation, in every world; and with
the calls recorded, it leaves the same log from any starting log, so the same sequence
of Modifier calls and status writes. -/
theorem C8_unknown_operation_skipped {σ : Type} (w : Worker σ) (msg : Message)
    (task : Task) (xs ys : List String) (operation : String)
    (hUnknown : operation ∉ ["resize", "thumbnail", "watermark"])
    (hOps : task.RequestedOperations = xs ++ operation :: ys) :
    w.processTask msg task =
      w.processTask msg { task with RequestedOperations := xs ++ ys } ∧
    w.recorded.processTask msg task =
      w.recorded.processTask msg { task with RequestedOperations := xs ++ ys } := by
  have key : ∀ {τ : Type} (v : Worker τ), v.processTask msg task =
      v.processTask msg { task with RequestedOperations := xs ++ ys } := by
    intro τ v
    simp only [Worker.processTask, hOps]
    rw [runOperations_remove v task { task with RequestedOperations := xs ++ ys } rfl rfl
      xs ys operation hUnknown]
  exact ⟨key w, key w.recorded⟩

/-- C8 in the in-memory world: the command `[resize, sepia, watermark]` leaves the
log of the command `[resize, watermark]`. -/
theorem C8_unknown_operation_skipped_witness :
    calls ((mem.worker mem.noFaults
        ⟨"T1", "PROCESSING", "original/T1.jpg", ["resize", "sepia", "watermark"],
          mem.now0⟩).recorded.processTask ⟨"images", 0, 0, [], []⟩
        ⟨"T1", "PROCESSING", "original/T1.jpg", ["resize", "sepia", "watermark"], mem.now0⟩
        (⟨[("original/T1.jpg", mem.image0)], [], [], []⟩, [])).2.2 =
      [.Resize "original/T1.jpg" "processed/resize/T1.jpg" 1024 768,
       .Watermark "original/T1.jpg" "processed/watermark/T1.jpg",
       .CommitMessage ⟨"images", 0, 0, [], []⟩,
       .UpdateStatus "T1" "COMPLETE"] := by
  rw [(C8_unknown_operation_skipped
    (mem.worker mem.noFaults
      ⟨"T1", "PROCESSING", "original/T1.jpg", ["resize", "sepia", "watermark"], mem.now0⟩)
    ⟨"images", 0, 0, [], []⟩
    ⟨"T1", "PROCESSING", "original/T1.jpg", ["resize", "sepia", "watermark"], mem.now0⟩
    ["resize"] ["watermark"] "sepia" (by decide) rfl).2]
  rfl

/-! ## The delete operation -/

open image_service in
/-- C9: when GetTask returns an error for the id (no such record), DeleteImage returns
nil and its only call is that GetTask: no storage.Delete and no repo.DeleteTask. -/
theorem C9_delete_missing_task {σ : Type} (s : ImageService σ) (id : String) (w w₁ : σ)
    (e : Error) (hGet : s.repo.GetTask id w = (.error e, w₁)) :
    s.recorded.DeleteImage id (w, []) = (none, (w₁, [⟨.GetTask id, some e⟩])) := by
  simp [ImageService.DeleteImage, ImageService.recorded, Repo.recorded, loggedValue, bind,
    StateT.bind, pure, StateT.pure, hGet, errOf]

/-- C9 in the empty in-memory world. -/
theorem C9_delete_missing_task_witness :
    (mem.service mem.noFaults).recorded.DeleteImage "T1" (mem.empty, []) =
      (none, (mem.empty, [⟨.GetTask "T1", some (.text "sql: no rows in result set")⟩])) :=
  C9_delete_missing_task (mem.service mem.noFaults) "T1" mem.empty mem.empty
    (.text "sql: no rows in result set") rfl

open worker_service in
/-- The log of the processing of a decoded task: what the operations add, the commit,
the COMPLETE write. -/
theorem processTask_recorded {σ : Type} (w : Worker σ) (msg : Message) (task : Task)
    (s : σ) (log : List Event) :
    ∃ (s' : σ) (evs : List Event) (r₁ r₂ : Option Error),
      w.recorded.processTask msg task (s, log) =
        ((), (s', log ++ evs ++
          [⟨.CommitMessage msg, r₁⟩, ⟨.UpdateStatus task.ID "COMPLETE", r₂⟩])) ∧
      (transforms evs).map Event.call =
        task.RequestedOperations.filterMap (expectedTransformCall task.OriginalPath) := by
  obtain ⟨s₂, evs, hrun, hT, _⟩ :=
    runOperations_recorded w task task.RequestedOperations s log
  refine ⟨(w.repo.UpdateStatus task.ID StatusComplete (w.consume.CommitMessage msg s₂).2).2,
    evs, (w.consume.CommitMessage msg s₂).1,
    (w.repo.UpdateStatus task.ID StatusComplete (w.consume.CommitMessage msg s₂).2).1,
    ?_, hT⟩
  simp only [Worker.processTask, bind, StateT.bind]
  rw [hrun]
  simp [Worker.recorded, Consume.recorded, Repo.recorded, logged, pure, StateT.pure,
    StatusComplete]

theorem isTransform_of_targetOf (c : Call) (target : String) (h : targetOf c = some target) :
    isTransform c = true := by
  cases c <;> simp_all [targetOf, isTransform]

/-- The target of a Modifier call the specification gives is one of the three derived
paths of the original path. -/
theorem target_of_expected (p op target : String) (c : Call)
    (hc : expectedTransformCall p op = some c) (ht : targetOf c = some target) :
    target ∈ ["processed/resize/" ++ Base p, "processed/thumbnail/" ++ Base p,
      "processed/watermark/" ++ Base p] := by
  unfold expectedTransformCall at hc
  split at hc
  · next h1 =>
    subst h1
    cases hc
    simp only [targetOf, Option.some.injEq] at ht
    subst ht
    exact List.mem_cons_self _ _
  · split at hc
    · next h2 =>
      subst h2
      cases hc
      simp only [targetOf, Option.some.injEq] at ht
      subst ht
      exact List.mem_cons_of_mem _ (List.mem_cons_self _ _)
    · split at hc
      · next h3 =>
        subst h3
        cases hc
        simp only [targetOf, Option.some.injEq] at ht
        subst ht
        exact List.mem_cons_of_mem _ (List.mem_cons_of_mem _ (List.mem_cons_self _ _))
      · cases hc

open image_service in
/-- The calls of DeleteImage for a task that exists. -/
theorem deleteImage_calls {σ : Type} (s : ImageService σ) (id : String) (w w₁ : σ)
    (task : Task) (hGet : s.repo.GetTask id w = (.ok task, w₁)) :
    calls (s.recorded.DeleteImage id (w, [])).2.2 =
      [.GetTask id, .Delete task.OriginalPath,
       .Delete ("processed/resize/" ++ Base task.OriginalPath),
       .Delete ("processed/thumbnail/" ++ Base task.OriginalPath),
       .Delete ("processed/watermark/" ++ Base task.OriginalPath),
       .DeleteTask id] := by
  have hGet' : s.recorded.repo.GetTask id (w, []) = (.ok task, (w₁, [⟨.GetTask id, none⟩])) := by
    simp [ImageService.recorded, Repo.recorded, loggedValue, hGet, errOf]
  simp only [ImageService.DeleteImage, bind, StateT.bind, hGet', RequestedOperations,
    ImageService.deleteProcessed]
  cases hDel : (s.repo.DeleteTask id
      (s.storage.Delete (ProcessPath "watermark" (Base task.OriginalPath))
        (s.storage.Delete (ProcessPath "thumbnail" (Base task.OriginalPath))
          (s.storage.Delete (ProcessPath "resize" (Base task.OriginalPath))
            (s.storage.Delete task.OriginalPath w₁).2).2).2).2).1 <;>
    simp [ImageService.recorded, FileStorage.recorded, Repo.recorded, logged, pure,
      StateT.pure, hDel, calls] <;>
    exact ⟨rfl, rfl, rfl⟩

open image_service worker_service in
/-- C10: for a task that exists, DeleteImage issues, in this order, a Delete for the
task's original path, a Delete for each of the three derived paths
`processed/<op>/<base of the original path>`, and then DeleteTask for the id; the
sequence is the same in every world, so whichever of the deletes fail. And every target
path that the worker hands to the Modifier when it processes a command with that
original path, whatever its `requested_operations`, is among the deleted paths. -/
theorem C10_delete_covers_derived {σ : Type} (s : ImageService σ) (id : String) (w w₁ : σ)
    (task : Task) (hGet : s.repo.GetTask id w = (.ok task, w₁)) :
    calls (s.recorded.DeleteImage id (w, [])).2.2 =
      [.GetTask id, .Delete task.OriginalPath,
       .Delete ("processed/resize/" ++ Base task.OriginalPath),
       .Delete ("processed/thumbnail/" ++ Base task.OriginalPath),
       .Delete ("processed/watermark/" ++ Base task.OriginalPath),
       .DeleteTask id] ∧
    ∀ (τ : Type) (worker : Worker τ) (msg : Message) (command : Task) (t : τ)
      (c : Call) (target : String),
      command.OriginalPath = task.OriginalPath →
      c ∈ calls (worker.recorded.processTask msg command (t, [])).2.2 →
      targetOf c = some target →
      Call.Delete target ∈ calls (s.recorded.DeleteImage id (w, [])).2.2 := by
  have hcalls := deleteImage_calls s id w w₁ task hGet
  refine ⟨hcalls, ?_⟩
  intro τ worker msg command t c target hPath hc hTarget
  obtain ⟨t', evs, r₁, r₂, hrun, hT⟩ := processTask_recorded worker msg command t []
  have hTr := isTransform_of_targetOf c target hTarget
  have hmem : c ∈ (transforms evs).map Event.call := by
    rw [hrun] at hc
    simp only [calls, List.nil_append, List.map_append, List.mem_append, List.map_cons,
      List.map_nil, List.mem_cons, List.mem_singleton, List.not_mem_nil, or_false] at hc
    rcases hc with hc | hc | hc
    · obtain ⟨ev, hev, rfl⟩ := List.mem_map.1 hc
      exact List.mem_map.2 ⟨ev, by simp [transforms, hev, hTr], rfl⟩
    · rw [hc] at hTr
      cases hTr
    · rw [hc] at hTr
      cases hTr
  rw [hT] at hmem
  obtain ⟨op, _, hop⟩ := List.mem_filterMap.1 hmem
  have hIn := target_of_expected command.OriginalPath op target c hop hTarget
  rw [hPath] at hIn
  rw [hcalls]
  simp only [List.mem_cons, List.mem_singleton, List.not_mem_nil, or_false] at hIn
  rcases hIn with h | h | h <;> simp [h]

/-- C10 in the in-memory world holding the task `T1`, with a Blob Store whose every
Delete fails: all four blob deletes and the record delete are still issued. -/
theorem C10_delete_covers_derived_witness :
    calls ((mem.service { mem.noFaults with Delete := some mem.boom }).recorded.DeleteImage "T1"
        (⟨[("original/T1.jpg", mem.image0)],
          [⟨"T1", "COMPLETE", "original/T1.jpg", [], mem.now0⟩], [], []⟩, [])).2.2 =
      [.GetTask "T1", .Delete "original/T1.jpg", .Delete "processed/resize/T1.jpg",
       .Delete "processed/thumbnail/T1.jpg", .Delete "processed/watermark/T1.jpg",
       .DeleteTask "T1"] :=
  (C10_delete_covers_derived (mem.service { mem.noFaults with Delete := some mem.boom }) "T1"
    ⟨[("original/T1.jpg", mem.image0)],
      [⟨"T1", "COMPLETE", "original/T1.jpg", [], mem.now0⟩], [], []⟩ _
    ⟨"T1", "COMPLETE", "original/T1.jpg", [], mem.now0⟩ rfl).1.trans rfl

/-! ## Path templates -/

theorem takeWhile_append_stop {α : Type} (p : α → Bool) (l₁ l₂ : List α) (a : α)
    (h₁ : ∀ x ∈ l₁, p x = true) (ha : p a = false) :
    (l₁ ++ a :: l₂).takeWhile p = l₁ := by
  induction l₁ with
  | nil => simp [List.takeWhile_cons, ha]
  | cons x rest ih =>
    have hx : p x = true := h₁ x (List.mem_cons_self _ _)
    simp only [List.cons_append, List.takeWhile_cons, hx, if_true]
    rw [ih (fun y hy => h₁ y (List.mem_cons_of_mem _ hy))]

/-- The base of `original/<name>` is `<name>`, for a non-empty name without a slash. -/
theorem base_original (name : String) (hne : name ≠ "") (hsep : '/' ∉ name.toList) :
    Base ("original/" ++ name) = name := by
  have hpath : ("original/" ++ name).toList = "original".toList ++ '/' :: name.toList := by
    simp [String.toList]
  have hnil : name.toList ≠ [] := by
    intro h
    apply hne
    cases name
    simp_all [String.toList]
  have hrev : name.toList.reverse ≠ [] := by simpa using hnil
  have hall : ∀ c ∈ name.toList.reverse, (!IsPathSeparator c) = true := by
    intro c hc
    have hc' : c ∈ name.toList := List.mem_reverse.1 hc
    have : c ≠ '/' := fun h => hsep (h ▸ hc')
    simp [IsPathSeparator, this]
  have hdrop : (("original/" ++ name).toList.reverse).dropWhile IsPathSeparator =
      ("original/" ++ name).toList.reverse := by
    rw [hpath]
    simp only [List.reverse_append, List.reverse_cons]
    obtain ⟨c, rest, hcr⟩ := List.exists_cons_of_ne_nil hrev
    have hc := hall c (by rw [hcr]; exact List.mem_cons_self _ _)
    rw [hcr]
    simp only [List.cons_append, List.append_assoc, List.dropWhile_cons]
    simp only [Bool.not_eq_true'] at hc
    simp [hc]
  have hne' : ("original/" ++ name) ≠ "" := by
    intro h
    have := congrArg String.length h
    simp at this
    exact absurd this.1 (by decide)
  unfold Base
  simp only [hne', if_false]
  rw [hdrop]
  simp only [List.reverse_reverse]
  rw [hpath]
  have hsplit : ("original".toList ++ '/' :: name.toList).reverse =
      name.toList.reverse ++ '/' :: "original".toList.reverse := by
    simp
  rw [hsplit, takeWhile_append_stop _ _ _ _ hall (by simp [IsPathSeparator])]
  simp only [List.reverse_reverse, hnil, if_false]
  rfl

theorem allowed_extension_cases (ext : String) (h : AllowedExtensions ext = true) :
    ext = ".jpg" ∨ ext = ".png" ∨ ext = ".gif" := by
  by_cases h1 : ext = ".jpg"
  · exact Or.inl h1
  · by_cases h2 : ext = ".png"
    · exact Or.inr (Or.inl h2)
    · by_cases h3 : ext = ".gif"
      · exact Or.inr (Or.inr h3)
      · have h1' : (ext == ".jpg") = false := by simpa [beq_eq_false_iff_ne] using h1
        have h2' : (ext == ".png") = false := by simpa [beq_eq_false_iff_ne] using h2
        have h3' : (ext == ".gif") = false := by simpa [beq_eq_false_iff_ne] using h3
        simp [AllowedExtensions, AllowedExtensionsEntries, List.lookup, h1', h2', h3'] at h

/-- The file name `<id><ext>` of an upload is not empty and has no slash. -/
theorem upload_name_ok (id ext : String) (hId : '/' ∉ id.toList)
    (hExt : AllowedExtensions ext = true) :
    id ++ ext ≠ "" ∧ '/' ∉ (id ++ ext).toList := by
  have hlen : 0 < ext.length ∧ '/' ∉ ext.toList := by
    rcases allowed_extension_cases ext hExt with h | h | h <;> subst h <;> decide
  constructor
  · intro h
    have := congrArg String.length h
    simp at this
    omega
  · intro h
    have h' : '/' ∈ id.toList ∨ '/' ∈ ext.toList := by simpa [String.toList] using h
    rcases h' with h' | h'
    · exact hId h'
    · exact hlen.2 h'

theorem hextable_no_separator (k : Nat) : hextable.getD k '0' ≠ '/' := by
  rcases Nat.lt_or_ge k 16 with h | h
  · interval_cases k <;> decide
  · have hlen : hextable.length ≤ k := h
    rw [List.getD_eq_default _ _ hlen]
    decide

/-- The id that UploadImage generates, a UUID in text, holds no path separator. -/
theorem uuid_no_separator (u : UUID) : '/' ∉ u.String.toList := by
  have h := hextable_no_separator
  simp only [UUID.String, String.toList, encodeByte, List.mem_append, List.mem_cons,
    List.mem_singleton, List.not_mem_nil, or_false, not_or]
  have hd : ¬ '/' = '-' := by decide
  refine ⟨⟨⟨⟨⟨⟨⟨⟨⟨⟨⟨⟨⟨⟨⟨⟨⟨⟨⟨?_, ?_⟩, ?_⟩, ?_⟩, ?_⟩, ?_⟩, ?_⟩, ?_⟩, ?_⟩, ?_⟩, ?_⟩, ?_⟩, ?_⟩, ?_⟩,
    ?_⟩, ?_⟩, ?_⟩, ?_⟩, ?_⟩, ?_⟩ <;>
    first | exact hd | exact ⟨fun e => h _ e.symm, fun e => h _ e.symm⟩

open worker_service in
/-- C11: for an id without a path separator and an allowed extension, the original path
of UploadImage is `original/<id><ext>`, its base file name is `<id><ext>`, and the path
the worker derives for an operation is `processed/<op>/<id><ext>`; so the Modifier calls
of the worker, for a task with that original path, are the calls with those targets.
The derived path is a function of the operation and the base file name. -/
theorem C11_path_templates (id ext : String) (hId : '/' ∉ id.toList)
    (hExt : AllowedExtensions ext = true) :
    OriginalPath id ext = "original/" ++ id ++ ext ∧
    Base (OriginalPath id ext) = id ++ ext ∧
    (∀ op : String,
      ProcessPath op (Base (OriginalPath id ext)) = "processed/" ++ op ++ "/" ++ id ++ ext) ∧
    (∀ (σ : Type) (w : Worker σ) (msg : Message) (task : Task) (s : σ),
      task.OriginalPath = OriginalPath id ext →
      (calls (w.recorded.processTask msg task (s, [])).2.2).filter isTransform =
        task.RequestedOperations.filterMap (fun op =>
          if op = "resize" then
            some (.Resize ("original/" ++ id ++ ext) ("processed/resize/" ++ id ++ ext) 1024 768)
          else if op = "thumbnail" then
            some (.Thumbnail ("original/" ++ id ++ ext) ("processed/thumbnail/" ++ id ++ ext)
              128 128)
          else if op = "watermark" then
            some (.Watermark ("original/" ++ id ++ ext) ("processed/watermark/" ++ id ++ ext))
          else none)) ∧
    (∀ op p p' : String, Base p = Base p' → ProcessPath op (Base p) = ProcessPath op (Base p')) := by
  obtain ⟨hne, hsep⟩ := upload_name_ok id ext hId hExt
  have hOrig : OriginalPath id ext = "original/" ++ (id ++ ext) := by
    simp [OriginalPath, String.append_assoc]
  have hBase : Base (OriginalPath id ext) = id ++ ext := by
    rw [hOrig]
    exact base_original (id ++ ext) hne hsep
  refine ⟨rfl, hBase, ?_, ?_, ?_⟩
  · intro op
    rw [hBase]
    simp [ProcessPath, String.append_assoc]
  · intro σ w msg task s hPath
    obtain ⟨s', evs, r₁, r₂, hrun, hT⟩ := processTask_recorded w msg task s []
    rw [hrun, filter_calls]
    have hTr : transforms ([] ++ evs ++
        [⟨.CommitMessage msg, r₁⟩, ⟨.UpdateStatus task.ID "COMPLETE", r₂⟩]) = transforms evs := by
      have hb : isTransform (Call.CommitMessage msg) = false := rfl
      have hc : isTransform (Call.UpdateStatus task.ID "COMPLETE") = false := rfl
      simp [transforms, List.filter_cons, hb, hc]
    show (transforms ([] ++ evs ++
      [⟨.CommitMessage msg, r₁⟩, ⟨.UpdateStatus task.ID "COMPLETE", r₂⟩])).map Event.call = _
    rw [hTr, hT, hPath]
    apply congrArg (fun f => List.filterMap f task.RequestedOperations)
    funext op
    simp only [expectedTransformCall, hBase]
    by_cases h1 : op = "resize"
    · subst h1
      simp [OriginalPath, String.append_assoc]
    · by_cases h2 : op = "thumbnail"
      · subst h2
        simp [OriginalPath, String.append_assoc]
      · by_cases h3 : op = "watermark"
        · subst h3
          simp [OriginalPath, String.append_assoc]
        · simp [h1, h2, h3]
  · intro op p p' h
    rw [h]

/-- C11 at the id `T1` with `.jpg`: `original/T1.jpg`, base `T1.jpg`, and the three
derived paths. -/
theorem C11_path_templates_witness :
    OriginalPath "T1" ".jpg" = "original/T1.jpg" ∧
    Base (OriginalPath "T1" ".jpg") = "T1.jpg" ∧
    ProcessPath "resize" (Base (OriginalPath "T1" ".jpg")) = "processed/resize/T1.jpg" ∧
    ProcessPath "thumbnail" (Base (OriginalPath "T1" ".jpg")) = "processed/thumbnail/T1.jpg" ∧
    ProcessPath "watermark" (Base (OriginalPath "T1" ".jpg")) = "processed/watermark/T1.jpg" :=
  ⟨(C11_path_templates "T1" ".jpg" (by decide) (by decide)).1,
   (C11_path_templates "T1" ".jpg" (by decide) (by decide)).2.1,
   (C11_path_templates "T1" ".jpg" (by decide) (by decide)).2.2.1 "resize",
   (C11_path_templates "T1" ".jpg" (by decide) (by decide)).2.2.1 "thumbnail",
   (C11_path_templates "T1" ".jpg" (by decide) (by decide)).2.2.1 "watermark"⟩

/-! ## The worker loop -/

open worker_service in
/-- After a test that did not see cancellation, the loop runs one pass and goes on,
whatever the pass did. -/
theorem starting_proceeds {σ : Type} (w : Worker σ) (ctx : Context σ) (fuel : Nat)
    (s s' : σ) (h : ctx.Err s = (none, s')) :
    w.Starting ctx (fuel + 1) s = w.Starting ctx fuel (w.iteration s').2 := by
  simp only [Worker.Starting, bind, StateT.bind, h]
  rfl

open worker_service in
/-- The loop returns exactly when a test at the top of a pass sees cancellation: it
returns what that test gave, in the world that test left. -/
theorem starting_returns_iff {σ : Type} (w : Worker σ) (ctx : Context σ) (fuel : Nat)
    (s sf : σ) (err : Error) :
    w.Starting ctx fuel s = (some err, sf) ↔
      ∃ k, k < fuel ∧ ∃ t, w.top ctx k s = some t ∧ ctx.Err t = (some err, sf) := by
  induction fuel generalizing s with
  | zero =>
    constructor
    · intro h
      have h1 := congrArg Prod.fst h
      simp [Worker.Starting, pure, StateT.pure] at h1
    · rintro ⟨k, hk, _⟩
      omega
  | succ fuel ih =>
    rcases hE : ctx.Err s with ⟨r, s'⟩
    cases r with
    | some e =>
      have hrun : w.Starting ctx (fuel + 1) s = (some e, s') := by
        simp [Worker.Starting, bind, StateT.bind, hE, pure, StateT.pure]
      rw [hrun]
      constructor
      · intro h
        refine ⟨0, by omega, s, rfl, ?_⟩
        rw [hE, h]
      · rintro ⟨k, _, t, hTop, hErr⟩
        cases k with
        | zero =>
          simp only [Worker.top, Option.some.injEq] at hTop
          subst hTop
          rw [← hE, hErr]
        | succ k =>
          simp [Worker.top, hE] at hTop
    | none =>
      rw [starting_proceeds w ctx fuel s s' hE, ih]
      constructor
      · rintro ⟨k, hk, t, hTop, hErr⟩
        refine ⟨k + 1, by omega, t, ?_, hErr⟩
        simp [Worker.top, hE, hTop]
      · rintro ⟨k, hk, t, hTop, hErr⟩
        cases k with
        | zero =>
          simp only [Worker.top, Option.some.injEq] at hTop
          subst hTop
          rw [hE] at hErr
          cases hErr
        | succ k =>
          refine ⟨k, by omega, t, ?_, hErr⟩
          simpa [Worker.top, hE] using hTop

open worker_service in
/-- C12: when the fetched message fails to decode (GetTask returns an error), the pass
of the loop body makes exactly two calls, the fetch and a CommitMessage of that
message, so no Modifier call and no UpdateStatus; and the loop goes on with its next
pass from the world the commit left. -/
theorem C12_poison_message_committed {σ : Type} (w : Worker σ) (s s₁ : σ) (msg : Message)
    (e : Error) (hFetch : w.consume.FetchMessage s = (.ok msg, s₁))
    (hDecode : w.GetTask msg = .error e) :
    w.recorded.iteration (s, []) =
      ((), ((w.consume.CommitMessage msg s₁).2,
        [⟨.FetchMessage, none⟩,
         ⟨.CommitMessage msg, (w.consume.CommitMessage msg s₁).1⟩])) ∧
    (w.iteration s).2 = (w.consume.CommitMessage msg s₁).2 ∧
    ∀ (ctx : Context σ) (fuel : Nat) (s₀ : σ), ctx.Err s₀ = (none, s) →
      w.Starting ctx (fuel + 1) s₀ = w.Starting ctx fuel (w.consume.CommitMessage msg s₁).2 := by
  have hDecode' : w.recorded.GetTask msg = .error e := hDecode
  have hFetch' : w.recorded.consume.FetchMessage (s, []) =
      (.ok msg, (s₁, [⟨.FetchMessage, none⟩])) := by
    simp [Worker.recorded, Consume.recorded, loggedValue, hFetch, errOf]
  have hPlain : (w.iteration s).2 = (w.consume.CommitMessage msg s₁).2 := by
    simp [Worker.iteration, bind, StateT.bind, hFetch, hDecode, pure, StateT.pure]
  refine ⟨?_, hPlain, ?_⟩
  · simp only [Worker.iteration, bind, StateT.bind, hFetch', hDecode']
    simp [Worker.recorded, Consume.recorded, logged, pure, StateT.pure]
  · intro ctx fuel s₀ hCtx
    rw [starting_proceeds w ctx fuel s₀ s hCtx, hPlain]

/-- C12 in the in-memory world, for a worker whose decoder rejects the payload: the
message is fetched and committed, and nothing else is called. -/
theorem C12_poison_message_committed_witness :
    ({ mem.worker mem.noFaults ⟨"T1", "PROCESSING", "original/T1.jpg", [], mem.now0⟩ with
        Unmarshal := fun _ => .error (.text "unexpected end of JSON input")
      }).recorded.iteration
        (⟨[], [], [], [⟨"images", 0, 0, [], []⟩]⟩, []) =
      ((), (mem.empty,
        [⟨.FetchMessage, none⟩, ⟨.CommitMessage ⟨"images", 0, 0, [], []⟩, none⟩])) :=
  (C12_poison_message_committed
    { mem.worker mem.noFaults ⟨"T1", "PROCESSING", "original/T1.jpg", [], mem.now0⟩ with
      Unmarshal := fun _ => .error (.text "unexpected end of JSON input") }
    ⟨[], [], [], [⟨"images", 0, 0, [], []⟩]⟩ mem.empty ⟨"images", 0, 0, [], []⟩
    (Errorf "failed to unmarshal task" (.text "unexpected end of JSON input")) rfl rfl).1

open worker_service in
/-- C14: the loop of `Starting` returns only on cancellation. A pass whose fetch fails
makes that one call and nothing else (no commit, no Modifier call, no status write).
After every test that did not see cancellation the loop runs its pass and goes on to
the next test, whatever the pass returned. With the calls recorded, the loop returns
`err` with log `log` exactly when, after some number of passes, the test at the top of
the loop saw cancellation and gave `err`, and `log` is the log as it stood at that test:
the returning iteration makes no call, so no fetch. As long as no test sees
cancellation, the loop is still running when the fuel is spent. -/
theorem C14_loop_returns_only_on_cancellation {σ : Type} (w : Worker σ) (ctx : Context σ)
    (s : σ) (fuel : Nat) :
    (∀ (e : Error) (s₁ : σ) (log : List Event),
      w.consume.FetchMessage s = (.error e, s₁) →
      w.recorded.iteration (s, log) = ((), (s₁, log ++ [⟨.FetchMessage, some e⟩]))) ∧
    (∀ s' : σ, ctx.Err s = (none, s') →
      w.Starting ctx (fuel + 1) s = w.Starting ctx fuel (w.iteration s').2) ∧
    (∀ (err : Error) (sf : σ) (log : List Event),
      w.recorded.Starting ctx.recorded fuel (s, []) = (some err, (sf, log)) ↔
        ∃ k, k < fuel ∧ ∃ t, w.recorded.top ctx.recorded k (s, []) = some (t, log) ∧
          ctx.Err t = (some err, sf)) ∧
    ((∀ k, k < fuel → ∀ t, w.top ctx k s = some t → (ctx.Err t).1 = none) →
      (w.Starting ctx fuel s).1 = none) := by
  refine ⟨?_, ?_, ?_, ?_⟩
  · intro e s₁ log hFetch
    have hFetch' : w.recorded.consume.FetchMessage (s, log) =
        (.error e, (s₁, log ++ [⟨.FetchMessage, some e⟩])) := by
      simp [Worker.recorded, Consume.recorded, loggedValue, hFetch, errOf]
    simp only [Worker.iteration, bind, StateT.bind, hFetch']
    rfl
  · intro s' h
    exact starting_proceeds w ctx fuel s s' h
  · intro err sf log
    rw [starting_returns_iff]
    constructor
    · rintro ⟨k, hk, ⟨t, l⟩, hTop, hErr⟩
      have h1 : (ctx.Err t).1 = some err := congrArg Prod.fst hErr
      have h2 : (ctx.Err t).2 = sf := congrArg (fun r => r.2.1) hErr
      have h3 : l = log := congrArg (fun r => r.2.2) hErr
      subst h3
      exact ⟨k, hk, t, hTop, Prod.ext h1 h2⟩
    · rintro ⟨k, hk, t, hTop, hErr⟩
      refine ⟨k, hk, (t, log), hTop, ?_⟩
      simp [Context.recorded, hErr]
  · intro hNone
    rcases hrun : w.Starting ctx fuel s with ⟨r, sf⟩
    cases r with
    | none => rfl
    | some err =>
      obtain ⟨k, hk, t, hTop, hErr⟩ := (starting_returns_iff w ctx fuel s sf err).1 hrun
      have := hNone k hk t hTop
      rw [hErr] at this
      cases this

/-- C14 in the in-memory world with one message in the inbox and a context that is
cancelled once the inbox is empty: the loop makes one pass and then returns the
cancellation error, with the log of that one pass. -/
theorem C14_loop_returns_only_on_cancellation_witness :
    (mem.worker mem.noFaults
        ⟨"T1", "PROCESSING", "original/T1.jpg", ["resize"], mem.now0⟩).recorded.Starting
        mem.ctx.recorded 3
        (⟨[("original/T1.jpg", mem.image0)], [], [], [⟨"images", 0, 0, [], []⟩]⟩, []) =
      (some (.text "context canceled"),
        (⟨[("processed/resize/T1.jpg", mem.image0), ("original/T1.jpg", mem.image0)],
          [], [], []⟩,
        [⟨.FetchMessage, none⟩,
         ⟨.Resize "original/T1.jpg" "processed/resize/T1.jpg" 1024 768, none⟩,
         ⟨.CommitMessage ⟨"images", 0, 0, [], []⟩, none⟩,
         ⟨.UpdateStatus "T1" "COMPLETE", none⟩])) :=
  ((C14_loop_returns_only_on_cancellation
      (mem.worker mem.noFaults ⟨"T1", "PROCESSING", "original/T1.jpg", ["resize"], mem.now0⟩)
      mem.ctx ⟨[("original/T1.jpg", mem.image0)], [], [], [⟨"images", 0, 0, [], []⟩]⟩
      3).2.2.1 _ _ _).2 ⟨1, by decide, _, rfl, rfl⟩

/-! ## The watermark -/

open modifer in
/-- What `Watermark` does with a loaded image: the image it saves has the bounds of the
source; two draws were made on it, the copy of the source and the watermark; the
rectangle handed to `draw.Draw` for the watermark has the width and height of the
watermark, and its bottom-right corner is `(M.Min.X + B.Dx() - 10, M.Min.Y + B.Dy() - 10)`.
That corner is `(B.Max.X - 10, B.Max.Y - 10)` when the bounds `B` of the source and `M`
of the watermark start at the same point, as they do when both start at the origin.
`draw.Draw` paints the part of that rectangle that lies in the bounds of the image and
of the watermark laid at the rectangle, which is all of it when the bounds of the
watermark start at the origin and the rectangle is not empty and lies in the bounds of
the image. -/
theorem watermark_rectangle {σ : Type} (m : Modifier σ) (sourcePath targetPath : String)
    (img : image.Image) (format : String) (s s₁ : σ)
    (hLoad : m.storage.LoadImage sourcePath s = (.ok (img, format), s₁)) :
    m.Watermark sourcePath targetPath s =
      m.storage.SaveImage targetPath (m.watermarked img) format s₁ ∧
    (m.watermarked img).Bounds = img.Bounds ∧
    ∃ (R P₁ P₂ : image.Rectangle) (Q₁ Q₂ : image.Point),
      (m.watermarked img).drawn =
        [⟨img.Bounds, img, ⟨0, 0⟩, .Src, P₁, Q₁⟩,
          ⟨R, m.watermarkImage, ⟨0, 0⟩, .Over, P₂, Q₂⟩] ∧
      R.Dx = m.watermarkImage.Bounds.Dx ∧ R.Dy = m.watermarkImage.Bounds.Dy ∧
      R.Max = ⟨m.watermarkImage.Bounds.Min.X + img.Bounds.Dx - 10,
        m.watermarkImage.Bounds.Min.Y + img.Bounds.Dy - 10⟩ ∧
      (m.watermarkImage.Bounds.Min = img.Bounds.Min →
        R.Max = ⟨img.Bounds.Max.X - 10, img.Bounds.Max.Y - 10⟩) ∧
      (m.watermarkImage.Bounds.Min = ⟨0, 0⟩ → R.Empty = false →
        img.Bounds.Min.X ≤ R.Min.X → img.Bounds.Min.Y ≤ R.Min.Y →
        R.Max.X ≤ img.Bounds.Max.X → R.Max.Y ≤ img.Bounds.Max.Y →
        P₂ = R ∧ Q₂ = ⟨0, 0⟩) := by
  have hInter : ∀ R S : image.Rectangle, R.Empty = false → S.Min.X ≤ R.Min.X →
      S.Min.Y ≤ R.Min.Y → R.Max.X ≤ S.Max.X → R.Max.Y ≤ S.Max.Y → R.Intersect S = R := by
    intro R S hEmpty s₁ s₂ s₃ s₄
    have e₁ : ¬ R.Min.X < S.Min.X := by omega
    have e₂ : ¬ R.Min.Y < S.Min.Y := by omega
    have e₃ : ¬ R.Max.X > S.Max.X := by omega
    have e₄ : ¬ R.Max.Y > S.Max.Y := by omega
    unfold image.Rectangle.Intersect
    simp only [e₁, e₂, e₃, e₄, if_false]
    rw [hEmpty]
    simp
  refine ⟨?_, rfl, m.watermarkImage.Bounds.Add
      (image.Pt (img.Bounds.Dx - m.watermarkImage.Bounds.Dx - 10)
        (img.Bounds.Dy - m.watermarkImage.Bounds.Dy - 10)), _, _, _, _, rfl, ?_, ?_, ?_, ?_, ?_⟩
  · simp [Modifier.Watermark, bind, StateT.bind, hLoad]
  · simp only [image.Rectangle.Add, image.Rectangle.Dx, image.Pt]
    omega
  · simp only [image.Rectangle.Add, image.Rectangle.Dy, image.Pt]
    omega
  · simp only [image.Rectangle.Add, image.Rectangle.Dx, image.Rectangle.Dy, image.Pt,
      image.Point.mk.injEq]
    constructor <;> omega
  · intro hMin
    have hX : m.watermarkImage.Bounds.Min.X = img.Bounds.Min.X := by rw [hMin]
    have hY : m.watermarkImage.Bounds.Min.Y = img.Bounds.Min.Y := by rw [hMin]
    simp only [image.Rectangle.Add, image.Rectangle.Dx, image.Rectangle.Dy, image.Pt,
      image.Point.mk.injEq]
    constructor <;> omega
  · generalize hR : m.watermarkImage.Bounds.Add
      (image.Pt (img.Bounds.Dx - m.watermarkImage.Bounds.Dx - 10)
        (img.Bounds.Dy - m.watermarkImage.Bounds.Dy - 10)) = R
    intro hOrigin hEmpty h₁ h₂ h₃ h₄
    have hX : m.watermarkImage.Bounds.Min.X = 0 := by rw [hOrigin]
    have hY : m.watermarkImage.Bounds.Min.Y = 0 := by rw [hOrigin]
    have hSrc : m.watermarkImage.Bounds.Add (R.Min.Sub ⟨0, 0⟩) = R := by
      rw [← hR]
      simp only [image.Rectangle.Add, image.Point.Sub, image.Pt, image.Rectangle.Dx,
        image.Rectangle.Dy, image.Rectangle.mk.injEq, image.Point.mk.injEq]
      refine ⟨⟨?_, ?_⟩, ?_, ?_⟩ <;> omega
    have hB : (image.Draw (image.NewRGBA img.Bounds) img.Bounds img ⟨0, 0⟩ .Src).Bounds =
        img.Bounds := rfl
    have hClip : image.clip (image.Draw (image.NewRGBA img.Bounds) img.Bounds img ⟨0, 0⟩ .Src)
        R m.watermarkImage ⟨0, 0⟩ = (R, ⟨0, 0⟩) := by
      unfold image.clip
      rw [hSrc, hB, hInter R img.Bounds hEmpty h₁ h₂ h₃ h₄,
        hInter R R hEmpty (le_refl _) (le_refl _) (le_refl _) (le_refl _)]
      simp
    rw [hClip]
    exact ⟨rfl, rfl⟩

open modifer in
/-- C15 fails on the code for a source whose bounds do not start at the origin. For a
source with bounds `(5,5)-(105,105)`, as the first frame of a GIF placed at `(5,5)`
decodes, and a watermark with bounds `(0,0)-(20,20)`, `Watermark` saves an image with
the bounds of the source on which the watermark was drawn into `(70,70)-(90,90)`, all
of which lies in the image and was painted: the width and height are those of the
watermark, but the bottom-right corner is `(90,90)` and not
`(B.Max.X - 10, B.Max.Y - 10) = (95,95)`. -/
theorem C15_watermark_offset_source :
    (Modifier.mk ⟨⟨⟨0, 0⟩, ⟨20, 20⟩⟩⟩
        (mem.imageStorage ⟨⟨⟨5, 5⟩, ⟨105, 105⟩⟩⟩ "gif")).Watermark
        "original/T1.gif" "processed/watermark/T1.gif" [] =
      (none, [("processed/watermark/T1.gif",
        ⟨⟨⟨5, 5⟩, ⟨105, 105⟩⟩,
          [⟨⟨⟨5, 5⟩, ⟨105, 105⟩⟩, ⟨⟨⟨5, 5⟩, ⟨105, 105⟩⟩⟩, ⟨0, 0⟩, .Src,
              ⟨⟨10, 10⟩, ⟨105, 105⟩⟩, ⟨5, 5⟩⟩,
           ⟨⟨⟨70, 70⟩, ⟨90, 90⟩⟩, ⟨⟨⟨0, 0⟩, ⟨20, 20⟩⟩⟩, ⟨0, 0⟩, .Over,
              ⟨⟨70, 70⟩, ⟨90, 90⟩⟩, ⟨0, 0⟩⟩]⟩, "gif")]) ∧
    (image.Rectangle.mk ⟨70, 70⟩ ⟨90, 90⟩).Max ≠
      (⟨(image.Rectangle.mk ⟨5, 5⟩ ⟨105, 105⟩).Max.X - 10,
        (image.Rectangle.mk ⟨5, 5⟩ ⟨105, 105⟩).Max.Y - 10⟩ : image.Point) := by
  constructor
  · rfl
  · decide

/-! ## UTF-8: a rune that is written reads back -/

theorem char_valid (r : Char) : r.toNat < 0xD800 ∨ (0xDFFF < r.toNat ∧ r.toNat < 0x110000) := by
  have h := r.valid
  simp only [UInt32.isValidChar, Nat.isValidChar] at h
  exact h

theorem char_ofNat_eq (r : Char) (n : Nat) (h : n = r.toNat) : Char.ofNat n = r := by
  rw [h, Char.ofNat_toNat]

theorem decodeRune_one (b₀ : Nat) (rest : List Nat) (h : b₀ < 0x80) :
    utf8.DecodeRune (b₀ :: rest) = (Char.ofNat b₀, 1) := by
  simp [utf8.DecodeRune, h]

theorem decodeRune_two (b₀ b₁ : Nat) (rest : List Nat) (h₀ : 0xC2 ≤ b₀) (h₀' : b₀ < 0xE0)
    (h₁ : utf8.isCont b₁ = true) :
    utf8.DecodeRune (b₀ :: b₁ :: rest) = (Char.ofNat ((b₀ - 0xC0) * 64 + (b₁ - 0x80)), 2) := by
  have e₁ : ¬ b₀ < 0x80 := by omega
  have e₂ : ¬ b₀ < 0xC2 := by omega
  simp only [utf8.DecodeRune, e₁, e₂, h₀', h₁, if_true, if_false]

theorem decodeRune_three (b₀ b₁ b₂ : Nat) (rest : List Nat) (h₀ : 0xE0 ≤ b₀) (h₀' : b₀ < 0xF0)
    (h₁ : (if b₀ = 0xE0 then 0xA0 else 0x80) ≤ b₁ ∧ b₁ ≤ (if b₀ = 0xED then 0x9F else 0xBF))
    (h₂ : utf8.isCont b₂ = true) :
    utf8.DecodeRune (b₀ :: b₁ :: b₂ :: rest) =
      (Char.ofNat (((b₀ - 0xE0) * 64 + (b₁ - 0x80)) * 64 + (b₂ - 0x80)), 3) := by
  have e₁ : ¬ b₀ < 0x80 := by omega
  have e₂ : ¬ b₀ < 0xC2 := by omega
  have e₃ : ¬ b₀ < 0xE0 := by omega
  have e₄ : (if b₀ = 0xE0 then 0xA0 else 0x80) ≤ b₁ ∧
      b₁ ≤ (if b₀ = 0xED then 0x9F else 0xBF) ∧ utf8.isCont b₂ = true := ⟨h₁.1, h₁.2, h₂⟩
  simp only [utf8.DecodeRune, e₁, e₂, e₃, h₀', if_true, if_false]
  rw [if_pos e₄]

theorem decodeRune_four (b₀ b₁ b₂ b₃ : Nat) (rest : List Nat) (h₀ : 0xF0 ≤ b₀) (h₀' : b₀ < 0xF5)
    (h₁ : (if b₀ = 0xF0 then 0x90 else 0x80) ≤ b₁ ∧ b₁ ≤ (if b₀ = 0xF4 then 0x8F else 0xBF))
    (h₂ : utf8.isCont b₂ = true) (h₃ : utf8.isCont b₃ = true) :
    utf8.DecodeRune (b₀ :: b₁ :: b₂ :: b₃ :: rest) =
      (Char.ofNat ((((b₀ - 0xF0) * 64 + (b₁ - 0x80)) * 64 + (b₂ - 0x80)) * 64 + (b₃ - 0x80)),
        4) := by
  have e₁ : ¬ b₀ < 0x80 := by omega
  have e₂ : ¬ b₀ < 0xC2 := by omega
  have e₃ : ¬ b₀ < 0xE0 := by omega
  have e₄ : ¬ b₀ < 0xF0 := by omega
  have e₅ : (if b₀ = 0xF0 then 0x90 else 0x80) ≤ b₁ ∧
      b₁ ≤ (if b₀ = 0xF4 then 0x8F else 0xBF) ∧ utf8.isCont b₂ = true ∧
      utf8.isCont b₃ = true := ⟨h₁.1, h₁.2, h₂, h₃⟩
  simp only [utf8.DecodeRune, e₁, e₂, e₃, e₄, h₀', if_true, if_false]
  rw [if_pos e₅]

theorem isCont_low (n : Nat) : utf8.isCont (0x80 + n % 64) = true := by
  simp only [utf8.isCont, Bool.and_eq_true, decide_eq_true_eq]
  omega

/-- A rune that `EncodeRune` writes is read back by `DecodeRune`, with its width,
whatever follows it. -/
theorem decodeRune_encodeRune (r : Char) (rest : List Nat) :
    utf8.DecodeRune (utf8.EncodeRune r ++ rest) = (r, (utf8.EncodeRune r).length) := by
  have hv := char_valid r
  unfold utf8.EncodeRune
  by_cases h1 : r.toNat < 0x80
  · rw [if_pos h1]
    show utf8.DecodeRune (r.toNat :: rest) = _
    rw [decodeRune_one _ _ h1, Char.ofNat_toNat]
    rfl
  · rw [if_neg h1]
    by_cases h2 : r.toNat < 0x800
    · rw [if_pos h2]
      show utf8.DecodeRune ((0xC0 + r.toNat / 64) :: (0x80 + r.toNat % 64) :: rest) = _
      rw [decodeRune_two _ _ _ (by omega) (by omega) (isCont_low _)]
      rw [char_ofNat_eq r _ (by omega)]
      rfl
    · rw [if_neg h2]
      by_cases h3 : r.toNat < 0x10000
      · rw [if_pos h3]
        show utf8.DecodeRune ((0xE0 + r.toNat / 4096) :: (0x80 + r.toNat / 64 % 64) ::
          (0x80 + r.toNat % 64) :: rest) = _
        rw [decodeRune_three _ _ _ _ (by omega) (by omega)
          (by split <;> split <;> omega) (isCont_low _)]
        rw [char_ofNat_eq r _ (by omega)]
        rfl
      · rw [if_neg h3]
        show utf8.DecodeRune ((0xF0 + r.toNat / 262144) :: (0x80 + r.toNat / 4096 % 64) ::
          (0x80 + r.toNat / 64 % 64) :: (0x80 + r.toNat % 64) :: rest) = _
        rw [decodeRune_four _ _ _ _ _ (by omega) (by omega)
          (by split <;> split <;> omega) (isCont_low _) (isCont_low _)]
        rw [char_ofNat_eq r _ (by omega)]
        rfl

theorem encodeRune_length_pos (r : Char) : 0 < (utf8.EncodeRune r).length := by
  unfold utf8.EncodeRune
  split_ifs <;> simp

/-- Every byte that `EncodeRune` writes is below 256, and for a rune from `0x80` on it
is `0x80` or more. -/
theorem encodeRune_bytes (r : Char) (b : Nat) (h : b ∈ utf8.EncodeRune r) :
    b < 256 ∧ (0x80 ≤ r.toNat → 0x80 ≤ b) := by
  have hv := char_valid r
  unfold utf8.EncodeRune at h
  split_ifs at h <;> simp only [List.mem_cons, List.mem_singleton, List.not_mem_nil, or_false] at h <;>
    omega

/-! ## JSON strings: a string that is written reads back -/

theorem hex_digit (d : Nat) (h : d < 16) :
    json.isHex (json.hex.getD d 0) = true ∧ json.hexValue (json.hex.getD d 0) = d ∧
      json.hex.getD d 0 < 256 := by
  revert d
  decide

theorem scanString_plain (b : Nat) (rest raw after : List Nat) (hb : plainByte b)
    (h : json.scanString rest = some (raw, after)) :
    json.scanString (b :: rest) = some (b :: raw, after) := by
  obtain ⟨h₁, h₂, h₃⟩ := hb
  rw [json.scanString.eq_def]
  simp only [h₁, h₂, h₃, if_false, h]

theorem scanString_plains (l : List Nat) (rest raw after : List Nat)
    (hl : ∀ b ∈ l, plainByte b) (h : json.scanString rest = some (raw, after)) :
    json.scanString (l ++ rest) = some (l ++ raw, after) := by
  induction l with
  | nil => simpa using h
  | cons b l ih =>
    have hb := hl b (List.mem_cons_self _ _)
    have hl' : ∀ b ∈ l, plainByte b := fun b hb => hl b (List.mem_cons_of_mem _ hb)
    exact scanString_plain b _ _ _ hb (ih hl')

theorem scanString_escape (e : Nat) (rest raw after : List Nat)
    (he : e = '"'.toNat ∨ e = '\\'.toNat ∨ e = '/'.toNat ∨ e = 'b'.toNat ∨ e = 'f'.toNat ∨
      e = 'n'.toNat ∨ e = 'r'.toNat ∨ e = 't'.toNat)
    (h : json.scanString rest = some (raw, after)) :
    json.scanString ('\\'.toNat :: e :: rest) = some ('\\'.toNat :: e :: raw, after) := by
  have hu : e ≠ 'u'.toNat := by
    rcases he with h | h | h | h | h | h | h | h <;> rw [h] <;> decide
  have hq : '\\'.toNat ≠ '"'.toNat := by decide
  rw [json.scanString.eq_def]
  simp only [hq, hu, he, if_true, if_false, h]

theorem scanString_u (h₁ h₂ h₃ h₄ : Nat) (rest raw after : List Nat)
    (e₁ : json.isHex h₁ = true) (e₂ : json.isHex h₂ = true) (e₃ : json.isHex h₃ = true)
    (e₄ : json.isHex h₄ = true) (h : json.scanString rest = some (raw, after)) :
    json.scanString ('\\'.toNat :: 'u'.toNat :: h₁ :: h₂ :: h₃ :: h₄ :: rest) =
      some ('\\'.toNat :: 'u'.toNat :: h₁ :: h₂ :: h₃ :: h₄ :: raw, after) := by
  have hq : '\\'.toNat ≠ '"'.toNat := by decide
  rw [json.scanString.eq_def]
  simp only [hq, e₁, e₂, e₃, e₄, if_true, if_false, h, Bool.and_self]

/-- The cases of `appendRune`. -/
theorem appendRune_cases (r : Char) :
    (json.appendRune r = [r.toNat] ∧ r.toNat < 0x80 ∧ plainByte r.toNat) ∨
    (∃ e c, json.appendRune r = ['\\'.toNat, e] ∧ r = c ∧
      ((e = '"'.toNat ∧ c = '"') ∨ (e = '\\'.toNat ∧ c = '\\') ∨
        (e = 'b'.toNat ∧ c = Char.ofNat 0x08) ∨ (e = 'f'.toNat ∧ c = Char.ofNat 0x0C) ∨
        (e = 'n'.toNat ∧ c = '\n') ∨ (e = 'r'.toNat ∧ c = '\r') ∨ (e = 't'.toNat ∧ c = '\t'))) ∨
    (∃ d₁ d₂ d₃ d₄, json.appendRune r =
        ['\\'.toNat, 'u'.toNat, json.hex.getD d₁ 0, json.hex.getD d₂ 0, json.hex.getD d₃ 0,
          json.hex.getD d₄ 0] ∧
      d₁ < 16 ∧ d₂ < 16 ∧ d₃ < 16 ∧ d₄ < 16 ∧ ((d₁ * 16 + d₂) * 16 + d₃) * 16 + d₄ = r.toNat ∧
      (r.toNat < 0xD800 ∨ 0xE000 ≤ r.toNat)) ∨
    (json.appendRune r = utf8.EncodeRune r ∧ 0x80 ≤ r.toNat) := by
  have hv := char_valid r
  unfold json.appendRune
  by_cases h1 : r.toNat < 0x80
  · rw [if_pos h1]
    by_cases hs : json.htmlSafe r.toNat = true
    · left
      rw [if_pos hs]
      refine ⟨rfl, h1, ?_⟩
      simp only [json.htmlSafe, Bool.and_eq_true, decide_eq_true_eq, bne_iff_ne, ne_eq] at hs
      exact ⟨hs.1.1.1.1.2, hs.1.1.1.2, by omega⟩
    · rw [if_neg hs]
      by_cases h2 : r = '\\' ∨ r = '"'
      · right; left
        rw [if_pos h2]
        rcases h2 with h | h
        · exact ⟨_, _, rfl, h, Or.inr (Or.inl ⟨by rw [h], rfl⟩)⟩
        · exact ⟨_, _, rfl, h, Or.inl ⟨by rw [h], rfl⟩⟩
      · rw [if_neg h2]
        by_cases h3 : r.toNat = 0x08
        · right; left
          rw [if_pos h3]
          exact ⟨_, _, rfl, (char_ofNat_eq r _ h3.symm).symm, by simp⟩
        · rw [if_neg h3]
          by_cases h4 : r.toNat = 0x0C
          · right; left
            rw [if_pos h4]
            exact ⟨_, _, rfl, (char_ofNat_eq r _ h4.symm).symm, by simp⟩
          · rw [if_neg h4]
            by_cases h5 : r = '\n'
            · right; left
              rw [if_pos h5]
              exact ⟨_, _, rfl, h5, by simp⟩
            · rw [if_neg h5]
              by_cases h6 : r = '\r'
              · right; left
                rw [if_pos h6]
                exact ⟨_, _, rfl, h6, by simp⟩
              · rw [if_neg h6]
                by_cases h7 : r = '\t'
                · right; left
                  rw [if_pos h7]
                  exact ⟨_, _, rfl, h7, by simp⟩
                · rw [if_neg h7]
                  right; right; left
                  refine ⟨0, 0, r.toNat / 16, r.toNat % 16, rfl, by omega, by omega, by omega,
                    by omega, by omega, by omega⟩
  · rw [if_neg h1]
    by_cases h2 : r.toNat = 0x2028 ∨ r.toNat = 0x2029
    · rw [if_pos h2]
      right; right; left
      refine ⟨2, 0, 2, r.toNat % 16, rfl, by omega, by omega, by omega, by omega, by omega,
        by omega⟩
    · rw [if_neg h2]
      right; right; right
      exact ⟨rfl, by omega⟩

theorem appendRune_length_pos (r : Char) : 0 < (json.appendRune r).length := by
  rcases appendRune_cases r with ⟨h, _⟩ | ⟨e, c, h, _⟩ | ⟨d₁, d₂, d₃, d₄, h, _⟩ | ⟨h, _⟩
  · rw [h]; simp
  · rw [h]; simp
  · rw [h]; simp
  · rw [h]; exact encodeRune_length_pos r

/-- Every byte of the literal of a string is below 256. -/
theorem appendRune_bytes (r : Char) (b : Nat) (hb : b ∈ json.appendRune r) : b < 256 := by
  rcases appendRune_cases r with ⟨h, h₁, _⟩ | ⟨e, c, h, _, he⟩ |
    ⟨d₁, d₂, d₃, d₄, h, e₁, e₂, e₃, e₄, _⟩ | ⟨h, _⟩
  · rw [h] at hb
    simp only [List.mem_singleton] at hb
    omega
  · rw [h] at hb
    simp only [List.mem_cons, List.mem_singleton, List.not_mem_nil, or_false] at hb
    rcases hb with hb | hb
    · rw [hb]; decide
    · rcases he with ⟨h, _⟩ | ⟨h, _⟩ | ⟨h, _⟩ | ⟨h, _⟩ | ⟨h, _⟩ | ⟨h, _⟩ | ⟨h, _⟩ <;>
        rw [hb, h] <;> decide
  · rw [h] at hb
    simp only [List.mem_cons, List.mem_singleton, List.not_mem_nil, or_false] at hb
    rcases hb with hb | hb | hb | hb | hb | hb
    · rw [hb]; decide
    · rw [hb]; decide
    · rw [hb]; exact (hex_digit d₁ e₁).2.2
    · rw [hb]; exact (hex_digit d₂ e₂).2.2
    · rw [hb]; exact (hex_digit d₃ e₃).2.2
    · rw [hb]; exact (hex_digit d₄ e₄).2.2
  · rw [h] at hb
    exact (encodeRune_bytes r b hb).1

/-- The scanner passes what `appendRune` writes for a rune. -/
theorem scanString_appendRune (r : Char) (rest raw after : List Nat)
    (h : json.scanString rest = some (raw, after)) :
    json.scanString (json.appendRune r ++ rest) = some (json.appendRune r ++ raw, after) := by
  rcases appendRune_cases r with ⟨hr, _, hp⟩ | ⟨e, c, hr, _, he⟩ |
    ⟨d₁, d₂, d₃, d₄, hr, e₁, e₂, e₃, e₄, _⟩ | ⟨hr, h80⟩
  · rw [hr]
    exact scanString_plain _ _ _ _ hp h
  · rw [hr]
    apply scanString_escape _ _ _ _ _ h
    rcases he with ⟨h, _⟩ | ⟨h, _⟩ | ⟨h, _⟩ | ⟨h, _⟩ | ⟨h, _⟩ | ⟨h, _⟩ | ⟨h, _⟩ <;> simp [h]
  · rw [hr]
    exact scanString_u _ _ _ _ _ _ _ (hex_digit d₁ e₁).1 (hex_digit d₂ e₂).1
      (hex_digit d₃ e₃).1 (hex_digit d₄ e₄).1 h
  · rw [hr]
    apply scanString_plains _ _ _ _ _ h
    intro b hb
    have := (encodeRune_bytes r b hb).2 h80
    refine ⟨?_, ?_, ?_⟩
    · intro hq; rw [hq] at this; revert this; decide
    · intro hq; rw [hq] at this; revert this; decide
    · omega

/-- The scanner reads the literal of a string up to its closing quote. -/
theorem scanString_flatMap (cs : List Char) (rest : List Nat) :
    json.scanString (cs.flatMap json.appendRune ++ '"'.toNat :: rest) =
      some (cs.flatMap json.appendRune, rest) := by
  induction cs with
  | nil =>
    rw [List.flatMap_nil, List.nil_append, json.scanString.eq_def]
    simp
  | cons r cs ih =>
    rw [List.flatMap_cons, List.append_assoc]
    exact scanString_appendRune r _ _ _ ih

theorem unquoteStep_appendRune (r : Char) (rest : List Nat) :
    ∃ c tail, json.appendRune r ++ rest = c :: tail ∧ json.unquoteStep c tail = some (r, rest) := by
  have hq : '\\'.toNat ≠ '"'.toNat := by decide
  rcases appendRune_cases r with ⟨hr, h80, hp⟩ | ⟨e, c, hr, hc, he⟩ |
    ⟨d₁, d₂, d₃, d₄, hr, e₁, e₂, e₃, e₄, hval, hsur⟩ | ⟨hr, h80⟩
  · obtain ⟨p₁, p₂, p₃⟩ := hp
    refine ⟨r.toNat, rest, by rw [hr]; rfl, ?_⟩
    have p₃' : ¬ r.toNat < ' '.toNat := p₃
    unfold json.unquoteStep
    simp only [p₁, p₂, p₃', h80, if_true, if_false, or_self, Char.ofNat_toNat]
  · refine ⟨'\\'.toNat, e :: rest, by rw [hr]; rfl, ?_⟩
    rw [hc]
    unfold json.unquoteStep
    rcases he with ⟨h, h'⟩ | ⟨h, h'⟩ | ⟨h, h'⟩ | ⟨h, h'⟩ | ⟨h, h'⟩ | ⟨h, h'⟩ | ⟨h, h'⟩ <;>
      rw [h, h'] <;> rfl
  · refine ⟨'\\'.toNat, 'u'.toNat :: json.hex.getD d₁ 0 ::
      json.hex.getD d₂ 0 :: json.hex.getD d₃ 0 :: json.hex.getD d₄ 0 :: rest, by rw [hr]; rfl, ?_⟩
    have hg : json.getu4 ('\\'.toNat :: 'u'.toNat :: json.hex.getD d₁ 0 ::
        json.hex.getD d₂ 0 :: json.hex.getD d₃ 0 :: json.hex.getD d₄ 0 :: rest) =
        some r.toNat := by
      simp only [json.getu4, (hex_digit d₁ e₁).1, (hex_digit d₂ e₂).1, (hex_digit d₃ e₃).1,
        (hex_digit d₄ e₄).1, (hex_digit d₁ e₁).2.1, (hex_digit d₂ e₂).2.1,
        (hex_digit d₃ e₃).2.1, (hex_digit d₄ e₄).2.1, and_self, if_true, hval]
    have hs : ¬ (0xD800 ≤ r.toNat ∧ r.toNat < 0xE000) := by omega
    have u₁ : ¬ ('u'.toNat = '"'.toNat ∨ 'u'.toNat = '\\'.toNat ∨ 'u'.toNat = '/'.toNat ∨
        'u'.toNat = '\''.toNat) := by decide
    have u₂ : 'u'.toNat ≠ 'b'.toNat := by decide
    have u₃ : 'u'.toNat ≠ 'f'.toNat := by decide
    have u₄ : 'u'.toNat ≠ 'n'.toNat := by decide
    have u₅ : 'u'.toNat ≠ 'r'.toNat := by decide
    have u₆ : 'u'.toNat ≠ 't'.toNat := by decide
    unfold json.unquoteStep
    simp only [hg, hs, u₁, u₂, u₃, u₄, u₅, u₆, if_true, if_false, List.drop, Char.ofNat_toNat]
  · have hlen := encodeRune_length_pos r
    have hdec := decodeRune_encodeRune r rest
    cases henc : utf8.EncodeRune r with
    | nil => rw [henc] at hlen; simp at hlen
    | cons c cs =>
      have hc : 0x80 ≤ c := (encodeRune_bytes r c (by rw [henc]; exact List.mem_cons_self _ _)).2 h80
      rw [henc] at hdec
      refine ⟨c, cs ++ rest, by rw [hr, henc]; rfl, ?_⟩
      have c₁ : c ≠ '\\'.toNat := by intro h; rw [h] at hc; revert hc; decide
      have c₂ : c ≠ '"'.toNat := by intro h; rw [h] at hc; revert hc; decide
      have c₃ : ¬ c < ' '.toNat := by
        have : ' '.toNat = 32 := rfl
        omega
      have c₄ : ¬ c < 0x80 := by omega
      have hdec' : utf8.DecodeRune (c :: (cs ++ rest)) = (r, (c :: cs).length) := hdec
      have hdrop : List.drop (c :: cs).length (c :: (cs ++ rest)) = rest := by
        rw [← List.cons_append, List.drop_left]
      unfold json.unquoteStep
      simp only [c₁, c₂, c₃, c₄, if_false, or_self, hdec', hdrop]

theorem unquoteLoop_appendRune (r : Char) (fuel : Nat) (rest : List Nat) :
    json.unquoteLoop (fuel + 1) (json.appendRune r ++ rest) =
      (json.unquoteLoop fuel rest).map (r :: ·) := by
  obtain ⟨c, tail, h₁, h₂⟩ := unquoteStep_appendRune r rest
  rw [h₁, json.unquoteLoop, h₂]

theorem unquoteLoop_flatMap (cs : List Char) (fuel : Nat) (h : cs.length ≤ fuel) :
    json.unquoteLoop fuel (cs.flatMap json.appendRune) = some cs := by
  induction cs generalizing fuel with
  | nil =>
    rw [List.flatMap_nil]
    cases fuel <;> rfl
  | cons r cs ih =>
    cases fuel with
    | zero => simp at h
    | succ fuel =>
      have h' : cs.length ≤ fuel := by simpa using h
      have := unquoteLoop_appendRune r fuel (cs.flatMap json.appendRune)
      rw [List.flatMap_cons, this, ih fuel h']
      rfl

theorem length_le_flatMap (cs : List Char) : cs.length ≤ (cs.flatMap json.appendRune).length := by
  induction cs with
  | nil => simp
  | cons r cs ih =>
    have := appendRune_length_pos r
    rw [List.flatMap_cons, List.length_append, List.length_cons]
    omega

/-- The literal that `appendString` writes for a string unquotes to the string. -/
theorem unquote_appendRunes (s : String) : json.unquote (json.appendRunes s) = some s := by
  unfold json.unquote json.appendRunes
  rw [unquoteLoop_flatMap _ _ (length_le_flatMap _)]
  rfl

/-- The scanner reads the literal of a string up to its closing quote. -/
theorem scanString_appendRunes (s : String) (rest : List Nat) :
    json.scanString (json.appendRunes s ++ '"'.toNat :: rest) =
      some (json.appendRunes s, rest) :=
  scanString_flatMap s.toList rest

theorem appendRunes_bytes (s : String) (b : Nat) (hb : b ∈ json.appendRunes s) : b < 256 := by
  unfold json.appendRunes at hb
  rw [List.mem_flatMap] at hb
  obtain ⟨r, _, hr⟩ := hb
  exact appendRune_bytes r b hr

/-! ## The scanner on the text that `json.Marshal` writes -/

theorem skipSpace_cons (b : Nat) (rest : List Nat) (h : json.isSpace b = false) :
    json.skipSpace (b :: rest) = b :: rest := by
  simp [json.skipSpace, h]

theorem appendString_append (s : String) (rest : List Nat) :
    json.appendString s ++ rest = '"'.toNat :: (json.appendRunes s ++ '"'.toNat :: rest) := by
  simp [json.appendString]

theorem scanValue_string (fuel depth : Nat) (s : String) (rest : List Nat) :
    json.scanValue (fuel + 1) depth (json.appendString s ++ rest) =
      some (.string (json.appendRunes s), rest) := by
  have h := scanString_appendRunes s rest
  rw [appendString_append, json.scanValue, skipSpace_cons _ _ (by decide)]
  simp only [h, if_true]

theorem scanValue_raw (fuel depth : Nat) (raw rest : List Nat)
    (h : json.scanString (raw ++ '"'.toNat :: rest) = some (raw, rest)) :
    json.scanValue (fuel + 1) depth ('"'.toNat :: (raw ++ '"'.toNat :: rest)) =
      some (.string raw, rest) := by
  rw [json.scanValue, skipSpace_cons _ _ (by decide)]
  simp only [h, if_true]

theorem scanValue_null (fuel depth : Nat) (rest : List Nat) :
    json.scanValue (fuel + 1) depth ("null".toList.map Char.toNat ++ rest) =
      some (.null, rest) := by
  show json.scanValue (fuel + 1) depth ('n'.toNat :: 'u'.toNat :: 'l'.toNat :: 'l'.toNat :: rest) = _
  rw [json.scanValue, skipSpace_cons _ _ (by decide)]
  simp

theorem scanElems_strings (l : List String) (s : String) (fuel depth : Nat) (rest : List Nat)
    (h : l.length + 2 ≤ fuel) :
    json.scanElems fuel depth (json.appendStrings (s :: l) ++ ']'.toNat :: rest) =
      some ((s :: l).map (fun s => .string (json.appendRunes s)), rest) := by
  induction l generalizing s fuel with
  | nil =>
    obtain ⟨f, rfl⟩ : ∃ f, fuel = f + 2 := ⟨fuel - 2, by simp at h; omega⟩
    show json.scanElems (f + 1 + 1) depth (json.appendString s ++ ']'.toNat :: rest) = _
    rw [json.scanElems, scanValue_string]
    simp only [skipSpace_cons _ _ (by decide : json.isSpace ']'.toNat = false)]
    simp
  | cons s₁ l ih =>
    obtain ⟨f, rfl⟩ : ∃ f, fuel = f + 2 := ⟨fuel - 2, by simp at h; omega⟩
    have hf : l.length + 2 ≤ f + 1 := by simp at h; omega
    have := ih s₁ (f + 1) hf
    show json.scanElems (f + 1 + 1) depth
      ((json.appendString s ++ ','.toNat :: json.appendStrings (s₁ :: l)) ++ ']'.toNat :: rest) = _
    rw [List.append_assoc, List.cons_append, json.scanElems, scanValue_string]
    simp only [skipSpace_cons _ _ (by decide : json.isSpace ','.toNat = false), this]
    simp

theorem scanValue_strings (l : List String) (fuel : Nat) (rest : List Nat)
    (h : l.length + 3 ≤ fuel) :
    json.scanValue fuel 1 ('['.toNat :: (json.appendStrings l ++ ']'.toNat :: rest)) =
      some (.array (l.map (fun s => .string (json.appendRunes s))), rest) := by
  obtain ⟨f, rfl⟩ : ∃ f, fuel = f + 1 := ⟨fuel - 1, by omega⟩
  rw [json.scanValue, skipSpace_cons _ _ (by decide)]
  have h₁ : '['.toNat ≠ '"'.toNat := by decide
  have h₂ : ¬ (1 + 1 > json.maxNestingDepth) := by decide
  simp only [h₁, h₂, if_true, if_false]
  cases l with
  | nil =>
    show (match json.skipSpace (']'.toNat :: rest) with
      | [] => none
      | c :: rest₁ => _) = _
    rw [skipSpace_cons _ _ (by decide)]
    simp
  | cons s l =>
    obtain ⟨tail, hs⟩ : ∃ tail, json.appendStrings (s :: l) ++ ']'.toNat :: rest =
        '"'.toNat :: tail := by
      cases l with
      | nil => exact ⟨_, appendString_append s _⟩
      | cons s₁ l =>
        exact ⟨_, (List.append_assoc (json.appendString s) _ _).trans
          (appendString_append s _)⟩
    have he := scanElems_strings l s f (1 + 1) rest (by simp at h; omega)
    rw [hs] at he ⊢
    rw [skipSpace_cons _ _ (by decide)]
    have h₃ : '"'.toNat ≠ ']'.toNat := by decide
    simp only [h₃, if_false, he]

/-! ## RFC 3339: a time that is written reads back -/

theorem year_divs (a b c e : Int) (hb : 0 ≤ b ∧ b ≤ 3) (hc : 0 ≤ c ∧ c ≤ 24)
    (he : 0 ≤ e ∧ e ≤ 3) :
    (400 * a + 100 * b + 4 * c + e) / 4 = 100 * a + 25 * b + c ∧
    (400 * a + 100 * b + 4 * c + e) / 100 = 4 * a + b ∧
    (400 * a + 100 * b + 4 * c + e) / 400 = a := ⟨by omega, by omega, by omega⟩

theorem year_leap (a b c e : Int) (hb : 0 ≤ b ∧ b ≤ 3) (hc : 0 ≤ c ∧ c ≤ 24)
    (he : 0 ≤ e ∧ e ≤ 3) :
    time.isLeap (1 + 400 * a + 100 * b + 4 * c + e) = true ↔ (e = 3 ∧ (c ≠ 24 ∨ b = 3)) := by
  simp only [time.isLeap, Bool.and_eq_true, beq_iff_eq, Bool.or_eq_true, bne_iff_ne, ne_eq]
  omega

/-- The year of a day and the day within the year: the day is from 0 to 364, or 365 in
a leap year, and the days before the year with the day within the year give the day. -/
theorem yearOfDays_spec (z : Int) :
    0 ≤ (time.yearOfDays z).2 ∧ (time.yearOfDays z).2 ≤ 365 ∧
    ((time.yearOfDays z).2 = 365 → time.isLeap (time.yearOfDays z).1 = true) ∧
    time.daysBeforeYear (time.yearOfDays z).1 + (time.yearOfDays z).2 = z := by
  simp only [time.yearOfDays, time.daysBeforeYear]
  generalize ha : z / 146097 = a
  have h1 : 0 ≤ z - 146097 * a ∧ z - 146097 * a < 146097 := by omega
  generalize hd1 : z - 146097 * a = d1 at h1 ⊢
  generalize hb0 : d1 / 36524 = b0
  have hb0r : 0 ≤ b0 ∧ b0 ≤ 4 := by omega
  generalize hb : min b0 3 = b
  have hbr : 0 ≤ b ∧ b ≤ 3 ∧ (b0 ≤ 3 → b = b0) ∧ (b0 = 4 → b = 3) := by omega
  have h2 : 0 ≤ d1 - 36524 * b ∧ d1 - 36524 * b ≤ 36524 ∧
      (b < 3 → d1 - 36524 * b < 36524) := by omega
  generalize hd2 : d1 - 36524 * b = d2 at h2 ⊢
  generalize hc : d2 / 1461 = c
  have hcr : 0 ≤ c ∧ c ≤ 24 ∧ (b < 3 → c = 24 → d2 - 1461 * c < 1460) := by omega
  have h3 : 0 ≤ d2 - 1461 * c ∧ d2 - 1461 * c < 1461 := by omega
  generalize hd3 : d2 - 1461 * c = d3 at h3 hcr ⊢
  generalize he0 : d3 / 365 = e0
  have he0r : 0 ≤ e0 ∧ e0 ≤ 4 := by omega
  generalize he : min e0 3 = e
  have her : 0 ≤ e ∧ e ≤ 3 ∧ (e0 ≤ 3 → e = e0) ∧ (e0 = 4 → e = 3) := by omega
  have hdiv := year_divs a b c e ⟨hbr.1, hbr.2.1⟩ ⟨hcr.1, hcr.2.1⟩ ⟨her.1, her.2.1⟩
  have hleap := year_leap a b c e ⟨hbr.1, hbr.2.1⟩ ⟨hcr.1, hcr.2.1⟩ ⟨her.1, her.2.1⟩
  have hy : (1 + 400 * a + 100 * b + 4 * c + e - 1) = 400 * a + 100 * b + 4 * c + e := by ring
  rw [hy, hdiv.1, hdiv.2.1, hdiv.2.2, hleap]
  refine ⟨by omega, by omega, ?_, by omega⟩
  intro h
  omega

theorem monthOf_spec (day : Nat) (h : day < 365) :
    1 ≤ (time.monthOf day).1 ∧ (time.monthOf day).1 ≤ 12 ∧ 1 ≤ (time.monthOf day).2 ∧
    time.daysBefore ((time.monthOf day).1 - 1) + (time.monthOf day).2 = day + 1 ∧
    time.daysBefore ((time.monthOf day).1 - 1) + (time.monthOf day).2 ≤
      time.daysBefore (time.monthOf day).1 ∧
    (day < 59 → (time.monthOf day).1 ≤ 2) ∧ (59 ≤ day → 3 ≤ (time.monthOf day).1) := by
  unfold time.monthOf
  have hk : day / 31 < 12 := by omega
  generalize hm : day / 31 = k at hk ⊢
  interval_cases k <;> simp only [time.daysBefore, List.getD_cons_zero, List.getD_cons_succ] <;>
    split <;> simp <;> omega

/-- The month and the day of a day within the year: a month from 1 to 12, a day of that
month, and the days before the month with the day give the day within the year. -/
theorem monthDay_spec (year : Int) (yday : Nat)
    (h : yday < 365 ∨ (yday = 365 ∧ time.isLeap year = true)) :
    1 ≤ (time.monthDay (time.isLeap year) yday).1 ∧
    (time.monthDay (time.isLeap year) yday).1 ≤ 12 ∧
    1 ≤ (time.monthDay (time.isLeap year) yday).2 ∧
    (time.monthDay (time.isLeap year) yday).2 ≤
      time.daysIn (time.monthDay (time.isLeap year) yday).1 year ∧
    time.daysBefore ((time.monthDay (time.isLeap year) yday).1 - 1) +
      (if time.isLeap year = true ∧ (time.monthDay (time.isLeap year) yday).1 ≥ 3 then 1
        else 0) + (time.monthDay (time.isLeap year) yday).2 = yday + 1 := by
  unfold time.monthDay time.daysIn
  by_cases hl : time.isLeap year = true
  · by_cases h59 : yday = 31 + 29 - 1
    · rw [if_pos ⟨hl, h59⟩]
      simp [time.daysBefore, hl, h59]
    · have hn : ¬ (time.isLeap year = true ∧ yday = 31 + 29 - 1) := fun h => h59 h.2
      rw [if_neg hn]
      by_cases hgt : yday > 31 + 29 - 1
      · rw [if_pos ⟨hl, hgt⟩]
        have hs := monthOf_spec (yday - 1) (by omega)
        generalize time.monthOf (yday - 1) = md at hs
        obtain ⟨s₁, s₂, s₃, s₄, s₅, s₆, s₇⟩ := hs
        have s₈ := s₇ (by omega)
        have c₁ : ¬ (md.1 = 2 ∧ time.isLeap year = true) := by omega
        have c₂ : time.isLeap year = true ∧ md.1 ≥ 3 := ⟨hl, s₈⟩
        rw [if_neg c₁, if_pos c₂]
        omega
      · have hn₂ : ¬ (time.isLeap year = true ∧ yday > 31 + 29 - 1) := fun h => hgt h.2
        rw [if_neg hn₂]
        have hs := monthOf_spec yday (by omega)
        generalize time.monthOf yday = md at hs
        obtain ⟨s₁, s₂, s₃, s₄, s₅, s₆, s₇⟩ := hs
        have s₈ := s₆ (by omega)
        have c₂ : ¬ (time.isLeap year = true ∧ md.1 ≥ 3) := by omega
        rw [if_neg c₂]
        by_cases c₁ : md.1 = 2 ∧ time.isLeap year = true
        · rw [if_pos c₁]
          have e₁ : md.1 - 1 = 1 := by omega
          have e₂ : time.daysBefore (md.1 - 1) = 31 := by rw [e₁]; rfl
          omega
        · rw [if_neg c₁]
          omega
  · have hlt : yday < 365 := by
      rcases h with h | h
      · exact h
      · exact absurd h.2 hl
    have hn : ¬ (time.isLeap year = true ∧ yday = 31 + 29 - 1) := fun h => hl h.1
    have hn₂ : ¬ (time.isLeap year = true ∧ yday > 31 + 29 - 1) := fun h => hl h.1
    rw [if_neg hn, if_neg hn₂]
    have hs := monthOf_spec yday hlt
    generalize time.monthOf yday = md at hs
    obtain ⟨s₁, s₂, s₃, s₄, s₅, s₆, s₇⟩ := hs
    have c₁ : ¬ (md.1 = 2 ∧ time.isLeap year = true) := fun h => hl h.2
    have c₂ : ¬ (time.isLeap year = true ∧ md.1 ≥ 3) := fun h => hl h.1
    rw [if_neg c₁, if_neg c₂]
    omega

theorem appendInt_two (n : Nat) (h : n < 100) :
    time.appendInt 2 n = [48 + n / 10, 48 + n % 10] := by
  have h₀ : n / 10 / 10 = 0 := by omega
  have h₁ : n / 10 % 10 = n / 10 := by omega
  have hz : '0'.toNat = 48 := rfl
  simp only [time.appendInt, h₀, h₁, hz, if_true, List.nil_append, List.singleton_append]

theorem appendInt_four (n : Nat) (h : n < 10000) :
    time.appendInt 4 n = [48 + n / 1000, 48 + n / 100 % 10, 48 + n / 10 % 10, 48 + n % 10] := by
  have h₀ : n / 10 / 10 / 10 / 10 = 0 := by omega
  have h₁ : n / 10 / 10 / 10 % 10 = n / 1000 := by omega
  have h₂ : n / 10 / 10 % 10 = n / 100 % 10 := by omega
  have hz : '0'.toNat = 48 := rfl
  simp only [time.appendInt, h₀, h₁, h₂, hz, if_true, List.nil_append, List.singleton_append,
    List.cons_append]

theorem isDigit_digit (a : Nat) (h : a < 10) : time.isDigit (48 + a) = true := by
  have hz : '0'.toNat = 48 := rfl
  have hn : '9'.toNat = 57 := rfl
  simp only [time.isDigit, hz, hn, Bool.and_eq_true, decide_eq_true_eq]
  omega

theorem parseUint_two (a b min max : Nat) (ha : a < 10) (hb : b < 10)
    (h : min ≤ a * 10 + b ∧ a * 10 + b ≤ max) :
    time.parseUint [48 + a, 48 + b] min max = some (a * 10 + b) := by
  have hz : '0'.toNat = 48 := rfl
  have hv : List.foldl (fun x c => x * 10 + (c - '0'.toNat)) 0 [48 + a, 48 + b] =
      a * 10 + b := by
    simp only [List.foldl, hz]
    omega
  have hn : ¬ (a * 10 + b < min ∨ max < a * 10 + b) := by omega
  unfold time.parseUint
  rw [hv, if_neg hn]
  simp [isDigit_digit a ha, isDigit_digit b hb]

theorem parseUint_four (a b c d min max : Nat) (ha : a < 10) (hb : b < 10) (hc : c < 10)
    (hd : d < 10) (h : min ≤ ((a * 10 + b) * 10 + c) * 10 + d ∧
      ((a * 10 + b) * 10 + c) * 10 + d ≤ max) :
    time.parseUint [48 + a, 48 + b, 48 + c, 48 + d] min max =
      some (((a * 10 + b) * 10 + c) * 10 + d) := by
  have hz : '0'.toNat = 48 := rfl
  have hv : List.foldl (fun x c => x * 10 + (c - '0'.toNat)) 0
      [48 + a, 48 + b, 48 + c, 48 + d] = ((a * 10 + b) * 10 + c) * 10 + d := by
    simp only [List.foldl, hz]
    omega
  have hn : ¬ (((a * 10 + b) * 10 + c) * 10 + d < min ∨
      max < ((a * 10 + b) * 10 + c) * 10 + d) := by omega
  unfold time.parseUint
  rw [hv, if_neg hn]
  simp [isDigit_digit a ha, isDigit_digit b hb, isDigit_digit c hc, isDigit_digit d hd]

theorem parseUint_appendInt_two (n min max : Nat) (h : n < 100) (hr : min ≤ n ∧ n ≤ max) :
    time.parseUint [48 + n / 10, 48 + n % 10] min max = some n := by
  have := parseUint_two (n / 10) (n % 10) min max (by omega) (by omega) (by omega)
  rw [this]
  congr 1
  omega

theorem parseUint_appendInt_four (n min max : Nat) (h : n < 10000) (hr : min ≤ n ∧ n ≤ max) :
    time.parseUint [48 + n / 1000, 48 + n / 100 % 10, 48 + n / 10 % 10, 48 + n % 10] min max =
      some n := by
  have := parseUint_four (n / 1000) (n / 100 % 10) (n / 10 % 10) (n % 10) min max (by omega)
    (by omega) (by omega) (by omega) (by omega)
  rw [this]
  congr 1
  omega

theorem daysIn_le (month : Nat) (year : Int) (h : 1 ≤ month ∧ month ≤ 12) :
    time.daysIn month year ≤ 31 := by
  obtain ⟨h₁, h₂⟩ := h
  unfold time.daysIn
  split
  · omega
  · interval_cases month <;> decide

/-- The fast path reads a text of fields in their ranges. -/
theorem parseRFC3339_fields (year month day hour min sec : Nat) (tail : List Nat)
    (zoneOffset : Int) (hy : year < 10000) (hm : 1 ≤ month ∧ month ≤ 12)
    (hd : 1 ≤ day ∧ day ≤ time.daysIn month year) (hh : hour < 24) (hmi : min < 60)
    (hs : sec < 60) (hz : time.parseZone (time.parseFraction tail).2 = some zoneOffset) :
    time.parseRFC3339 (time.appendInt 4 year ++ '-'.toNat :: time.appendInt 2 month ++
      '-'.toNat :: time.appendInt 2 day ++ 'T'.toNat :: time.appendInt 2 hour ++
      ':'.toNat :: time.appendInt 2 min ++ ':'.toNat :: time.appendInt 2 sec ++ tail) =
    some ⟨(((time.dateToDays year month day - time.unixEpochDay) * 86400 + hour * 3600 +
      min * 60 + sec) - zoneOffset) * 1000000000 + (time.parseFraction tail).1⟩ := by
  have hd31 := daysIn_le month year hm
  rw [appendInt_four year hy, appendInt_two month (by omega), appendInt_two day (by omega),
    appendInt_two hour (by omega), appendInt_two min (by omega), appendInt_two sec (by omega)]
  have p₁ := parseUint_appendInt_four year 0 9999 hy (by omega)
  have p₂ := parseUint_appendInt_two month 1 12 (by omega) hm
  have p₃ := parseUint_appendInt_two day 1 (time.daysIn month year) (by omega) hd
  have p₄ := parseUint_appendInt_two hour 0 23 (by omega) (by omega)
  have p₅ := parseUint_appendInt_two min 0 59 (by omega) (by omega)
  have p₆ := parseUint_appendInt_two sec 0 59 (by omega) (by omega)
  simp only [List.cons_append, List.nil_append, time.parseRFC3339, p₁, p₂, p₃, p₄, p₅, p₆, hz,
    and_self, if_true]

theorem dropWhile_append_stop {α : Type} (p : α → Bool) (l₁ l₂ : List α) (a : α)
    (h₁ : ∀ x ∈ l₁, p x = true) (ha : p a = false) :
    (l₁ ++ a :: l₂).dropWhile p = a :: l₂ := by
  induction l₁ with
  | nil => simp [List.dropWhile_cons, ha]
  | cons x rest ih =>
    have hx : p x = true := h₁ x (List.mem_cons_self _ _)
    simp only [List.cons_append, List.dropWhile_cons, hx, if_true]
    rw [ih (fun y hy => h₁ y (List.mem_cons_of_mem _ hy))]

theorem digitsValue_append (l : List Nat) (d : Nat) :
    digitsValue (l ++ [d]) = digitsValue l * 10 + (d - 48) := by
  simp [digitsValue, List.foldl_append]

theorem digitsValue_zeros (l : List Nat) (z : Nat) :
    digitsValue (l ++ List.replicate z 48) = digitsValue l * 10 ^ z := by
  induction z with
  | zero => simp
  | succ z ih =>
    rw [List.replicate_succ', ← List.append_assoc, digitsValue_append, ih, pow_succ]
    ring

/-- The digits of a number below `10 ^ width`, written in that width. -/
theorem appendInt_spec (width n : Nat) (h : n < 10 ^ width) :
    (∀ b ∈ time.appendInt width n, time.isDigit b = true) ∧
    (time.appendInt width n).length = width ∧ digitsValue (time.appendInt width n) = n := by
  induction width generalizing n with
  | zero =>
    have h₀ : n = 0 := by simpa using h
    subst h₀
    simp [time.appendInt, digitsValue]
  | succ width ih =>
    have hlt : n / 10 < 10 ^ width := by
      rw [pow_succ] at h
      omega
    obtain ⟨i₁, i₂, i₃⟩ := ih (n / 10) hlt
    have hz : '0'.toNat = 48 := rfl
    refine ⟨?_, ?_, ?_⟩
    · intro b hb
      simp only [time.appendInt, List.mem_append, List.mem_singleton] at hb
      rcases hb with hb | hb
      · exact i₁ b hb
      · rw [hb, hz]
        exact isDigit_digit _ (by omega)
    · simp [time.appendInt, i₂]
    · simp only [time.appendInt, hz]
      rw [digitsValue_append, i₃]
      omega

/-- A list is what is left of it without the zeros at its end, and those zeros. -/
theorem trim_zeros (l : List Nat) :
    ∃ z, l = (l.reverse.dropWhile (· == '0'.toNat)).reverse ++ List.replicate z 48 := by
  have h := List.takeWhile_append_dropWhile (· == '0'.toNat) l.reverse
  have h₁ : l = (l.reverse.dropWhile (· == '0'.toNat)).reverse ++
      (l.reverse.takeWhile (· == '0'.toNat)).reverse := by
    rw [← List.reverse_append, h, List.reverse_reverse]
  refine ⟨(l.reverse.takeWhile (· == '0'.toNat)).length, ?_⟩
  have h₂ : (l.reverse.takeWhile (· == '0'.toNat)).reverse =
      List.replicate (l.reverse.takeWhile (· == '0'.toNat)).length 48 := by
    rw [List.eq_replicate_iff]
    refine ⟨by simp, ?_⟩
    intro b hb
    have := List.mem_takeWhile_imp (List.mem_reverse.mp hb)
    simpa using this
  rw [← h₂]
  exact h₁

/-- The fraction that `appendNano` writes reads back as the nanoseconds, before a text
that does not begin with a digit or a point. -/
theorem parseFraction_appendNano (n : Nat) (h : n < 1000000000) (z : Nat) (rest : List Nat)
    (hz : time.isDigit z = false) (hp : z ≠ '.'.toNat) :
    time.parseFraction (time.appendNano n ++ z :: rest) = (n, z :: rest) := by
  unfold time.appendNano
  by_cases h₀ : n = 0
  · rw [if_pos h₀, List.nil_append, h₀]
    unfold time.parseFraction
    cases rest with
    | nil => rfl
    | cons d rest =>
      have : ¬ (z = '.'.toNat ∧ time.isDigit d = true) := fun h => hp h.1
      simp only [this, if_false]
  · rw [if_neg h₀]
    obtain ⟨s₁, s₂, s₃⟩ := appendInt_spec 9 n (by norm_num; exact h)
    obtain ⟨k, hk⟩ := trim_zeros (time.appendInt 9 n)
    generalize ht : ((time.appendInt 9 n).reverse.dropWhile (· == '0'.toNat)).reverse = t at hk ⊢
    have hlen : t.length + k = 9 := by
      have := congrArg List.length hk
      rw [s₂, List.length_append, List.length_replicate] at this
      omega
    have hval : digitsValue t * 10 ^ k = n := by
      rw [← digitsValue_zeros, ← hk, s₃]
    have hdig : ∀ b ∈ t, time.isDigit b = true := by
      intro b hb
      apply s₁
      rw [hk]
      exact List.mem_append_left _ hb
    cases t with
    | nil =>
      exfalso
      apply h₀
      rw [← hval]
      simp [digitsValue]
    | cons d t =>
      have hd : time.isDigit d = true := hdig d (List.mem_cons_self _ _)
      have ht' : ∀ b ∈ t, time.isDigit b = true := fun b hb => hdig b (List.mem_cons_of_mem _ hb)
      show time.parseFraction ('.'.toNat :: d :: (t ++ z :: rest)) = _
      unfold time.parseFraction
      simp only [hd, and_self, if_true]
      rw [takeWhile_append_stop _ _ _ _ ht' hz, dropWhile_append_stop _ _ _ _ ht' hz]
      have htake : List.take 9 (d :: t) = d :: t := by
        apply List.take_of_length_le
        omega
      have hk9 : 9 - (d :: t).length = k := by omega
      unfold time.parseNanoseconds
      rw [htake, hk9]
      exact congrArg (fun x => (x, z :: rest)) hval

theorem parseZone_text (n : Nat) (neg : Prop) [Decidable neg] (h : n / 60 < 24) :
    time.isDigit (if neg then '-'.toNat else '+'.toNat) = false ∧
    (if neg then '-'.toNat else '+'.toNat) ≠ '.'.toNat ∧
    time.parseFraction ((if neg then '-'.toNat else '+'.toNat) ::
      time.appendInt 2 (n / 60) ++ ':'.toNat :: time.appendInt 2 (n % 60)) =
      (0, (if neg then '-'.toNat else '+'.toNat) ::
        time.appendInt 2 (n / 60) ++ ':'.toNat :: time.appendInt 2 (n % 60)) ∧
    time.parseZone ((if neg then '-'.toNat else '+'.toNat) ::
      time.appendInt 2 (n / 60) ++ ':'.toNat :: time.appendInt 2 (n % 60)) =
      some (if neg then -((n * 60 : Nat) : Int) else ((n * 60 : Nat) : Int)) := by
  rw [appendInt_two _ (by omega), appendInt_two _ (by omega)]
  have p₁ := parseUint_appendInt_two (n / 60) 0 23 (by omega) (by omega)
  have p₂ := parseUint_appendInt_two (n % 60) 0 59 (by omega) (by omega)
  have hv : (n / 60 * 60 + n % 60) * 60 = n * 60 := by omega
  have hne : '+'.toNat ≠ '-'.toNat := by decide
  have hsign : (if neg then '-'.toNat else '+'.toNat) ≠ '.'.toNat := by
    split <;> decide
  refine ⟨?_, hsign, ?_, ?_⟩
  · split <;> decide
  · have : ¬ ((if neg then '-'.toNat else '+'.toNat) = '.'.toNat ∧
        time.isDigit (48 + n / 60 / 10) = true) := fun h => hsign h.1
    simp only [List.cons_append, List.nil_append, time.parseFraction, this, if_false]
  · simp only [List.cons_append, List.nil_append, time.parseZone, p₁, p₂, hv]
    by_cases hneg : neg
    · simp only [hneg, if_true, true_or, and_self]
    · simp only [hneg, if_false, hne, or_true, and_self, if_true]

/-- The zone that is written reads back, for an offset of whole minutes below 24 hours. -/
theorem parseZone_zone (offset : Int) (hz : offset % 60 = 0)
    (hr : ¬ (offset ≠ 0 ∧ (time.quo offset 60).natAbs / 60 ≥ 24)) :
    ∃ z rest, (if offset = 0 then ['Z'.toNat]
       else
        (if time.quo offset 60 < 0 then '-'.toNat else '+'.toNat) ::
          time.appendInt 2 ((time.quo offset 60).natAbs / 60) ++
          ':'.toNat :: time.appendInt 2 ((time.quo offset 60).natAbs % 60)) = z :: rest ∧
      time.isDigit z = false ∧ z ≠ '.'.toNat ∧
      time.parseFraction (z :: rest) = (0, z :: rest) ∧
      time.parseZone (z :: rest) = some offset := by
  by_cases h₀ : offset = 0
  · rw [if_pos h₀, h₀]
    exact ⟨_, _, rfl, by decide, by decide, rfl, rfl⟩
  · rw [if_neg h₀]
    have hq : time.quo offset 60 = offset / 60 := by
      unfold time.quo
      exact Int.tdiv_eq_ediv_of_dvd (Int.dvd_of_emod_eq_zero hz)
    rw [hq] at hr ⊢
    have hlt : (offset / 60).natAbs / 60 < 24 := by
      by_contra hc
      exact hr ⟨h₀, by omega⟩
    obtain ⟨p₁, p₂, p₃, p₄⟩ := parseZone_text (offset / 60).natAbs (offset / 60 < 0) hlt
    refine ⟨_, _, rfl, p₁, p₂, p₃, p₄.trans ?_⟩
    congr 1
    obtain ⟨n, hn | hn⟩ := Int.eq_nat_or_neg (offset / 60)
    · have hna : (offset / 60).natAbs = n := by rw [hn]; rfl
      have hnn : ¬ offset / 60 < 0 := by omega
      rw [hna, if_neg hnn]
      omega
    · have hna : (offset / 60).natAbs = n := by rw [hn]; simp
      rw [hna]
      split <;> omega

/-- The text that `appendStrictRFC3339` writes for a time in a zone of whole minutes is
read back by the fast path `parseRFC3339` as the same instant. -/
theorem parseRFC3339_appendStrictRFC3339 (t : models.Time) (offset : Int) (text : List Nat)
    (h : time.appendStrictRFC3339 t offset = .ok text) (hz : offset % 60 = 0) :
    time.parseRFC3339 text = some t := by
  unfold time.appendStrictRFC3339 at h
  simp only at h
  have hspec := yearOfDays_spec ((t.nanos / 1000000000 + offset) / 86400 + time.unixEpochDay)
  generalize hyd : time.yearOfDays ((t.nanos / 1000000000 + offset) / 86400 +
    time.unixEpochDay) = yd at h hspec
  obtain ⟨year, yday⟩ := yd
  simp only at h hspec
  obtain ⟨y₁, y₂, y₃, y₄⟩ := hspec
  by_cases e₁ : year < 0 ∨ 9999 < year
  · rw [if_pos e₁] at h
    cases h
  rw [if_neg e₁] at h
  by_cases e₂ : offset ≠ 0 ∧ (time.quo offset 60).natAbs / 60 ≥ 24
  · rw [if_pos e₂] at h
    cases h
  rw [if_neg e₂] at h
  have e₁' : 0 ≤ year ∧ year ≤ 9999 := by omega
  have hyear : ((year.toNat : Nat) : Int) = year := Int.toNat_of_nonneg e₁'.1
  have hmd := monthDay_spec year yday.toNat (by
    by_cases h365 : yday = 365
    · right
      exact ⟨by omega, y₃ h365⟩
    · left
      omega)
  generalize hmdv : time.monthDay (time.isLeap year) yday.toNat = md at h hmd
  obtain ⟨m₁, m₂, m₃, m₄, m₅⟩ := hmd
  obtain ⟨z, rest, hzone, z₁, z₂, z₃, z₄⟩ := parseZone_zone offset hz e₂
  rw [hzone] at h
  have hclock : ((t.nanos / 1000000000 + offset) % 86400).toNat < 86400 := by omega
  generalize hc : ((t.nanos / 1000000000 + offset) % 86400).toNat = clock at h hclock
  have hnano : (t.nanos % 1000000000).toNat < 1000000000 := by omega
  have hfrac := parseFraction_appendNano (t.nanos % 1000000000).toNat hnano z rest z₁ z₂
  have hzone' : time.parseZone (time.parseFraction
      (time.appendNano (t.nanos % 1000000000).toNat ++ z :: rest)).2 = some offset := by
    rw [hfrac]
    exact z₄
  have hfields := parseRFC3339_fields year.toNat md.1 md.2 (clock / 3600) (clock / 60 % 60)
    (clock % 60) (time.appendNano (t.nanos % 1000000000).toNat ++ z :: rest) offset
    (by omega) ⟨m₁, m₂⟩ ⟨m₃, by rw [hyear]; exact m₄⟩ (by omega) (by omega) (by omega) hzone'
  injection h with h
  rw [← h]
  simp only [List.append_assoc, List.cons_append] at hfields ⊢
  rw [hfields, hfrac]
  congr 1
  have hdays : time.dateToDays year md.1 md.2 =
      (t.nanos / 1000000000 + offset) / 86400 + time.unixEpochDay := by
    unfold time.dateToDays
    rw [← y₄]
    have : ((if time.isLeap year = true ∧ md.1 ≥ 3 then 1 else 0 : Nat) : Int) =
        (if time.isLeap year = true ∧ md.1 ≥ 3 then 1 else 0 : Int) := by
      split <;> rfl
    omega
  rw [hyear, hdays]
  cases t with
  | mk nanos =>
    simp only [models.Time.mk.injEq]
    simp only at hc
    omega

theorem timeByte_plain (b : Nat) (h : timeByte b) : plainByte b ∧ b < 256 := by
  have hz : '0'.toNat = 48 := rfl
  have hn : '9'.toNat = 57 := rfl
  rcases h with h | h | h | h | h | h | h
  · simp only [time.isDigit, hz, hn, Bool.and_eq_true, decide_eq_true_eq] at h
    refine ⟨⟨?_, ?_, ?_⟩, ?_⟩
    · intro e; rw [e] at h; revert h; decide
    · intro e; rw [e] at h; revert h; decide
    · omega
    · omega
  all_goals rw [h]; exact ⟨⟨by decide, by decide, by decide⟩, by decide⟩

theorem appendNano_bytes (n : Nat) (h : n < 1000000000) (b : Nat)
    (hb : b ∈ time.appendNano n) : timeByte b := by
  unfold time.appendNano at hb
  split at hb
  · simp at hb
  · rw [List.mem_cons] at hb
    rcases hb with hb | hb
    · right; right; right; right; left
      exact hb
    · left
      rw [List.mem_reverse] at hb
      have hb' := List.mem_reverse.mp ((List.dropWhile_sublist _).subset hb)
      exact (appendInt_spec 9 n (by norm_num; exact h)).1 b hb'

/-- Every byte of the text that `appendStrictRFC3339` writes is a digit or one of the
marks of the layout. -/
theorem appendStrictRFC3339_bytes (t : models.Time) (offset : Int) (text : List Nat)
    (h : time.appendStrictRFC3339 t offset = .ok text) : ∀ b ∈ text, timeByte b := by
  unfold time.appendStrictRFC3339 at h
  simp only at h
  have hspec := yearOfDays_spec ((t.nanos / 1000000000 + offset) / 86400 + time.unixEpochDay)
  generalize hyd : time.yearOfDays ((t.nanos / 1000000000 + offset) / 86400 +
    time.unixEpochDay) = yd at h hspec
  obtain ⟨year, yday⟩ := yd
  simp only at h hspec
  obtain ⟨y₁, y₂, y₃, y₄⟩ := hspec
  by_cases e₁ : year < 0 ∨ 9999 < year
  · rw [if_pos e₁] at h
    cases h
  rw [if_neg e₁] at h
  by_cases e₂ : offset ≠ 0 ∧ (time.quo offset 60).natAbs / 60 ≥ 24
  · rw [if_pos e₂] at h
    cases h
  rw [if_neg e₂] at h
  have hmd := monthDay_spec year yday.toNat (by
    by_cases h365 : yday = 365
    · right
      exact ⟨by omega, y₃ h365⟩
    · left
      omega)
  generalize hmdv : time.monthDay (time.isLeap year) yday.toNat = md at h hmd
  obtain ⟨m₁, m₂, m₃, m₄, m₅⟩ := hmd
  have hd31 := daysIn_le md.1 year ⟨m₁, m₂⟩
  have hclock : ((t.nanos / 1000000000 + offset) % 86400).toNat < 86400 := by omega
  generalize hc : ((t.nanos / 1000000000 + offset) % 86400).toNat = clock at h hclock
  have hnano : (t.nanos % 1000000000).toNat < 1000000000 := by omega
  have d₁ := (appendInt_spec 4 year.toNat (by norm_num; omega)).1
  have d₂ := (appendInt_spec 2 md.1 (by norm_num; omega)).1
  have d₃ := (appendInt_spec 2 md.2 (by norm_num; omega)).1
  have d₄ := (appendInt_spec 2 (clock / 3600) (by norm_num; omega)).1
  have d₅ := (appendInt_spec 2 (clock / 60 % 60) (by norm_num; omega)).1
  have d₆ := (appendInt_spec 2 (clock % 60) (by norm_num; omega)).1
  have d₇ := appendNano_bytes (t.nanos % 1000000000).toNat hnano
  have d₈ : ∀ b ∈ (if offset = 0 then ['Z'.toNat]
       else
        (if time.quo offset 60 < 0 then '-'.toNat else '+'.toNat) ::
          time.appendInt 2 ((time.quo offset 60).natAbs / 60) ++
          ':'.toNat :: time.appendInt 2 ((time.quo offset 60).natAbs % 60)), timeByte b := by
    intro b hb
    by_cases h₀ : offset = 0
    · rw [if_pos h₀, List.mem_singleton] at hb
      right; right; right; right; right; left
      exact hb
    · rw [if_neg h₀] at hb
      have hlt : (time.quo offset 60).natAbs / 60 < 24 := by
        by_contra hc
        exact e₂ ⟨h₀, by omega⟩
      have z₁ := (appendInt_spec 2 ((time.quo offset 60).natAbs / 60) (by norm_num; omega)).1
      have z₂ := (appendInt_spec 2 ((time.quo offset 60).natAbs % 60) (by norm_num; omega)).1
      simp only [List.cons_append, List.mem_cons, List.mem_append] at hb
      rcases hb with hb | hb | hb | hb
      · rw [hb]
        split
        · right; left; rfl
        · right; right; right; right; right; right; rfl
      · exact Or.inl (z₁ b hb)
      · right; right; right; left
        exact hb
      · exact Or.inl (z₂ b hb)
  injection h with h
  intro b hb
  rw [← h] at hb
  simp only [List.cons_append, List.mem_cons, List.mem_append] at hb
  rcases hb with ((((((hb | hb | hb) | hb | hb) | hb | hb) | hb | hb) | hb | hb) | hb) | hb
  · exact Or.inl (d₁ b hb)
  · right; left; exact hb
  · exact Or.inl (d₂ b hb)
  · right; left; exact hb
  · exact Or.inl (d₃ b hb)
  · right; right; left; exact hb
  · exact Or.inl (d₄ b hb)
  · right; right; right; left; exact hb
  · exact Or.inl (d₅ b hb)
  · right; right; right; left; exact hb
  · exact Or.inl (d₆ b hb)
  · exact d₇ b hb
  · exact d₈ b hb

theorem scanMembers_more (fuel depth : Nat) (key : String) (v : json.Value)
    (r₁ r₂ after : List Nat) (ms : List (List Nat × json.Value))
    (hv : json.scanValue fuel depth r₁ = some (v, ','.toNat :: r₂))
    (hm : json.scanMembers fuel depth r₂ = some (ms, after)) :
    json.scanMembers (fuel + 1) depth (json.appendString key ++ ':'.toNat :: r₁) =
      some ((json.appendRunes key, v) :: ms, after) := by
  rw [appendString_append, json.scanMembers, skipSpace_cons _ _ (by decide)]
  simp only [scanString_appendRunes, if_true, skipSpace_cons _ _
    (by decide : json.isSpace ':'.toNat = false), hv, skipSpace_cons _ _
    (by decide : json.isSpace ','.toNat = false), hm]

theorem scanMembers_last (fuel depth : Nat) (key : String) (v : json.Value)
    (r₁ r₂ : List Nat)
    (hv : json.scanValue fuel depth r₁ = some (v, '\x7d'.toNat :: r₂)) :
    json.scanMembers (fuel + 1) depth (json.appendString key ++ ':'.toNat :: r₁) =
      some ([(json.appendRunes key, v)], r₂) := by
  have h₁ : '\x7d'.toNat ≠ ','.toNat := by decide
  rw [appendString_append, json.scanMembers, skipSpace_cons _ _ (by decide)]
  simp only [scanString_appendRunes, if_true, skipSpace_cons _ _
    (by decide : json.isSpace ':'.toNat = false), hv, skipSpace_cons _ _
    (by decide : json.isSpace '\x7d'.toNat = false), h₁, if_false]

theorem scanValue_object (fuel : Nat) (r after : List Nat)
    (ms : List (List Nat × json.Value))
    (h : json.scanMembers fuel 1 ('"'.toNat :: r) = some (ms, after)) :
    json.scanValue (fuel + 1) 0 ('\x7b'.toNat :: '"'.toNat :: r) = some (.object ms, after) := by
  have h₁ : '\x7b'.toNat ≠ '"'.toNat := by decide
  have h₂ : '\x7b'.toNat ≠ '['.toNat := by decide
  have h₃ : ¬ (0 + 1 > json.maxNestingDepth) := by decide
  have h₄ : '"'.toNat ≠ '\x7d'.toNat := by decide
  rw [json.scanValue, skipSpace_cons _ _ (by decide)]
  simp only [h₁, h₂, h₃, h₄, if_true, if_false, skipSpace_cons _ _
    (by decide : json.isSpace '"'.toNat = false), h]

/-- The value of `RequestedOperations` in the text of a command scans as the value in
`commandMembers`. -/
theorem scanValue_operations (l : List String) (nilOperations : Bool) (fuel : Nat)
    (rest : List Nat) (h : l.length + 3 ≤ fuel) :
    json.scanValue fuel 1 ((if l = [] ∧ nilOperations = true then "null".toList.map Char.toNat
       else '['.toNat :: json.appendStrings l ++ [']'.toNat]) ++ rest) =
      some (if l = [] ∧ nilOperations = true then .null
        else .array (l.map (fun s => .string (json.appendRunes s))), rest) := by
  by_cases hn : l = [] ∧ nilOperations = true
  · rw [if_pos hn, if_pos hn]
    obtain ⟨f, rfl⟩ : ∃ f, fuel = f + 1 := ⟨fuel - 1, by omega⟩
    exact scanValue_null f 1 rest
  · rw [if_neg hn, if_neg hn]
    have := scanValue_strings l fuel rest h
    simpa using this

theorem appendStrings_length (l : List String) : l.length ≤ (json.appendStrings l).length := by
  induction l with
  | nil => simp
  | cons s l ih =>
    cases l with
    | nil => simp [json.appendStrings, json.appendString]
    | cons s₁ l =>
      simp only [json.appendStrings, List.length_append, List.length_cons] at ih ⊢
      omega

/-- The text of a command scans as the object of its members. -/
theorem scanValue_appendCommand (raw : List Nat) (nilOperations : Bool)
    (c : models.ProcessingCommand) (fuel : Nat) (h : c.RequestedOperations.length + 7 ≤ fuel)
    (hraw : ∀ rest, json.scanString (raw ++ '"'.toNat :: rest) = some (raw, rest)) :
    json.scanValue fuel 0 (json.appendCommand ('"'.toNat :: raw ++ ['"'.toNat]) nilOperations c) =
      some (.object (json.commandMembers raw nilOperations c), []) := by
  obtain ⟨f, rfl⟩ : ∃ f, fuel = f + 5 := ⟨fuel - 5, by omega⟩
  have hops := scanValue_operations c.RequestedOperations nilOperations (f + 1)
    (','.toNat :: (json.appendString "created_at" ++
      ':'.toNat :: '"'.toNat :: (raw ++ '"'.toNat :: ['\x7d'.toNat]))) (by omega)
  have m₄ := scanMembers_last (f + 0) 1 "created_at" (.string raw)
    ('"'.toNat :: (raw ++ '"'.toNat :: ['\x7d'.toNat])) []
    (by
      obtain ⟨g, hg⟩ : ∃ g, f + 0 = g + 1 := ⟨f - 1, by omega⟩
      rw [hg]
      exact scanValue_raw g 1 raw _ (hraw _))
  have m₃ := scanMembers_more (f + 1) 1 "requested_operations" _ _ _ _ _ hops m₄
  have m₂ := scanMembers_more (f + 2) 1 "original_path" _ _ _ _ _
    (scanValue_string (f + 1) 1 c.OriginalPath _) m₃
  have m₁ := scanMembers_more (f + 3) 1 "id" _ _ _ _ _ (scanValue_string (f + 2) 1 c.ID _) m₂
  rw [appendString_append] at m₁
  have := scanValue_object (f + 4) _ _ _ m₁
  unfold json.commandMembers
  rw [← this]
  congr 1
  simp [json.appendCommand, json.appendString]

theorem appendCommand_length (createdAt : List Nat) (nilOperations : Bool)
    (c : models.ProcessingCommand) :
    c.RequestedOperations.length + 7 ≤
      2 * (json.appendCommand createdAt nilOperations c).length + 2 := by
  have h := appendStrings_length c.RequestedOperations
  unfold json.appendCommand
  split
  · rename_i hn
    rw [hn.1] at h ⊢
    simp [json.appendString]
    omega
  · simp only [List.length_append, List.length_cons]
    omega

/-- The text that `json.Marshal` writes for a command parses as the object of its
members. -/
theorem parse_marshalText (offset : Int) (nilOperations : Bool)
    (c : models.ProcessingCommand) (text : List Nat)
    (h : json.marshalText offset nilOperations c = .ok text) :
    ∃ raw, time.appendStrictRFC3339 c.CreatedAt offset = .ok raw ∧
      text = json.appendCommand ('"'.toNat :: raw ++ ['"'.toNat]) nilOperations c ∧
      json.parse text = some (.object (json.commandMembers raw nilOperations c)) := by
  unfold json.marshalText time.MarshalJSON at h
  cases hraw : time.appendStrictRFC3339 c.CreatedAt offset with
  | error err =>
    rw [hraw] at h
    cases h
  | ok raw =>
    rw [hraw] at h
    injection h with h
    refine ⟨raw, rfl, h.symm, ?_⟩
    have hbytes := appendStrictRFC3339_bytes _ _ _ hraw
    have hscan : ∀ rest, json.scanString (raw ++ '"'.toNat :: rest) = some (raw, rest) := by
      intro rest
      have hq : json.scanString ('"'.toNat :: rest) = some ([], rest) := by
        rw [json.scanString.eq_def]
        simp
      have := scanString_plains raw _ _ _ (fun b hb => (timeByte_plain b (hbytes b hb)).1) hq
      simpa using this
    unfold json.parse
    rw [← h, scanValue_appendCommand raw nilOperations c _
      (appendCommand_length _ nilOperations c) hscan]
    rfl

/-! ## Decoding the members of a command -/

/-- A member whose key has no field of the task changes nothing: decoding an object is
decoding its members whose keys have a field. -/
theorem decodeMembers_known (parseLayout : List Nat → Except Error models.Time)
    (growslice : Nat → Nat) (members : List (List Nat × json.Value)) (st : json.decodeState) :
    json.decodeMembers parseLayout growslice members st =
      json.decodeMembers parseLayout growslice
        (members.filter (fun kv => (json.fieldOfLiteral kv.1).isSome)) st := by
  induction members generalizing st with
  | nil => rfl
  | cons kv rest ih =>
    obtain ⟨key, v⟩ := kv
    cases hf : json.fieldOfLiteral key with
    | none =>
      have : (json.fieldOfLiteral key).isSome = false := by rw [hf]; rfl
      simp only [List.filter_cons, this, json.decodeMembers, hf]
      exact ih st
    | some f =>
      have : (json.fieldOfLiteral key).isSome = true := by rw [hf]; rfl
      simp only [List.filter_cons, this, json.decodeMembers, hf, if_true]
      cases json.setField parseLayout growslice f v st with
      | error err => rfl
      | ok st₁ => exact ih st₁

theorem take_set_succ {α : Type} (a : List α) (i : Nat) (s : α) (h : i < a.length) :
    (a.set i s).take (i + 1) = a.take i ++ [s] := by
  induction a generalizing i with
  | nil => simp at h
  | cons x a ih =>
    cases i with
    | zero => simp
    | succ i =>
      have := ih i (by simpa using h)
      simp [this]

theorem decodeString_appendRunes (field goType s old : String) :
    json.decodeString field goType (.string (json.appendRunes s)) old = (s, none) := by
  simp [json.decodeString, unquote_appendRunes]

/-- The strings of a command decode into a slice as they are, whatever capacities the
slice is grown to. -/
theorem decodeElems_strings (growslice : Nat → Nat) (l : List String) (i : Nat)
    (array : List String) (saved : Option Error) (hi : i ≤ array.length) :
    (json.decodeElems growslice (l.map (fun s => .string (json.appendRunes s))) i
      (⟨array, i⟩, saved)).1.elems = array.take i ++ l ∧
    (json.decodeElems growslice (l.map (fun s => .string (json.appendRunes s))) i
      (⟨array, i⟩, saved)).2 = saved := by
  induction l generalizing i array with
  | nil =>
    by_cases h₀ : i = 0
    · simp [json.decodeElems, h₀, json.Slice.elems]
    · simp [json.decodeElems, h₀, json.Slice.elems]
  | cons s l ih =>
    simp only [List.map_cons, json.decodeElems, decodeString_appendRunes, ge_iff_le,
      le_refl, if_true]
    have hsave : json.saveError saved none = saved := by cases saved <;> rfl
    rw [hsave]
    by_cases hcap : array.length ≤ i
    · have hlen : array.length = i := by omega
      have htake : array.take i = array := by
        rw [← hlen]
        exact List.take_length _
      have hpos : i < (array ++ List.replicate (max (growslice array.length) (i + 1) - i)
          "").length := by
        rw [List.length_append, List.length_replicate]
        omega
      rw [if_pos hcap, htake]
      have := ih (i + 1) ((array ++ List.replicate
        (max (growslice array.length) (i + 1) - i) "").set i s)
        (by rw [List.length_set]; omega)
      rw [take_set_succ _ _ _ hpos] at this
      rw [this.1, this.2]
      refine ⟨?_, rfl⟩
      rw [List.take_append_of_le_length (by omega), htake]
      simp
    · have hpos : i < array.length := by omega
      rw [if_neg hcap]
      have := ih (i + 1) (array.set i s) (by rw [List.length_set]; omega)
      rw [take_set_succ _ _ _ hpos] at this
      rw [this.1, this.2]
      simp

theorem fieldOfLiteral_tags :
    json.fieldOfLiteral (json.appendRunes "id") = some .ID ∧
    json.fieldOfLiteral (json.appendRunes "original_path") = some .OriginalPath ∧
    json.fieldOfLiteral (json.appendRunes "requested_operations") =
      some .RequestedOperations ∧
    json.fieldOfLiteral (json.appendRunes "created_at") = some .CreatedAt := by
  unfold json.fieldOfLiteral
  simp only [unquote_appendRunes]
  decide

/-- The members of a command decode into the task with the fields of the command, when
the text of `CreatedAt` reads back as `CreatedAt`. -/
theorem decode_commandMembers (parseLayout : List Nat → Except Error models.Time)
    (growslice : Nat → Nat) (raw : List Nat) (nilOperations : Bool)
    (c : models.ProcessingCommand) (hTime : time.parseRFC3339 raw = some c.CreatedAt) :
    ∃ operations, json.decodeMembers parseLayout growslice
        (json.commandMembers raw nilOperations c) ⟨json.zeroTask, ⟨[], 0⟩, none⟩ =
      .ok ⟨⟨c.ID, "", c.OriginalPath, c.RequestedOperations, c.CreatedAt⟩, operations, none⟩ := by
  obtain ⟨f₁, f₂, f₃, f₄⟩ := fieldOfLiteral_tags
  have hT : ∀ t, json.UnmarshalJSON parseLayout (.string raw) t = .ok c.CreatedAt := by
    intro t
    simp [json.UnmarshalJSON, time.parseStrictRFC3339, hTime]
  by_cases hn : c.RequestedOperations = [] ∧ nilOperations = true
  · refine ⟨⟨[], 0⟩, ?_⟩
    simp only [json.commandMembers, json.decodeMembers, f₁, f₂, f₃, f₄, json.setField,
      decodeString_appendRunes, json.saveError, hn, and_self, if_true, hT, json.zeroTask]
  · have he := decodeElems_strings growslice c.RequestedOperations 0 [] none (Nat.le_refl _)
    refine ⟨(json.decodeElems growslice
      (c.RequestedOperations.map (fun s => .string (json.appendRunes s))) 0
      (⟨[], 0⟩, none)).1, ?_⟩
    simp only [json.commandMembers, json.decodeMembers, f₁, f₂, f₃, f₄, json.setField,
      decodeString_appendRunes, json.saveError, hn, if_false, hT, json.zeroTask, he.1, he.2,
      List.take_zero, List.nil_append]

/-! ## Texts and byte slices -/

theorem ofBytes_toBytes (text : List Nat) (h : ∀ b ∈ text, b < 256) :
    json.ofBytes (json.toBytes text) = text := by
  unfold json.ofBytes json.toBytes
  rw [List.map_map]
  conv_rhs => rw [← List.map_id text]
  apply List.map_congr_left
  intro b hb
  have := h b hb
  simp only [Function.comp, Fin.ofNat, id]
  omega

theorem appendString_bytes (s : String) (b : Nat) (hb : b ∈ json.appendString s) : b < 256 := by
  unfold json.appendString at hb
  simp only [List.cons_append, List.mem_cons, List.mem_append, List.mem_singleton,
    List.not_mem_nil, or_false] at hb
  rcases hb with hb | hb | hb
  · rw [hb]; decide
  · exact appendRunes_bytes s b hb
  · rw [hb]; decide

theorem appendStrings_bytes (l : List String) (b : Nat) (hb : b ∈ json.appendStrings l) :
    b < 256 := by
  induction l with
  | nil => simp [json.appendStrings] at hb
  | cons s l ih =>
    cases l with
    | nil => exact appendString_bytes s b hb
    | cons s₁ l =>
      simp only [json.appendStrings, List.mem_append, List.mem_cons] at hb ih
      rcases hb with hb | hb | hb
      · exact appendString_bytes s b hb
      · rw [hb]; decide
      · exact ih hb

theorem appendCommand_bytes (createdAt : List Nat) (nilOperations : Bool)
    (c : models.ProcessingCommand) (h : ∀ b ∈ createdAt, b < 256) :
    ∀ b ∈ json.appendCommand createdAt nilOperations c, b < 256 := by
  have hops : ∀ b ∈ (if c.RequestedOperations = [] ∧ nilOperations = true then
      "null".toList.map Char.toNat
      else '['.toNat :: json.appendStrings c.RequestedOperations ++ [']'.toNat]), b < 256 := by
    split
    · decide
    · simp only [List.forall_mem_append, List.forall_mem_cons]
      exact ⟨⟨by decide, appendStrings_bytes _⟩, by decide⟩
  simp only [json.appendCommand, List.forall_mem_append, List.forall_mem_cons]
  and_intros
  all_goals first
    | exact hops
    | exact h
    | exact appendString_bytes _
    | decide

/-! ## The wire payload -/

/-- The function `json.Marshal` returns a payload for every command whose `CreatedAt`
falls in a year from 0 to 9999 of its zone, in a zone of less than 24 hours. -/
theorem marshal_returns (offset : Int) (nilOperations : Bool) (c : ProcessingCommand)
    (hYear : 0 ≤ (time.yearOfDays
        ((c.CreatedAt.nanos / 1000000000 + offset) / 86400 + time.unixEpochDay)).1 ∧
      (time.yearOfDays
        ((c.CreatedAt.nanos / 1000000000 + offset) / 86400 + time.unixEpochDay)).1 ≤ 9999)
    (hOffset : offset.natAbs < 86400) :
    ∃ payload, json.Marshal offset nilOperations c = .ok payload := by
  have hRaw : ∃ raw, time.appendStrictRFC3339 c.CreatedAt offset = .ok raw := by
    unfold time.appendStrictRFC3339
    simp only
    generalize time.yearOfDays
      ((c.CreatedAt.nanos / 1000000000 + offset) / 86400 + time.unixEpochDay) = yd at hYear
    have h₁ : ¬ (yd.1 < 0 ∨ 9999 < yd.1) := by omega
    have h₂ : ¬ (offset ≠ 0 ∧ (time.quo offset 60).natAbs / 60 ≥ 24) := by
      intro h
      have h₃ : (time.quo offset 60).natAbs = offset.natAbs / 60 := Int.natAbs_tdiv offset 60
      rw [h₃] at h
      omega
    rw [if_neg h₁, if_neg h₂]
    exact ⟨_, rfl⟩
  obtain ⟨raw, hRaw⟩ := hRaw
  refine ⟨json.toBytes
    (json.appendCommand ('"'.toNat :: raw ++ ['"'.toNat]) nilOperations c), ?_⟩
  unfold json.Marshal json.marshalText time.MarshalJSON
  rw [hRaw]

open worker_service messagebroker in
/-- C13, for a command whose `CreatedAt` is in a zone of whole minutes. Let `payload` be
what `json.Marshal` returns for the command `c`, with `offset` the offset of the zone of
`CreatedAt` in seconds east of UTC. Then `Publish` hands `payload` to the producer, with
the key `[]byte(c.ID)`, and returns the producer's error wrapped, or nil. `GetTask` on
a message with that value returns, without error, the task with the `ID`,
`OriginalPath` and `RequestedOperations` of `c`, with the same instant `CreatedAt`, and
with an empty `Status`. So does `GetTask` on every message whose value is a JSON object
that holds, among members with keys that match no field of the task, the members of
the payload in their order: `payload` is such an object, with the members
`commandMembers`. The strings of a command are sequences of characters, so they are
valid UTF-8. This holds for every general parser of times and every growth of slices
that the libraries may have. -/
theorem C13_command_round_trip {σ : Type} (w : Worker σ) (kp : KafkaProducer σ)
    (parseLayout : List Nat → Except Error Time) (growslice : Nat → Nat)
    (offset : Int) (nilOperations : Bool) (c : ProcessingCommand) (payload : Bytes)
    (hWorker : w.Unmarshal = json.Unmarshal parseLayout growslice)
    (hMarshal : json.Marshal offset nilOperations c = .ok payload)
    (hZone : offset % 60 = 0) :
    (∀ s : σ,
      (Producer.mk kp (json.Marshal offset nilOperations)).Publish c s =
        (((kp.SendWithRetry (bytesOfString c.ID) payload s).1).map
          (Errorf "failed to send task"),
          (kp.SendWithRetry (bytesOfString c.ID) payload s).2)) ∧
    (∀ msg : Message, msg.Value = payload →
      w.GetTask msg =
        .ok ⟨c.ID, "", c.OriginalPath, c.RequestedOperations, c.CreatedAt⟩) ∧
    (∃ raw, time.appendStrictRFC3339 c.CreatedAt offset = .ok raw ∧
      json.parse (json.ofBytes payload) =
        some (.object (json.commandMembers raw nilOperations c))) ∧
    (∀ (msg : Message) (raw : List Nat) (members : List (List Nat × json.Value)),
      time.appendStrictRFC3339 c.CreatedAt offset = .ok raw →
      json.parse (json.ofBytes msg.Value) = some (.object members) →
      members.filter (fun kv => (json.fieldOfLiteral kv.1).isSome) =
        json.commandMembers raw nilOperations c →
      w.GetTask msg =
        .ok ⟨c.ID, "", c.OriginalPath, c.RequestedOperations, c.CreatedAt⟩) := by
  have hMarshal₀ := hMarshal
  unfold json.Marshal at hMarshal
  cases hText : json.marshalText offset nilOperations c with
  | error err =>
    rw [hText] at hMarshal
    cases hMarshal
  | ok text =>
    rw [hText] at hMarshal
    injection hMarshal with hPayload
    obtain ⟨raw, hRaw, hCommand, hParse⟩ := parse_marshalText offset nilOperations c text hText
    have hTime := parseRFC3339_appendStrictRFC3339 c.CreatedAt offset raw hRaw hZone
    have hRawBytes : ∀ b ∈ '"'.toNat :: raw ++ ['"'.toNat], b < 256 := by
      have hb := appendStrictRFC3339_bytes c.CreatedAt offset raw hRaw
      simp only [List.cons_append, List.forall_mem_append, List.forall_mem_cons]
      exact ⟨by decide, fun b h => (timeByte_plain b (hb b h)).2, by decide⟩
    have hBytes : json.ofBytes payload = text := by
      rw [← hPayload]
      apply ofBytes_toBytes
      rw [hCommand]
      exact appendCommand_bytes _ nilOperations c hRawBytes
    have hKnown : ∀ (msg : Message) (members : List (List Nat × json.Value)),
        json.parse (json.ofBytes msg.Value) = some (.object members) →
        members.filter (fun kv => (json.fieldOfLiteral kv.1).isSome) =
          json.commandMembers raw nilOperations c →
        w.GetTask msg =
          .ok ⟨c.ID, "", c.OriginalPath, c.RequestedOperations, c.CreatedAt⟩ := by
      intro msg members hp hf
      obtain ⟨operations, hDecode⟩ :=
        decode_commandMembers parseLayout growslice raw nilOperations c hTime
      have hMembers : json.decodeMembers parseLayout growslice members
          ⟨json.zeroTask, ⟨[], 0⟩, none⟩ =
          .ok ⟨⟨c.ID, "", c.OriginalPath, c.RequestedOperations, c.CreatedAt⟩, operations,
            none⟩ := by
        rw [decodeMembers_known, hf, hDecode]
      simp only [Worker.GetTask, hWorker, json.Unmarshal, json.unmarshalText, hp, hMembers]
    have hSelf : (json.commandMembers raw nilOperations c).filter
        (fun kv => (json.fieldOfLiteral kv.1).isSome) =
        json.commandMembers raw nilOperations c := by
      obtain ⟨f₁, f₂, f₃, f₄⟩ := fieldOfLiteral_tags
      simp [json.commandMembers, List.filter_cons, f₁, f₂, f₃, f₄]
    refine ⟨?_, ?_, ⟨raw, hRaw, by rw [hBytes]; exact hParse⟩, ?_⟩
    · intro s
      simp only [Producer.Publish, hMarshal₀, bind, StateT.bind, pure, StateT.pure]
      cases hSend : (kp.SendWithRetry (bytesOfString c.ID) payload s).1 <;>
        simp [hSend] <;> rfl
    · intro msg hValue
      exact hKnown msg _ (by rw [hValue, hBytes]; exact hParse) hSelf
    · intro msg raw₁ members hRaw₁ hp hf
      have : raw₁ = raw := by
        rw [hRaw] at hRaw₁
        injection hRaw₁ with h
        exact h.symm
      rw [this] at hf
      exact hKnown msg members hp hf

set_option maxRecDepth 100000 in
/-- C13 as stated fails for a command whose `CreatedAt` is in a zone with an offset
that is not a whole number of minutes: the layout of RFC 3339 writes the offset in
hours and minutes and drops its seconds. For the command of `T1` with `CreatedAt` at
1700000000 seconds of Unix time in a zone 19 minutes and 32 seconds east of UTC, which
`time.FixedZone` gives, `json.Marshal` writes `22:32:52+00:19`, and `GetTask` returns a
task whose `CreatedAt` is 32 seconds later than that of the command. -/
theorem C13_counterexample :
    json.Marshal 1172 false mem.command0 =
      .ok (mem.utf8Bytes ("\x7b\"id\":\"T1\",\"original_path\":\"original/T1.jpg\"," ++
        "\"requested_operations\":[\"resize\",\"thumbnail\",\"watermark\"]," ++
        "\"created_at\":\"2023-11-14T22:32:52+00:19\"\x7d")) ∧
    mem.jsonWorker.GetTask ⟨"images", 0, 0, [],
        mem.utf8Bytes ("\x7b\"id\":\"T1\",\"original_path\":\"original/T1.jpg\"," ++
          "\"requested_operations\":[\"resize\",\"thumbnail\",\"watermark\"]," ++
          "\"created_at\":\"2023-11-14T22:32:52+00:19\"\x7d")⟩ =
      .ok ⟨"T1", "", "original/T1.jpg", ["resize", "thumbnail", "watermark"],
        ⟨1700000032000000000⟩⟩ ∧
    (⟨1700000032000000000⟩ : Time) ≠ mem.command0.CreatedAt :=
  ⟨rfl, rfl, by decide⟩

set_option maxRecDepth 100000 in
/-- C13 in the in-memory world, for a command with characters that the encoder escapes
and characters outside ASCII, created in a zone three hours east of UTC: the payload
that `json.Marshal` writes, and a payload with white space and with three members more,
whose keys match no field of the task, both decode to the task of the command. -/
theorem C13_command_round_trip_witness :
    json.Marshal 10800 false mem.command1 =
      .ok (mem.utf8Bytes ("\x7b\"id\":\"T1 \\u003cé\\u0026猫\\u003e\"," ++
        "\"original_path\":\"original/T1 \\\"é\\\".jpg\"," ++
        "\"requested_operations\":[\"resize\",\"水印\\n\"]," ++
        "\"created_at\":\"2023-11-15T01:13:20.123456+03:00\"\x7d")) ∧
    (10800 : Int) % 60 = 0 ∧
    mem.jsonWorker.GetTask ⟨"images", 0, 0, [],
        mem.utf8Bytes ("\x7b\"id\":\"T1 \\u003cé\\u0026猫\\u003e\"," ++
          "\"original_path\":\"original/T1 \\\"é\\\".jpg\"," ++
          "\"requested_operations\":[\"resize\",\"水印\\n\"]," ++
          "\"created_at\":\"2023-11-15T01:13:20.123456+03:00\"\x7d")⟩ =
      .ok ⟨"T1 <é&猫>", "", "original/T1 \"é\".jpg", ["resize", "水印\n"],
        ⟨1700000000123456000⟩⟩ ∧
    mem.jsonWorker.GetTask ⟨"images", 0, 1, [],
        mem.utf8Bytes ("\x7b \"trace\": \x7b\"hop\": [1, 2.5e3]\x7d, " ++
          "\"id\":\"T1 \\u003cé\\u0026猫\\u003e\", \"attempt\": 3,\n" ++
          "\"original_path\":\"original/T1 \\\"é\\\".jpg\"," ++
          "\"requested_operations\":[\"resize\",\"水印\\n\"]," ++
          "\"created_at\":\"2023-11-15T01:13:20.123456+03:00\", \"note\": null \x7d")⟩ =
      .ok ⟨"T1 <é&猫>", "", "original/T1 \"é\".jpg", ["resize", "水印\n"],
        ⟨1700000000123456000⟩⟩ :=
  ⟨rfl, rfl,
    (C13_command_round_trip mem.jsonWorker ⟨fun _ _ world => (none, world)⟩ mem.parseLayout
      mem.growslice 10800 false mem.command1 _ rfl rfl rfl).2.1 _ rfl,
    (C13_command_round_trip mem.jsonWorker ⟨fun _ _ world => (none, world)⟩ mem.parseLayout
      mem.growslice 10800 false mem.command1 _ rfl rfl rfl).2.2.2 _
      ("2023-11-15T01:13:20.123456+03:00".toList.map Char.toNat)
      [("trace".toList.map Char.toNat,
          .object [("hop".toList.map Char.toNat,
            .array [.number ("1".toList.map Char.toNat),
              .number ("2.5e3".toList.map Char.toNat)])]),
       (json.appendRunes "id", .string (json.appendRunes "T1 <é&猫>")),
       ("attempt".toList.map Char.toNat, .number ("3".toList.map Char.toNat)),
       (json.appendRunes "original_path", .string (json.appendRunes "original/T1 \"é\".jpg")),
       (json.appendRunes "requested_operations",
          .array [.string (json.appendRunes "resize"), .string (json.appendRunes "水印\n")]),
       (json.appendRunes "created_at",
          .string ("2023-11-15T01:13:20.123456+03:00".toList.map Char.toNat)),
       ("note".toList.map Char.toNat, .null)]
      rfl rfl rfl⟩

end ImageProcessor
